import Mathlib

/-!
Verification of the class-collector core engine against its design
specification.  The Go source is shallowly embedded: pure Go functions
become Lean functions over List/String/Nat/Int, Go byte strings become
Lean strings (with explicit UTF-8 byte lists where the code hashes
bytes), and the package-global knobs of the delta engine (similarity
rename flag, threshold, content provider) become an explicit
configuration record, matching the design note that tells
re-implementors to thread a config struct instead of globals.

Go map values keyed by string are embedded as association lists in key
insertion order; the Go runtime iterates maps in unspecified order, and
every theorem below is stated so that it only depends on facts that are
invariant under reordering (path multisets, sorted outputs, membership).

String comparison in Go is bytewise lexicographic over UTF-8; for valid
UTF-8 this coincides with code-point lexicographic order, which is what
charsLt below implements over the character lists of Lean strings.
-/

namespace CC

/-- Bytewise (code point) strict lexicographic order on character lists,
matching the Go string comparison operator. -/
def charsLt : List Char → List Char → Bool
  | _, [] => false
  | [], _ :: _ => true
  | a :: as, b :: bs =>
    if a.toNat < b.toNat then true
    else if b.toNat < a.toNat then false
    else charsLt as bs

/-- Go string comparison a less-than b. -/
def strLt (a b : String) : Bool := charsLt a.data b.data

/-- Go string comparison a less-or-equal b, as the negation of strLt b a. -/
def strLe (a b : String) : Bool := !(strLt b a)

theorem charsLt_irrefl (a : List Char) : charsLt a a = false := by
  induction a with
  | nil => rfl
  | cons x xs ih => simp [charsLt, ih]

theorem charsLt_asymm : ∀ a b : List Char,
    charsLt a b = true → charsLt b a = false := by
  intro a
  induction a with
  | nil =>
    intro b _
    cases b with
    | nil => rfl
    | cons y ys => rfl
  | cons x xs ih =>
    intro b hab
    cases b with
    | nil => simp [charsLt] at hab
    | cons y ys =>
      simp only [charsLt] at hab ⊢
      by_cases h1 : x.toNat < y.toNat
      · have h2 : ¬ y.toNat < x.toNat := by omega
        simp [h1, h2]
      · by_cases h2 : y.toNat < x.toNat
        · simp [h1, h2] at hab
        · simp [h1, h2] at hab ⊢
          exact ih ys hab

theorem charsLt_trans : ∀ a b c : List Char,
    charsLt a b = true → charsLt b c = true → charsLt a c = true := by
  intro a
  induction a with
  | nil =>
    intro b c hab hbc
    cases b with
    | nil => simp [charsLt] at hab
    | cons y ys =>
      cases c with
      | nil => simp [charsLt] at hbc
      | cons z zs => rfl
  | cons x xs ih =>
    intro b c hab hbc
    cases b with
    | nil => simp [charsLt] at hab
    | cons y ys =>
      cases c with
      | nil => simp [charsLt] at hbc
      | cons z zs =>
        simp only [charsLt] at hab hbc ⊢
        by_cases hxy : x.toNat < y.toNat
        · by_cases hyz : y.toNat < z.toNat
          · simp [show x.toNat < z.toNat by omega]
          · by_cases hzy : z.toNat < y.toNat
            · simp [hxy, hyz, hzy] at hbc
            · have : y.toNat = z.toNat := by omega
              simp [show x.toNat < z.toNat by omega]
        · by_cases hyx : y.toNat < x.toNat
          · simp [hxy, hyx] at hab
          · have hxyEq : x.toNat = y.toNat := by omega
            simp [hxy, hyx] at hab
            by_cases hyz : y.toNat < z.toNat
            · simp [show x.toNat < z.toNat by omega]
            · by_cases hzy : z.toNat < y.toNat
              · simp [hyz, hzy] at hbc
              · simp [hyz, hzy] at hbc
                simp [show ¬ x.toNat < z.toNat by omega,
                      show ¬ z.toNat < x.toNat by omega]
                exact ih ys zs hab hbc

theorem charsLt_conn : ∀ a b : List Char,
    charsLt a b = false → charsLt b a = false → a = b := by
  intro a
  induction a with
  | nil =>
    intro b hab _
    cases b with
    | nil => rfl
    | cons y ys => simp [charsLt] at hab
  | cons x xs ih =>
    intro b hab hba
    cases b with
    | nil => simp [charsLt] at hba
    | cons y ys =>
      simp only [charsLt] at hab hba
      by_cases hxy : x.toNat < y.toNat
      · simp [hxy] at hab
      · by_cases hyx : y.toNat < x.toNat
        · simp [hxy, hyx] at hba
        · have hxy' : x.toNat = y.toNat := by omega
          have hx : x = y := Char.ext (UInt32.ext hxy')
          simp [hxy, hyx] at hab hba
          exact hx ▸ congrArg (x :: ·) (ih ys hab hba)

theorem strLt_irrefl (a : String) : strLt a a = false := charsLt_irrefl a.data

theorem strLt_asymm {a b : String} (h : strLt a b = true) : strLt b a = false :=
  charsLt_asymm a.data b.data h

theorem strLt_trans {a b c : String} (h1 : strLt a b = true)
    (h2 : strLt b c = true) : strLt a c = true :=
  charsLt_trans a.data b.data c.data h1 h2

theorem strLt_conn {a b : String} (h1 : strLt a b = false)
    (h2 : strLt b a = false) : a = b := by
  cases a; cases b
  exact congrArg String.mk (charsLt_conn _ _ h1 h2)

theorem strLe_total (a b : String) : strLe a b = true ∨ strLe b a = true := by
  unfold strLe
  by_cases h : strLt b a = true
  · right; simp [strLt_asymm h]
  · left; simp at h; simp [h]

theorem strLe_trans {a b c : String} (h1 : strLe a b = true)
    (h2 : strLe b c = true) : strLe a c = true := by
  unfold strLe at *
  simp only [Bool.not_eq_true'] at h1 h2 ⊢
  by_cases hca : strLt c a = true
  · by_cases hab : strLt a b = true
    · exact absurd (strLt_trans hca hab) (by simp [h2])
    · simp at hab
      rcases (by by_cases h : strLt b a = true <;> simp [h] :
          strLt b a = true ∨ strLt b a = false) with hba | hba
      · simp [hba] at h1
      · exact absurd (strLt_conn hab hba ▸ hca) (by simp [h2])
  · simpa using hca

theorem strLe_antisymm {a b : String} (h1 : strLe a b = true)
    (h2 : strLe b a = true) : a = b := by
  unfold strLe at h1 h2
  simp only [Bool.not_eq_true'] at h1 h2
  exact strLt_conn h2 h1

/-- Sorting wrapper used to embed the Go sort.Slice and sort.Strings calls.
Go uses an unstable sort; every call site in the embedded code sorts by a
key whose ties can only occur between fully equal elements (or cannot occur
at all), so any correct sequential sort is a faithful embedding. -/
def sortBy (le : α → α → Bool) (l : List α) : List α :=
  List.insertionSort (fun a b => le a b = true) l

theorem sortBy_perm (le : α → α → Bool) (l : List α) :
    (sortBy le l).Perm l :=
  List.perm_insertionSort (fun a b => le a b = true) l

theorem sortBy_sorted (le : α → α → Bool)
    (htot : ∀ a b, le a b = true ∨ le b a = true)
    (htrans : ∀ a b c, le a b = true → le b c = true → le a c = true)
    (l : List α) :
    List.Sorted (fun a b => le a b = true) (sortBy le l) := by
  letI : IsTotal α (fun a b => le a b = true) := ⟨htot⟩
  letI : IsTrans α (fun a b => le a b = true) := ⟨htrans⟩
  exact List.sorted_insertionSort _ l

/-- strings.Split on a single separator character; the empty string splits
into one empty part, as in Go. -/
def splitOnChar (sep : Char) : List Char → List (List Char)
  | [] => [[]]
  | c :: rest =>
    if c = sep then [] :: splitOnChar sep rest
    else
      match splitOnChar sep rest with
      | [] => [[c]]
      | l :: ls => (c :: l) :: ls

theorem splitOnChar_not_mem (sep : Char) :
    ∀ l : List Char, ∀ p ∈ splitOnChar sep l, sep ∉ p := by
  intro l
  induction l with
  | nil =>
    intro p hp
    simp [splitOnChar] at hp
    simp [hp]
  | cons c rest ih =>
    intro p hp
    by_cases hc : c = sep
    · simp [splitOnChar, hc] at hp
      rcases hp with hp | hp
      · simp [hp]
      · exact ih p hp
    · simp only [splitOnChar, if_neg hc] at hp
      rcases hrec : splitOnChar sep rest with _ | ⟨l0, ls⟩
      · rw [hrec] at hp
        simp at hp
        subst hp
        simp only [List.mem_singleton]
        exact fun h => hc h.symm
      · rw [hrec] at hp
        rcases List.mem_cons.mp hp with rfl | hp'
        · intro hmem
          rcases List.mem_cons.mp hmem with rfl | hmem'
          · exact hc rfl
          · exact ih l0 (hrec ▸ List.mem_cons_self l0 ls) hmem'
        · exact ih p (hrec ▸ List.mem_cons_of_mem l0 hp')

theorem splitOnChar_ne_nil (sep : Char) :
    ∀ l : List Char, splitOnChar sep l ≠ [] := by
  intro l
  induction l with
  | nil => simp [splitOnChar]
  | cons c rest ih =>
    by_cases hc : c = sep
    · simp [splitOnChar, hc]
    · simp only [splitOnChar, if_neg hc]
      rcases hrec : splitOnChar sep rest with _ | ⟨l0, ls⟩
      · simp
      · simp

theorem splitOnChar_no_sep (sep : Char) :
    ∀ l : List Char, sep ∉ l → splitOnChar sep l = [l] := by
  intro l
  induction l with
  | nil => intro _; rfl
  | cons c rest ih =>
    intro hmem
    have hc : c ≠ sep := fun h => hmem (h ▸ List.mem_cons_self c rest)
    have hrest : sep ∉ rest := fun h => hmem (List.mem_cons_of_mem c h)
    simp only [splitOnChar, if_neg hc, ih hrest]

theorem splitOnChar_append_sep (sep : Char) :
    ∀ p l : List Char, sep ∉ p →
      splitOnChar sep (p ++ sep :: l) = p :: splitOnChar sep l := by
  intro p
  induction p with
  | nil =>
    intro l _
    simp [splitOnChar]
  | cons c cs ih =>
    intro l hmem
    have hc : c ≠ sep := fun h => hmem (h ▸ List.mem_cons_self c cs)
    have hcs : sep ∉ cs := fun h => hmem (List.mem_cons_of_mem c h)
    simp only [List.cons_append, splitOnChar, if_neg hc]
    rw [show cs.append (sep :: l) = cs ++ sep :: l from rfl, ih l hcs]

end CC

namespace CC.Index

/-- Anchor marks a named region in a source file, embedding the Anchor
struct of internal/index/types.go.  The End field of the Go struct is
called stop here because end is reserved in Lean. -/
structure Anchor where
  name : String
  start : Int
  stop : Int
deriving DecidableEq, Repr

/-- Slice embeds the Slice struct of internal/index/types.go; the Go field
named Slice is called slice, End is called stop.  The optional Summary
field is always empty in the embedded code paths and is omitted. -/
structure Slice where
  path : String
  slice : String
  start : Int
  stop : Int
deriving DecidableEq, Repr

/-- Loop body of the chunking for-loop in BuildSlices
(internal/index/slices file, part_008): for s := 1; s <= totalLines;
s += maxFileLines.  The loop is embedded with a fuel argument for
structural recursion; fuel at least (totalLines + 1 - s).toNat makes the
fuel case unreachable because each iteration advances s by
maxFileLines >= 1 at every call site. -/
def chunkFrom (relPath : String) (totalLines maxFileLines : Int) :
    Nat → Int → List Slice
  | 0, _ => []
  | fuel + 1, s =>
    if s ≤ totalLines then
      let e := if s + maxFileLines - 1 > totalLines then totalLines
               else s + maxFileLines - 1
      { path := relPath, slice := "chunk_" ++ toString s, start := s, stop := e }
        :: chunkFrom relPath totalLines maxFileLines fuel (s + maxFileLines)
    else []

/-- Non-strict form of the anchor ordering (Start, End, Name) used by the
sort.Slice calls on anchors; ties in all three keys only happen between
equal Anchor values, so this le comparator embeds the Go less faithfully. -/
def anchorLe (a b : Anchor) : Bool :=
  if a.start ≠ b.start then decide (a.start < b.start)
  else if a.stop ≠ b.stop then decide (a.stop < b.stop)
  else strLe a.name b.name

/-- Removal of adjacent exact duplicates, embedding the uniq loop at the
end of normalizeAnchorsForSlices; the reference element is always the last
kept anchor. -/
def dedupAdjacentAnchors : List Anchor → List Anchor
  | [] => []
  | [a] => [a]
  | a :: b :: rest =>
    if b.name = a.name ∧ b.start = a.start ∧ b.stop = a.stop then
      dedupAdjacentAnchors (a :: rest)
    else a :: dedupAdjacentAnchors (b :: rest)

/-- Clamp-sort-dedupe of anchors used by BuildSlices, embedding
normalizeAnchorsForSlices from the same file. -/
def normalizeAnchorsForSlices (inA : List Anchor) (total : Int) : List Anchor :=
  if inA = [] then []
  else
    let out := inA.map (fun a =>
      let start := if a.start < 1 then 1 else a.start
      let e1 := if a.stop < start then start else a.stop
      let e2 := if e1 > total then total else e1
      { name := a.name, start := start, stop := e2 })
    dedupAdjacentAnchors (sortBy anchorLe out)

/-- BuildSlices embeds the function of the same name (part_008): anchors
take precedence; otherwise large files are chunked. -/
def BuildSlices (relPath : String) (anchors : List Anchor)
    (totalLines maxFileLines : Int) : List Slice :=
  let totalLines := if totalLines < 1 then 1 else totalLines
  if anchors ≠ [] then
    let na := normalizeAnchorsForSlices anchors totalLines
    na.map (fun a =>
      { path := relPath, slice := a.name, start := a.start, stop := a.stop })
  else if maxFileLines ≤ 0 then
    [{ path := relPath, slice := "chunk_1", start := 1, stop := totalLines }]
  else if totalLines ≤ maxFileLines then []
  else chunkFrom relPath totalLines maxFileLines (totalLines.toNat + 1) 1

theorem chunkFrom_spec (rel : String) (n m : Int) (hm : 1 ≤ m) :
    ∀ (fuel : Nat) (s : Int), 1 ≤ s → s ≤ n → (n + 1 - s).toNat ≤ fuel →
      (chunkFrom rel n m fuel s ≠ [] ∧
       (chunkFrom rel n m fuel s).head?.map Slice.start = some s ∧
       List.Chain' (fun a b => b.start = a.stop + 1) (chunkFrom rel n m fuel s) ∧
       (∀ sl ∈ chunkFrom rel n m fuel s,
          sl.path = rel ∧
          sl.slice = "chunk_" ++ toString sl.start ∧
          sl.stop = min (sl.start + m - 1) n ∧ sl.start ≤ sl.stop ∧ 1 ≤ sl.start) ∧
       (chunkFrom rel n m fuel s).getLast?.map Slice.stop = some n) := by
  intro fuel
  induction fuel with
  | zero =>
    intro s h1 h2 h3
    omega
  | succ fuel ih =>
    intro s h1 h2 h3
    by_cases hlast : s + m ≤ n
    · have h1' : 1 ≤ s + m := by omega
      have h3' : (n + 1 - (s + m)).toNat ≤ fuel := by omega
      obtain ⟨ne, hd, ch, mem, lst⟩ := ih (s + m) h1' hlast h3'
      have hstep : chunkFrom rel n m (fuel + 1) s =
          { path := rel, slice := "chunk_" ++ toString s, start := s,
            stop := s + m - 1 } :: chunkFrom rel n m fuel (s + m) := by
        simp only [chunkFrom, if_pos h2]
        have hne : ¬ s + m - 1 > n := by omega
        simp [hne]
      rw [hstep]
      refine ⟨by simp, by simp, ?_, ?_, ?_⟩
      · rcases hrec : chunkFrom rel n m fuel (s + m) with _ | ⟨b, rest⟩
        · simp
        · rw [hrec] at hd ch
          simp only [List.head?_cons, Option.map_some] at hd
          refine List.Chain'.cons ?_ ch
          have hb : b.start = s + m := by
            have := Option.some.inj hd
            omega
          show b.start = (s + m - 1) + 1
          omega
      · intro sl hsl
        rcases List.mem_cons.mp hsl with rfl | hsl'
        · exact ⟨rfl, rfl, by show s + m - 1 = min (s + m - 1) n; omega,
            by show s ≤ s + m - 1; omega, h1⟩
        · exact mem sl hsl'
      · rcases hrec : chunkFrom rel n m fuel (s + m) with _ | ⟨b, rest⟩
        · rw [hrec] at ne; simp at ne
        · rw [hrec] at lst
          simpa using lst
    · have hstep : chunkFrom rel n m (fuel + 1) s =
          [{ path := rel, slice := "chunk_" ++ toString s, start := s,
             stop := n }] := by
        simp only [chunkFrom, if_pos h2]
        have he : (if s + m - 1 > n then n else s + m - 1) = n := by
          split <;> omega
        have hrec : chunkFrom rel n m fuel (s + m) = [] := by
          cases fuel with
          | zero => rfl
          | succ f => simp [chunkFrom, show ¬ s + m ≤ n by omega]
        simp [he, hrec]
      rw [hstep]
      refine ⟨by simp, by simp, by simp, ?_, by simp⟩
      intro sl hsl
      rcases List.mem_cons.mp hsl with rfl | hsl'
      · exact ⟨rfl, rfl, by show n = min (s + m - 1) n; omega,
          by show s ≤ n; omega, h1⟩
      · simp at hsl'

/-- C7: for a file with no anchors, BuildSlices emits one whole-file slice
chunk_1 when maxFileLines is nonpositive, nothing when the file fits in
maxFileLines, and otherwise consecutive chunk_(start) slices of width
maxFileLines covering lines 1..totalLines with the last possibly shorter;
a 1200-line file with maxFileLines 500 yields chunk_1, chunk_501 and
chunk_1001. -/
theorem buildSlices_chunking (rel : String) (n m : Int) (hn : 1 ≤ n) :
    (m ≤ 0 → BuildSlices rel [] n m =
        [{ path := rel, slice := "chunk_1", start := 1, stop := n }]) ∧
    (0 < m → n ≤ m → BuildSlices rel [] n m = []) ∧
    (0 < m → m < n →
      (BuildSlices rel [] n m ≠ [] ∧
       (BuildSlices rel [] n m).head?.map Slice.start = some 1 ∧
       List.Chain' (fun a b => b.start = a.stop + 1) (BuildSlices rel [] n m) ∧
       (∀ sl ∈ BuildSlices rel [] n m,
          sl.path = rel ∧
          sl.slice = "chunk_" ++ toString sl.start ∧
          sl.stop = min (sl.start + m - 1) n ∧ sl.start ≤ sl.stop ∧ 1 ≤ sl.start) ∧
       (BuildSlices rel [] n m).getLast?.map Slice.stop = some n)) ∧
    BuildSlices "f.go" [] 1200 500 =
      [{ path := "f.go", slice := "chunk_1", start := 1, stop := 500 },
       { path := "f.go", slice := "chunk_501", start := 501, stop := 1000 },
       { path := "f.go", slice := "chunk_1001", start := 1001, stop := 1200 }] := by
  have hclamp : ¬ n < 1 := by omega
  refine ⟨?_, ?_, ?_, ?_⟩
  · intro hm
    simp [BuildSlices, hclamp, hm]
  · intro hm hnm
    simp [BuildSlices, hclamp, show ¬ m ≤ 0 by omega, hnm]
  · intro hm hnm
    have hbs : BuildSlices rel [] n m =
        chunkFrom rel n m (n.toNat + 1) 1 := by
      simp [BuildSlices, hclamp, show ¬ m ≤ 0 by omega, show ¬ n ≤ m by omega]
    rw [hbs]
    exact chunkFrom_spec rel n m (by omega) (n.toNat + 1) 1 (by omega) (by omega)
      (by omega)
  · decide

/-- Witness for buildSlices_chunking at the concrete 1200-line file. -/
theorem buildSlices_chunking_witness :
    (1 : Int) ≤ 1200 ∧
    BuildSlices "f.go" [] 1200 500 =
      [{ path := "f.go", slice := "chunk_1", start := 1, stop := 500 },
       { path := "f.go", slice := "chunk_501", start := 501, stop := 1000 },
       { path := "f.go", slice := "chunk_1001", start := 1001, stop := 1200 }] :=
  ⟨by decide, (buildSlices_chunking "f.go" 1200 500 (by decide)).2.2.2⟩

end CC.Index

namespace CC.Diff

/-- Options embeds the Options struct of internal/diff/diff.go.  The Go
field NoPrefix is called noPfx here; TimeoutSeconds is kept for backward
compatibility in the source, never read, and therefore omitted. -/
structure Options where
  maxBytes : Int
  context : Int
  noPfx : Bool
  lineMode : Bool
deriving DecidableEq, Repr

/-- The compact placeholder for oversize diffs, embedding omitted from
internal/diff/diff.go. -/
def omitted (aName bName : String) : String :=
  "--- " ++ aName ++ "\n+++ " ++ bName ++ "\n@@\n# diff omitted (oversize)\n"

/-- splitLinesKeepNL helper: strings.SplitAfter on the newline byte; file
contents are byte lists and the split happens on byte 10, which for UTF-8
text coincides with the Go string-level SplitAfter. -/
def splitAfterNL : List Nat → List (List Nat)
  | [] => [[]]
  | c :: rest =>
    if c = 10 then [c] :: splitAfterNL rest
    else
      match splitAfterNL rest with
      | [] => [[c]]
      | l :: ls => (c :: l) :: ls

/-- splitLinesKeepNL embeds the function of the same name: empty input
yields an empty line list, otherwise SplitAfter keeping newlines. -/
def splitLinesKeepNL (s : List Nat) : List (List Nat) :=
  if s = [] then [] else splitAfterNL s

/-- Unified embeds the function of the same name from internal/diff/diff.go.
The spec (section 1) treats unified-diff string generation as an external
collaborator, so the difflib.GetUnifiedDiffString call is passed in as the
difflibGet argument, receiving the split line lists, the two names and the
context; a Go error or empty string from difflib is modelled as none or
some of the empty string.  The function is total: no input makes the run
fail. -/
def Unified
    (difflibGet : List (List Nat) → List (List Nat) → String → String → Int →
      Option String)
    (aName bName : String) (a b : List Nat) (opt : Options) : String × Bool :=
  if 0 < opt.maxBytes ∧ opt.maxBytes < (a.length : Int) + (b.length : Int) then
    (omitted aName bName, true)
  else
    let ctx := if opt.context ≤ 0 then 4 else opt.context
    let ua := splitLinesKeepNL a
    let ub := splitLinesKeepNL b
    match difflibGet ua ub aName bName ctx with
    | none => (omitted aName bName, false)
    | some s => if s = "" then (omitted aName bName, false) else (s, false)

/-- C8: whenever MaxBytes is positive and the combined input size exceeds
it, Unified returns oversize true with exactly the placeholder body, for
every diff engine; the run never fails because Unified is total. -/
theorem unified_oversize
    (difflibGet : List (List Nat) → List (List Nat) → String → String → Int →
      Option String)
    (aName bName : String) (a b : List Nat) (opt : Options)
    (hpos : 0 < opt.maxBytes)
    (hover : opt.maxBytes < (a.length : Int) + (b.length : Int)) :
    Unified difflibGet aName bName a b opt = (omitted aName bName, true) ∧
    omitted aName bName =
      "--- " ++ aName ++ "\n+++ " ++ bName ++ "\n@@\n# diff omitted (oversize)\n" := by
  refine ⟨?_, rfl⟩
  simp [Unified, hpos, hover]

/-- Witness for unified_oversize at a concrete oversize input. -/
theorem unified_oversize_witness :
    (0 : Int) < 3 ∧ (3 : Int) < ((([1, 2] : List Nat).length : Int) +
      (([3, 4] : List Nat).length : Int)) ∧
    Unified (fun _ _ _ _ _ => none) "a" "b" [1, 2] [3, 4]
        { maxBytes := 3, context := 0, noPfx := false, lineMode := false } =
      ("--- a\n+++ b\n@@\n# diff omitted (oversize)\n", true) :=
  ⟨by decide, by decide,
    (unified_oversize (fun _ _ _ _ _ => none) "a" "b" [1, 2] [3, 4]
      { maxBytes := 3, context := 0, noPfx := false, lineMode := false }
      (by decide) (by decide)).1.trans (by decide)⟩

end CC.Diff

namespace CC.Ziputil

/-- filepath.ToSlash replaces the OS path separator with the forward
slash.  It is embedded with the Windows separator, which is the reading
the spec intends (forward-slash normalization); on POSIX builds ToSlash
is the identity and the backslash never acts as a separator, so every
property proved below holds under either reading because the backslash is
treated as an ordinary character everywhere else. -/
def toSlash (p : String) : String :=
  String.mk (p.data.map (fun c => if c = '\\' then '/' else c))

/-- The drive-prefix strip of SanitizePath: Go tests the second byte of
the string against the colon and drops the first two bytes.  At the
character level the second byte is a colon exactly when the first
character is a single-byte character and the second character is a colon,
in which case dropping two bytes drops those two characters. -/
def stripDrive (s : List Char) : List Char :=
  match s with
  | c0 :: ':' :: rest => if c0.utf8Size = 1 then rest else s
  | _ => s

/-- strings.TrimLeft of forward slashes. -/
def dropLeadingSlashes : List Char → List Char
  | [] => []
  | c :: rest => if c = '/' then dropLeadingSlashes rest else c :: rest

/-- The segment-resolution loop of SanitizePath: empty and dot segments
are skipped, a dot-dot segment pops the stack only when it is nonempty,
anything else is pushed. -/
def resolveParts : List (List Char) → List (List Char) → List (List Char)
  | [], stack => stack
  | part :: rest, stack =>
    if part = [] ∨ part = ['.'] then resolveParts rest stack
    else if part = ['.', '.'] then
      resolveParts rest (if stack = [] then stack else stack.dropLast)
    else resolveParts rest (stack ++ [part])

/-- strings.Join with the forward slash. -/
def joinSlash : List (List Char) → List Char
  | [] => []
  | [p] => p
  | p :: rest => p ++ '/' :: joinSlash rest

/-- The body of SanitizePath after the ToSlash step: drive strip, left
trim of slashes, segment split, resolution, join, empty fallback. -/
def sanitizeCore (s0 : List Char) : String :=
  let s := dropLeadingSlashes (stripDrive s0)
  let parts := splitOnChar '/' s
  let stack := resolveParts parts []
  let j := joinSlash stack
  if j = [] then "entry" else String.mk j

/-- SanitizePath embeds the function of the same name from the ziputil
package (src/unnamed/part_006); sanitizeZipPath in
internal/bundle/zipdelta.go is the identical algorithm. -/
def SanitizePath (p : String) : String :=
  sanitizeCore (toSlash p).data

/-- A good archive segment: nonempty, not a dot, not a dot-dot, and free
of separators. -/
def GoodSeg (p : List Char) : Prop :=
  p ≠ [] ∧ p ≠ ['.'] ∧ p ≠ ['.', '.'] ∧ '/' ∉ p

theorem splitOnChar_joinSlash :
    ∀ parts : List (List Char), parts ≠ [] → (∀ p ∈ parts, '/' ∉ p) →
      splitOnChar '/' (joinSlash parts) = parts := by
  intro parts
  induction parts with
  | nil => intro h _; exact absurd rfl h
  | cons p rest ih =>
    intro _ hmem
    cases rest with
    | nil =>
      exact splitOnChar_no_sep '/' p (hmem p (List.mem_cons_self p []))
    | cons q qs =>
      have hp : '/' ∉ p := hmem p (List.mem_cons_self p (q :: qs))
      show splitOnChar '/' (p ++ '/' :: joinSlash (q :: qs)) = _
      rw [splitOnChar_append_sep '/' p (joinSlash (q :: qs)) hp]
      rw [ih (by simp) (fun r hr => hmem r (List.mem_cons_of_mem p hr))]

theorem resolveParts_good :
    ∀ (parts stack : List (List Char)), (∀ p ∈ stack, GoodSeg p) →
      (∀ p ∈ parts, '/' ∉ p) →
      ∀ p ∈ resolveParts parts stack, GoodSeg p := by
  intro parts
  induction parts with
  | nil =>
    intro stack hstack _ p hp
    exact hstack p hp
  | cons part rest ih =>
    intro stack hstack hparts p hp
    have hrest : ∀ q ∈ rest, '/' ∉ q :=
      fun q hq => hparts q (List.mem_cons_of_mem part hq)
    by_cases h1 : part = [] ∨ part = ['.']
    · rw [show resolveParts (part :: rest) stack = resolveParts rest stack by
        simp only [resolveParts, if_pos h1]] at hp
      exact ih stack hstack hrest p hp
    · by_cases h2 : part = ['.', '.']
      · rw [show resolveParts (part :: rest) stack =
            resolveParts rest (if stack = [] then stack else stack.dropLast) by
          simp only [resolveParts, if_neg h1, if_pos h2]] at hp
        refine ih _ ?_ hrest p hp
        intro q hq
        by_cases hs : stack = []
        · rw [if_pos hs] at hq
          exact hstack q hq
        · rw [if_neg hs] at hq
          exact hstack q (List.dropLast_subset _ hq)
      · rw [show resolveParts (part :: rest) stack =
            resolveParts rest (stack ++ [part]) by
          simp only [resolveParts, if_neg h1, if_neg h2]] at hp
        refine ih _ ?_ hrest p hp
        intro q hq
        rcases List.mem_append.mp hq with hq' | hq'
        · exact hstack q hq'
        · have : q = part := by simpa using hq'
          subst this
          push_neg at h1
          exact ⟨h1.1, h1.2, h2, hparts q (List.mem_cons_self q rest)⟩

theorem joinSlash_head (p : List Char) (rest : List (List Char)) :
    (joinSlash (p :: rest)).head? = if p = [] then
      (match rest with
        | [] => ([] : List Char)
        | _ :: _ => '/' :: joinSlash rest).head? else p.head? := by
  cases rest with
  | nil =>
    cases p with
    | nil => rfl
    | cons c cs => rfl
  | cons q qs =>
    cases p with
    | nil => rfl
    | cons c cs => rfl

/-- C6 (amended): SanitizePath returns a path whose slash-separated
segments are nonempty and contain no dot and no dot-dot segment, that has
no leading slash and is never empty (the empty resolution yields the
segment entry); a leading dot-dot is a no-op, so the resolution never
escapes the root.  The original drive-prefix conjunct is corrected by
sanitizePath_drive_counterexample: only the leading drive prefix of the
input is dropped, and a later colon segment can surface as a drive-like
prefix of the result. -/
theorem sanitizeCore_eq (s0 : List Char) :
    sanitizeCore s0 =
      (if joinSlash (resolveParts (splitOnChar '/'
          (dropLeadingSlashes (stripDrive s0))) []) = [] then "entry"
       else String.mk (joinSlash (resolveParts (splitOnChar '/'
          (dropLeadingSlashes (stripDrive s0))) []))) := rfl

theorem sanitizePath_dotdot_root (s : List Char) :
    sanitizeCore ('.' :: '.' :: '/' :: s) = sanitizeCore ('.' :: '/' :: s) := by
  rw [sanitizeCore_eq, sanitizeCore_eq]
  have h2 : dropLeadingSlashes (stripDrive ('.' :: '.' :: '/' :: s)) =
      '.' :: '.' :: '/' :: s := rfl
  have h1 : dropLeadingSlashes (stripDrive ('.' :: '/' :: s)) =
      '.' :: '/' :: s := rfl
  rw [h2, h1]
  rw [show ('.' :: '.' :: '/' :: s) = ['.', '.'] ++ '/' :: s from rfl,
      splitOnChar_append_sep '/' ['.', '.'] s (by simp),
      show ('.' :: '/' :: s) = ['.'] ++ '/' :: s from rfl,
      splitOnChar_append_sep '/' ['.'] s (by simp)]
  rw [show resolveParts (['.', '.'] :: splitOnChar '/' s) [] =
        resolveParts (splitOnChar '/' s) [] from rfl,
      show resolveParts (['.'] :: splitOnChar '/' s) [] =
        resolveParts (splitOnChar '/' s) [] from rfl]

/-- C6 (amended): SanitizePath returns a path whose slash-separated
segments are nonempty and contain no dot and no dot-dot segment, that has
no leading slash and is never empty (an empty resolution stack yields the
fixed name entry); a dot-dot at the root is a no-op, so resolution never
escapes the root.  The drive-prefix conjunct of the original claim is
weakened to the strip of the leading drive prefix of the input, because
the result itself can still look drive-prefixed, as
sanitizePath_drive_counterexample shows. -/
theorem sanitizePath_safe (p : String) :
    (∀ seg ∈ splitOnChar '/' (SanitizePath p).data,
        seg ≠ [] ∧ seg ≠ ['.'] ∧ seg ≠ ['.', '.']) ∧
    (SanitizePath p).data.head? ≠ some '/' ∧
    SanitizePath p ≠ "" ∧
    (resolveParts (splitOnChar '/'
        (dropLeadingSlashes (stripDrive (toSlash p).data))) [] = [] →
      SanitizePath p = "entry") ∧
    SanitizePath ("../" ++ p) = SanitizePath ("./" ++ p) := by
  have hgood : ∀ q ∈ resolveParts (splitOnChar '/'
      (dropLeadingSlashes (stripDrive (toSlash p).data))) [], GoodSeg q :=
    resolveParts_good _ [] (by simp)
      (splitOnChar_not_mem '/' _)
  have hsan : SanitizePath p = (if joinSlash (resolveParts (splitOnChar '/'
      (dropLeadingSlashes (stripDrive (toSlash p).data))) []) = [] then "entry"
      else String.mk (joinSlash (resolveParts (splitOnChar '/'
        (dropLeadingSlashes (stripDrive (toSlash p).data))) []))) := rfl
  refine ⟨?_, ?_, ?_, ?_, ?_⟩
  · intro seg hseg
    rcases hstack : resolveParts (splitOnChar '/'
        (dropLeadingSlashes (stripDrive (toSlash p).data))) [] with _ | ⟨q, qs⟩
    · rw [hsan, hstack] at hseg
      have hentry : splitOnChar '/' ((if joinSlash ([] : List (List Char)) = []
          then ("entry" : String) else String.mk (joinSlash [])).data) =
          [['e', 'n', 't', 'r', 'y']] := by decide
      rw [hentry] at hseg
      have hseg' : seg = ['e', 'n', 't', 'r', 'y'] := by simpa using hseg
      subst hseg'
      exact ⟨by decide, by decide, by decide⟩
    · rw [hsan, hstack] at hseg
      have hne : joinSlash (q :: qs) ≠ [] := by
        have hq : GoodSeg q := hgood q (hstack ▸ List.mem_cons_self q qs)
        cases qs with
        | nil => exact hq.1
        | cons r rs =>
          show q ++ '/' :: joinSlash (r :: rs) ≠ []
          simp
      rw [if_neg hne] at hseg
      have hsplit : splitOnChar '/' (joinSlash (q :: qs)) = q :: qs :=
        splitOnChar_joinSlash (q :: qs) (by simp)
          (fun r hr => (hgood r (hstack ▸ hr)).2.2.2)
      rw [hsplit] at hseg
      have := hgood seg (hstack ▸ hseg)
      exact ⟨this.1, this.2.1, this.2.2.1⟩
  · rcases hstack : resolveParts (splitOnChar '/'
        (dropLeadingSlashes (stripDrive (toSlash p).data))) [] with _ | ⟨q, qs⟩
    · rw [hsan, hstack]
      decide
    · rw [hsan, hstack]
      have hq : GoodSeg q := hgood q (hstack ▸ List.mem_cons_self q qs)
      have hne : joinSlash (q :: qs) ≠ [] := by
        cases qs with
        | nil => exact hq.1
        | cons r rs =>
          show q ++ '/' :: joinSlash (r :: rs) ≠ []
          simp
      rw [if_neg hne]
      show (joinSlash (q :: qs)).head? ≠ some '/'
      rw [joinSlash_head q qs, if_neg hq.1]
      cases q with
      | nil => exact absurd rfl hq.1
      | cons c cs =>
        simp only [List.head?_cons]
        intro hcontra
        have : c = '/' := Option.some.inj hcontra
        exact hq.2.2.2 (this ▸ List.mem_cons_self c cs)
  · rw [hsan]
    split
    · simp
    · next hne =>
      intro hcontra
      have : joinSlash (resolveParts (splitOnChar '/'
          (dropLeadingSlashes (stripDrive (toSlash p).data))) []) = [] :=
        congrArg String.data hcontra
      exact hne this
  · intro hempty
    rw [hsan, hempty]
    rfl
  · have hdots : SanitizePath ("../" ++ p) =
        sanitizeCore ('.' :: '.' :: '/' :: (toSlash p).data) := rfl
    have hdot : SanitizePath ("./" ++ p) =
        sanitizeCore ('.' :: '/' :: (toSlash p).data) := rfl
    rw [hdots, hdot, sanitizePath_dotdot_root]

/-- C6 counterexample: the sanitized result can itself start with a
drive-like two-character prefix, because only a leading drive prefix of
the input is stripped; on the input a colon b colon c the code first
strips the leading two bytes and then resolves, leaving a result whose
second character is a colon. -/
theorem sanitizePath_drive_counterexample :
    SanitizePath "a:b:c" = "b:c" ∧
    (SanitizePath "a:b:c").data[1]? = some ':' := by
  exact ⟨by decide, by decide⟩

end CC.Ziputil

namespace CC.Cache

/-- SnapFile embeds the struct of the same name (src/unnamed/part_003):
repo-relative path, lowercase hex content hash, and total line count. -/
structure SnapFile where
  path : String
  hash : String
  lines : Int
deriving DecidableEq, Repr

instance : Inhabited SnapFile := ⟨⟨"", "", 0⟩⟩

/-- Snapshot embeds the struct of the same name (src/unnamed/part_003). -/
structure Snapshot where
  module : String
  created : String
  prevSrcDir : String
  formatVersion : String
  files : List SnapFile
deriving DecidableEq, Repr

/-- Outcome of the os.ReadFile call inside Load: the file is absent (an
error for which errors.Is with os.ErrNotExist holds), the read fails with
any other error, or the raw bytes are returned. -/
inductive ReadFileResult where
  | notExist
  | failure
  | ok (data : List Nat)
deriving DecidableEq, Repr

/-- The filesystem visible to Load, as a pure map from paths to read
outcomes. -/
structure SnapshotFS where
  readFile : String → ReadFileResult

/-- Errors Load can surface: a read error other than not-exist, or a JSON
decode error. -/
inductive LoadError where
  | readError
  | decodeError
deriving DecidableEq, Repr

/-- The snapshot path filepath.Join(dir, indexFileName); Join also cleans
the joined path, which is irrelevant here because every theorem below
quantifies over the filesystem as a function of this path. -/
def joinIndexPath (dir : String) : String := dir ++ "/index.json"

/-- Load embeds the function of the same name from
internal/cache/snapshot.go, with os.ReadFile modelled by the fs argument
and json.Unmarshal by the unmarshal argument; a nil-pointer nil-error
return is the ok none value. -/
def Load (fs : SnapshotFS) (unmarshal : List Nat → Option Snapshot)
    (dir : String) : Except LoadError (Option Snapshot) :=
  match fs.readFile (joinIndexPath dir) with
  | .notExist => .ok none
  | .failure => .error .readError
  | .ok b =>
    match unmarshal b with
    | none => .error .decodeError
    | some s => .ok (some s)

/-- C10: Load returns no snapshot and no error when the snapshot file does
not exist, and an error is surfaced only when the file exists but reading
it fails or its JSON cannot be decoded. -/
theorem load_missing_snapshot (fs : SnapshotFS)
    (unmarshal : List Nat → Option Snapshot) (dir : String) :
    (fs.readFile (joinIndexPath dir) = .notExist →
      Load fs unmarshal dir = .ok none) ∧
    (∀ e, Load fs unmarshal dir = .error e →
      fs.readFile (joinIndexPath dir) = .failure ∨
      (∃ b, fs.readFile (joinIndexPath dir) = .ok b ∧ unmarshal b = none)) := by
  constructor
  · intro h
    simp [Load, h]
  · intro e he
    unfold Load at he
    rcases hr : fs.readFile (joinIndexPath dir) with _ | _ | b
    · rw [hr] at he
      exact Except.noConfusion he
    · exact Or.inl rfl
    · rw [hr] at he
      have he' : (match unmarshal b with
          | none =>
            (Except.error LoadError.decodeError : Except LoadError (Option Snapshot))
          | some s => Except.ok (some s)) = Except.error e := he
      rcases hu : unmarshal b with _ | s
      · exact Or.inr ⟨b, rfl, hu⟩
      · rw [hu] at he'
        exact Except.noConfusion he'

/-- Witness for load_missing_snapshot on a filesystem with no files. -/
theorem load_missing_snapshot_witness :
    (SnapshotFS.mk (fun _ => .notExist)).readFile (joinIndexPath "tmp") =
      .notExist ∧
    Load (SnapshotFS.mk (fun _ => .notExist)) (fun _ => none) "tmp" =
      .ok none :=
  ⟨rfl, (load_missing_snapshot (SnapshotFS.mk (fun _ => .notExist))
    (fun _ => none) "tmp").1 rfl⟩

end CC.Cache

namespace CC.Cache

/-- The unicode.IsSpace predicate used by strings.TrimSpace and
strings.Fields, enumerated over the Unicode white-space code points. -/
def isSpaceGo (c : Char) : Bool :=
  ([9, 10, 11, 12, 13, 32, 133, 160, 5760, 8192, 8193, 8194, 8195, 8196,
    8197, 8198, 8199, 8200, 8201, 8202, 8232, 8233, 8239, 8287,
    12288] : List Nat).contains c.toNat

/-- strings.TrimSpace on a character list. -/
def trimSpace (l : List Char) : List Char :=
  ((l.dropWhile isSpaceGo).reverse.dropWhile isSpaceGo).reverse

/-- Accumulator loop shared by strings.Fields and strings.FieldsFunc: runs
of non-separator characters become fields, separators are dropped. -/
def fieldsByAux (isSep : Char → Bool) : List Char → List Char → List (List Char)
  | [], acc => if acc = [] then [] else [acc.reverse]
  | c :: rest, acc =>
    if isSep c then
      if acc = [] then fieldsByAux isSep rest []
      else acc.reverse :: fieldsByAux isSep rest []
    else fieldsByAux isSep rest (c :: acc)

/-- strings.Fields generalized over the separator predicate, embedding
both strings.Fields (whitespace) and the strings.FieldsFunc call of
simHash64 (non-alphanumeric runs). -/
def fieldsBy (isSep : Char → Bool) (l : List Char) : List (List Char) :=
  fieldsByAux isSep l []

/-- strings.Join with a single space, as used by normalizeForSim. -/
def joinWithSpace : List (List Char) → List Char
  | [] => []
  | [p] => p
  | p :: rest => p ++ ' ' :: joinWithSpace rest

/-- normalizeForSim embeds the function of the same name from
internal/cache/delta.go: split into lines, trim each line, drop empty
lines, collapse internal whitespace runs to single spaces. -/
def normalizeForSim (s : String) : List String :=
  (splitOnChar '\n' s.data).filterMap (fun ln =>
    let t := trimSpace ln
    if t = [] then none
    else some (String.mk (joinWithSpace (fieldsBy isSpaceGo t))))

/-- The token characters of the simHash64 FieldsFunc call: ASCII letters
and digits. -/
def isAlnumGo (c : Char) : Bool :=
  (97 ≤ c.toNat ∧ c.toNat ≤ 122) ∨ (65 ≤ c.toNat ∧ c.toNat ≤ 90) ∨
    (48 ≤ c.toNat ∧ c.toNat ≤ 57)

/-- UTF-8 encoding of one character, used to feed string bytes to FNV. -/
def utf8BytesOfChar (c : Char) : List Nat :=
  let n := c.toNat
  if n < 128 then [n]
  else if n < 2048 then [192 + n / 64, 128 + n % 64]
  else if n < 65536 then
    [224 + n / 4096, 128 + (n / 64) % 64, 128 + n % 64]
  else
    [240 + n / 262144, 128 + (n / 4096) % 64, 128 + (n / 64) % 64,
     128 + n % 64]

/-- The UTF-8 bytes of a string, as iterated by the Go range over string
bytes. -/
def strBytes (s : String) : List Nat :=
  s.data.foldr (fun c acc => utf8BytesOfChar c ++ acc) []

/-- fnv64 embeds the FNV-1a loop of internal/cache/delta.go over the UTF-8
bytes of the token; arithmetic is modulo 2 to the 64, the uint64 wrap. -/
def fnv64 (bytes : List Nat) : Nat :=
  bytes.foldl (fun h b => ((h ^^^ b) * 1099511628211) % (2 ^ 64))
    1469598103934665603

/-- simHash64 embeds the function of the same name: 64 signed counters are
bumped per token hash bit and the sign pattern forms the output word. -/
def simHash64 (lines : List String) : Nat :=
  let vec : List Int := lines.foldl (fun vec ln =>
    (fieldsBy (fun c => !isAlnumGo c) ln.data).foldl (fun vec t =>
      let h := fnv64 (t.foldr (fun c acc => utf8BytesOfChar c ++ acc) [])
      vec.mapIdx (fun b v => if (h >>> b) &&& 1 = 1 then v + 1 else v - 1))
      vec) (List.replicate 64 (0 : Int))
  (List.range 64).foldl (fun out b =>
    if 0 ≤ vec.getD b 0 then out ||| (1 <<< b) else out) 0

/-- bitsOnesCount64 embeds the SWAR popcount of internal/cache/delta.go;
every uint64 operation carries the explicit wrap modulo 2 to the 64. -/
def bitsOnesCount64 (x : Nat) : Nat :=
  let m := 2 ^ 64
  let x1 := (x + m - ((x >>> 1) &&& 6148914691236517205) % m) % m
  let x2 := ((x1 &&& 3689348814741910323) +
    ((x1 >>> 2) &&& 3689348814741910323)) % m
  ((((x2 + (x2 >>> 4)) % m &&& 1085102592571150095) *
    72340172838076673) % m) >>> 56

/-- hamming64 embeds the function of the same name: popcount of xor. -/
def hamming64 (a b : Nat) : Nat := bitsOnesCount64 (a ^^^ b)

/-- C9: the SimHash Hamming distance between two normalized texts is
symmetric, and it is zero whenever the two texts normalize to the same
line list. -/
theorem simhash_symmetry (a b : String) :
    hamming64 (simHash64 (normalizeForSim a)) (simHash64 (normalizeForSim b)) =
      hamming64 (simHash64 (normalizeForSim b))
        (simHash64 (normalizeForSim a)) ∧
    (normalizeForSim a = normalizeForSim b →
      hamming64 (simHash64 (normalizeForSim a))
        (simHash64 (normalizeForSim b)) = 0) := by
  constructor
  · unfold hamming64
    rw [Nat.xor_comm]
  · intro h
    rw [h]
    unfold hamming64
    rw [Nat.xor_self]
    decide

/-- Witness for simhash_symmetry on two texts that normalize identically
but differ as raw strings. -/
theorem simhash_symmetry_witness :
    normalizeForSim "  x   y \n\n z " = normalizeForSim "x y\nz" ∧
    hamming64 (simHash64 (normalizeForSim "  x   y \n\n z "))
      (simHash64 (normalizeForSim "x y\nz")) = 0 :=
  ⟨by decide, (simhash_symmetry "  x   y \n\n z " "x y\nz").2 (by decide)⟩

end CC.Cache

namespace CC.Index

/-- 32-bit right rotation for SHA-256. -/
def rotr32 (x n : Nat) : Nat := ((x >>> n) ||| (x <<< (32 - n))) % 2 ^ 32

/-- The SHA-256 round constants. -/
def sha256K : List Nat :=
  [1116352408, 1899447441, 3049323471, 3921009573, 961987163,
   1508970993, 2453635748, 2870763221, 3624381080, 310598401,
   607225278, 1426881987, 1925078388, 2162078206, 2614888103,
   3248222580, 3835390401, 4022224774, 264347078, 604807628,
   770255983, 1249150122, 1555081692, 1996064986, 2554220882,
   2821834349, 2952996808, 3210313671, 3336571891, 3584528711,
   113926993, 338241895, 666307205, 773529912, 1294757372,
   1396182291, 1695183700, 1986661051, 2177026350, 2456956037,
   2730485921, 2820302411, 3259730800, 3345764771, 3516065817,
   3600352804, 4094571909, 275423344, 430227734, 506948616,
   659060556, 883997877, 958139571, 1322822218, 1537002063,
   1747873779, 1955562222, 2024104815, 2227730452, 2361852424,
   2428436474, 2756734187, 3204031479, 3329325298]

/-- The SHA-256 working state (eight 32-bit words). -/
structure Sha256State where
  a : Nat
  b : Nat
  c : Nat
  d : Nat
  e : Nat
  f : Nat
  g : Nat
  h : Nat
deriving DecidableEq, Repr

/-- The SHA-256 initial hash value. -/
def sha256Init : Sha256State :=
  ⟨1779033703, 3144134277, 1013904242, 2773480762,
   1359893119, 2600822924, 528734635, 1541459225⟩

/-- Big-endian byte serialization of a word into the given byte count. -/
def bytesBE : Nat → Nat → List Nat
  | 0, _ => []
  | n + 1, v => bytesBE n (v / 256) ++ [v % 256]

/-- Big-endian 32-bit words from a byte list. -/
def bytesToWords32 : List Nat → List Nat
  | b0 :: b1 :: b2 :: b3 :: rest =>
    (b0 * 16777216 + b1 * 65536 + b2 * 256 + b3) :: bytesToWords32 rest
  | _ => []

/-- SHA-256 message-schedule extension from 16 to 64 words. -/
def sha256Extend (w0 : List Nat) : List Nat :=
  (List.range' 16 48).foldl (fun w i =>
    let x15 := w.getD (i - 15) 0
    let x2 := w.getD (i - 2) 0
    let s0 := rotr32 x15 7 ^^^ rotr32 x15 18 ^^^ (x15 >>> 3)
    let s1 := rotr32 x2 17 ^^^ rotr32 x2 19 ^^^ (x2 >>> 10)
    w ++ [(w.getD (i - 16) 0 + s0 + w.getD (i - 7) 0 + s1) % 2 ^ 32]) w0

/-- One SHA-256 compression round. -/
def sha256Round (st : Sha256State) (ki wi : Nat) : Sha256State :=
  let s1 := rotr32 st.e 6 ^^^ rotr32 st.e 11 ^^^ rotr32 st.e 25
  let ch := (st.e &&& st.f) ^^^ ((st.e ^^^ 4294967295) &&& st.g)
  let t1 := (st.h + s1 + ch + ki + wi) % 2 ^ 32
  let s0 := rotr32 st.a 2 ^^^ rotr32 st.a 13 ^^^ rotr32 st.a 22
  let maj := (st.a &&& st.b) ^^^ (st.a &&& st.c) ^^^ (st.b &&& st.c)
  let t2 := (s0 + maj) % 2 ^ 32
  ⟨(t1 + t2) % 2 ^ 32, st.a, st.b, st.c, (st.d + t1) % 2 ^ 32, st.e, st.f,
   st.g⟩

/-- SHA-256 compression of one 64-byte block. -/
def sha256Block (st : Sha256State) (block : List Nat) : Sha256State :=
  let w := sha256Extend (bytesToWords32 block)
  let fin := (List.range 64).foldl (fun s i =>
    sha256Round s (sha256K.getD i 0) (w.getD i 0)) st
  ⟨(st.a + fin.a) % 2 ^ 32, (st.b + fin.b) % 2 ^ 32, (st.c + fin.c) % 2 ^ 32,
   (st.d + fin.d) % 2 ^ 32, (st.e + fin.e) % 2 ^ 32, (st.f + fin.f) % 2 ^ 32,
   (st.g + fin.g) % 2 ^ 32, (st.h + fin.h) % 2 ^ 32⟩

/-- SHA-256 padding: a one bit, zeros to 56 modulo 64, and the bit length
as a big-endian 64-bit word. -/
def sha256Pad (msg : List Nat) : List Nat :=
  let L := msg.length
  let k := (119 - (L % 64)) % 64
  msg ++ 128 :: List.replicate k 0 ++ bytesBE 8 ((8 * L) % 2 ^ 64)

/-- Split a byte list into 64-byte blocks. -/
def chunks64 : List Nat → List (List Nat)
  | [] => []
  | c :: rest => ((c :: rest).take 64) :: chunks64 ((c :: rest).drop 64)
termination_by l => l.length
decreasing_by
  simp
  omega

/-- The SHA-256 digest (32 bytes) of a byte list, embedding the
crypto/sha256 Sum256 calls of internal/index/manifest.go. -/
def sha256 (msg : List Nat) : List Nat :=
  let st := (chunks64 (sha256Pad msg)).foldl sha256Block sha256Init
  [st.a, st.b, st.c, st.d, st.e, st.f, st.g, st.h].foldr
    (fun w acc => bytesBE 4 w ++ acc) []

/-- One lowercase hexadecimal digit. -/
def hexDigit (n : Nat) : Char :=
  if n < 10 then Char.ofNat (48 + n) else Char.ofNat (87 + n)

/-- Lowercase hexadecimal rendering of a digest, embedding
hex.EncodeToString. -/
def sha256hex (msg : List Nat) : String :=
  String.mk ((sha256 msg).foldr
    (fun b acc => hexDigit (b / 16) :: hexDigit (b % 16) :: acc) [])

end CC.Index

namespace CC.Index

/-- ManFile embeds the struct of the same name from
internal/index/types.go; the Go fields Package and Class are called pkg
and cls because of Lean keywords, and the optional metadata lists that no
embedded code path reads (DependsOn, Tags) are omitted. -/
structure ManFile where
  path : String
  pkg : String
  cls : String
  kind : String
  summary : String
  hash : String
  exports : List String
  lines : Int
  anchors : List Anchor
deriving DecidableEq, Repr

/-- Manifest embeds the struct of the same name from
internal/index/types.go (optional build metadata fields that no embedded
code path reads are omitted). -/
structure Manifest where
  module : String
  files : List ManFile
  bundleID : String
deriving DecidableEq, Repr

/-- normalizePath loop of internal/index/manifest.go: the skip flag
mirrors skipDotSlash, the accumulator is the rune slice b, and the
last-element test embeds the trailing-slash collapse. -/
def normalizePathLoop : Bool → List Char → List Char → List Char
  | _, [], b => b
  | skip, r :: rest, b =>
    if skip ∧ r = '/' then normalizePathLoop false rest b
    else
      let r := if r = '\\' then '/' else r
      if r = '/' ∧ b.getLast? = some '/' then normalizePathLoop skip rest b
      else normalizePathLoop skip rest (b ++ [r])

/-- normalizePath embeds the function of the same name.  Go tests the
second byte of the string for the slash; since the first rune of the
matching case is the one-byte dot, that byte is the slash exactly when
the second rune is the slash. -/
def normalizePath (p : String) : String :=
  match p.data with
  | '.' :: c1 :: rest =>
    if c1 = '/' then String.mk (normalizePathLoop true (c1 :: rest) [])
    else String.mk (normalizePathLoop false p.data [])
  | _ => String.mk (normalizePathLoop false p.data [])

/-- toLowerHex embeds the function of the same name: the bytes A to F are
shifted to lowercase; those byte values only occur as the ASCII
characters, so the character-level map is the byte-level map. -/
def toLowerHex (s : String) : String :=
  String.mk (s.data.map (fun c =>
    if 65 ≤ c.toNat ∧ c.toNat ≤ 70 then Char.ofNat (c.toNat + 32) else c))

/-- The canonical manifest line of one file. -/
def bundleLine (f : ManFile) : String :=
  normalizePath f.path ++ ":" ++ toLowerHex f.hash

/-- ComputeBundleID embeds the function of the same name from
internal/index/manifest.go: canonical lines, sorted, concatenated with
newlines, hashed with SHA-256, rendered lowercase hex.  The empty
manifest hashes the empty byte string, as sha256.Sum256 of nil does. -/
def ComputeBundleID (man : Manifest) : String :=
  if man.files = [] then sha256hex []
  else
    let lines := man.files.map bundleLine
    let sorted := sortBy strLe lines
    let buf := sorted.foldl (fun acc ln => acc ++ ln ++ "\n") ""
    sha256hex (Cache.strBytes buf)

/-- The concatenation, in sorted order, of the canonical lines with
trailing newlines: the string whose SHA-256 the bundle id is. -/
def bundleCanonicalString (man : Manifest) : String :=
  (sortBy strLe (man.files.map bundleLine)).foldl
    (fun acc ln => acc ++ ln ++ "\n") ""

instance : IsAntisymm String (fun a b => strLe a b = true) :=
  ⟨fun _ _ h1 h2 => strLe_antisymm h1 h2⟩

theorem computeBundleID_eq_canonical (man : Manifest) :
    ComputeBundleID man = sha256hex (Cache.strBytes (bundleCanonicalString man)) := by
  by_cases h : man.files = []
  · simp [ComputeBundleID, bundleCanonicalString, h, sortBy, Cache.strBytes]
  · simp [ComputeBundleID, bundleCanonicalString, h]

theorem sortBy_strLe_eq_of_perm {l1 l2 : List String} (h : l1.Perm l2) :
    sortBy strLe l1 = sortBy strLe l2 := by
  have hs1 := sortBy_sorted strLe strLe_total (fun a b c => strLe_trans) l1
  have hs2 := sortBy_sorted strLe strLe_total (fun a b c => strLe_trans) l2
  exact List.eq_of_perm_of_sorted
    ((sortBy_perm strLe l1).trans (h.trans (sortBy_perm strLe l2).symm))
    hs1 hs2

/-- C4: the bundle id is the lowercase SHA-256 hex of the sorted
concatenation of the canonical path-colon-hash lines; it depends only on
the multiset of normalized path and lowercased hash pairs; the concrete
two-file manifest of scenario S3 hashes exactly the canonical string. -/
theorem computeBundleID_canonical_law (man man1 man2 : Manifest)
    (hperm : (man1.files.map (fun f => (normalizePath f.path, toLowerHex f.hash))).Perm
      (man2.files.map (fun f => (normalizePath f.path, toLowerHex f.hash)))) :
    ComputeBundleID man =
      sha256hex (Cache.strBytes (bundleCanonicalString man)) ∧
    ComputeBundleID man1 = ComputeBundleID man2 ∧
    ComputeBundleID
      { module := "m",
        files := [{ path := "./a.go", pkg := "", cls := "", kind := "file",
                    summary := "", hash := "AA11", exports := [], lines := 1,
                    anchors := [] },
                  { path := "b.go", pkg := "", cls := "", kind := "file",
                    summary := "", hash := "bb22", exports := [], lines := 1,
                    anchors := [] }],
        bundleID := "" } =
      sha256hex (Cache.strBytes "a.go:aa11\nb.go:bb22\n") := by
  refine ⟨computeBundleID_eq_canonical man, ?_, ?_⟩
  · have hlines : (man1.files.map bundleLine).Perm (man2.files.map bundleLine) := by
      have h1 : man1.files.map bundleLine =
          (man1.files.map (fun f => (normalizePath f.path, toLowerHex f.hash))).map
            (fun q => q.1 ++ ":" ++ q.2) := by
        rw [List.map_map]; rfl
      have h2 : man2.files.map bundleLine =
          (man2.files.map (fun f => (normalizePath f.path, toLowerHex f.hash))).map
            (fun q => q.1 ++ ":" ++ q.2) := by
        rw [List.map_map]; rfl
      rw [h1, h2]
      exact hperm.map _
    rw [computeBundleID_eq_canonical man1, computeBundleID_eq_canonical man2]
    unfold bundleCanonicalString
    rw [sortBy_strLe_eq_of_perm hlines]
  · rw [computeBundleID_eq_canonical]
    have : bundleCanonicalString
        { module := "m",
          files := [{ path := "./a.go", pkg := "", cls := "", kind := "file",
                      summary := "", hash := "AA11", exports := [], lines := 1,
                      anchors := [] },
                    { path := "b.go", pkg := "", cls := "", kind := "file",
                      summary := "", hash := "bb22", exports := [], lines := 1,
                      anchors := [] }],
          bundleID := "" } = "a.go:aa11\nb.go:bb22\n" := by decide
    rw [this]

/-- Witness for computeBundleID_canonical_law: two one-file manifests with
the same normalized pair multiset written differently get the same id. -/
theorem computeBundleID_canonical_law_witness :
    (((Manifest.mk "x"
        [ManFile.mk "./a.go" "" "" "file" "" "AA11" [] 1 []] "").files.map
          (fun f => (normalizePath f.path, toLowerHex f.hash))).Perm
      (((Manifest.mk "y"
        [ManFile.mk "a.go" "" "" "file" "" "aa11" [] 7 []] "")).files.map
          (fun f => (normalizePath f.path, toLowerHex f.hash)))) ∧
    ComputeBundleID (Manifest.mk "x"
        [ManFile.mk "./a.go" "" "" "file" "" "AA11" [] 1 []] "") =
      ComputeBundleID (Manifest.mk "y"
        [ManFile.mk "a.go" "" "" "file" "" "aa11" [] 7 []] "") :=
  ⟨by decide,
   (computeBundleID_canonical_law
     (Manifest.mk "z" [] "")
     (Manifest.mk "x" [ManFile.mk "./a.go" "" "" "file" "" "AA11" [] 1 []] "")
     (Manifest.mk "y" [ManFile.mk "a.go" "" "" "file" "" "aa11" [] 7 []] "")
     (by decide)).2.1⟩

end CC.Index

namespace CC.Index

/-- Pointer embeds the struct of the same name from
internal/index/types.go (End is called stop). -/
structure Pointer where
  id : String
  path : String
  sym : String
  start : Int
  stop : Int
deriving DecidableEq, Repr

/-- Symbol embeds the struct of the same name from
internal/index/types.go (End is called stop). -/
structure Symbol where
  symbol : String
  kind : String
  path : String
  start : Int
  stop : Int
deriving DecidableEq, Repr

/-- The allowed ASCII set of slugifyAnchor. -/
def slugAllowed (c : Char) : Bool :=
  (97 ≤ c.toNat ∧ c.toNat ≤ 122) ∨ (65 ≤ c.toNat ∧ c.toNat ≤ 90) ∨
    (48 ≤ c.toNat ∧ c.toNat ≤ 57) ∨ c = '.' ∨ c = '_' ∨ c = '-'

/-- The byte loop of slugifyAnchor with its lastDash flag.  Go walks
bytes; a multi-byte character is a run of disallowed bytes that the
lastDash flag collapses into a single dash, which is exactly what the
character-level walk produces. -/
def slugifyAnchorLoop : List Char → Bool → List Char
  | [], _ => []
  | c :: rest, lastDash =>
    if slugAllowed c then c :: slugifyAnchorLoop rest false
    else if lastDash then slugifyAnchorLoop rest lastDash
    else '-' :: slugifyAnchorLoop rest true

/-- strings.Trim of dashes at both ends. -/
def trimDashes (l : List Char) : List Char :=
  ((l.dropWhile (fun c => c = '-')).reverse.dropWhile (fun c => c = '-')).reverse

/-- slugifyAnchor embeds the function of the same name from
internal/index/pointers.go. -/
def slugifyAnchor (s : String) : String :=
  if s = "" then "anchor"
  else
    let res := trimDashes (slugifyAnchorLoop s.data false)
    if res = [] then "anchor" else String.mk res

/-- strings.ReplaceAll of slashes by dashes (the anchor-pointer base id). -/
def dashPath (relPath : String) : String :=
  String.mk (relPath.data.map (fun c => if c = '/' then '-' else c))

/-- strings.ReplaceAll of dots by dashes (the symbol-pointer base id). -/
def dashQname (q : String) : String :=
  String.mk (q.data.map (fun c => if c = '.' then '-' else c))

/-- Reads of the Go counter map seen (a missing key counts zero). -/
def lookupCount : List (String × Nat) → String → Nat
  | [], _ => 0
  | (k, v) :: rest, key => if k = key then v else lookupCount rest key

/-- Writes of the Go counter map seen. -/
def setCount : List (String × Nat) → String → Nat → List (String × Nat)
  | [], key, v => [(key, v)]
  | (k, w) :: rest, key, v =>
    if k = key then (k, v) :: rest else (k, w) :: setCount rest key v

/-- The emission loop of BuildAnchorPointers: clamp, slug, collision
counter keyed by the unsuffixed id, output pointer. -/
def anchorPtrLoop (base relPath : String) :
    List Anchor → List (String × Nat) → List Pointer
  | [], _ => []
  | a :: rest, seen =>
    let start := if a.start ≤ 0 then 1 else a.start
    let e := if a.stop < start then start else a.stop
    let slug := slugifyAnchor a.name
    let id0 := base ++ "#" ++ slug
    let c := lookupCount seen id0
    let id := if c > 0 then id0 ++ "-" ++ toString (c + 1) else id0
    { id := id, path := relPath, sym := "", start := start, stop := e }
      :: anchorPtrLoop base relPath rest (setCount seen id0 (c + 1))

/-- BuildAnchorPointers embeds the function of the same name from
internal/index/pointers.go. -/
def BuildAnchorPointers (relPath : String) (anchors : List Anchor) :
    List Pointer :=
  if anchors = [] then []
  else
    let sorted := sortBy anchorLe anchors
    anchorPtrLoop (dashPath relPath) relPath sorted []

/-- Non-strict form of the symbol ordering (Symbol, Path, Start, End) of
buildPointerIndex.  Symbols tying on all four keys can differ only in the
Kind field, which the emitted pointers do not read, so the unstable Go
sort and this comparator produce the same pointer list. -/
def symbolLe (a b : Symbol) : Bool :=
  if a.symbol ≠ b.symbol then strLt a.symbol b.symbol
  else if a.path ≠ b.path then strLt a.path b.path
  else if a.start ≠ b.start then decide (a.start < b.start)
  else decide (a.stop ≤ b.stop)

/-- The emission loop of buildPointerIndex: skip empty qnames, dash the
qname, collision counter keyed by the base id, clamp, output pointer. -/
def symPtrLoop : List Symbol → List (String × Nat) → List Pointer
  | [], _ => []
  | s :: rest, seen =>
    if s.symbol = "" then symPtrLoop rest seen
    else
      let baseID := dashQname s.symbol
      let c := lookupCount seen baseID
      let id := if c > 0 then baseID ++ "-" ++ toString (c + 1) else baseID
      let start := if s.start ≤ 0 then 1 else s.start
      let e := if s.stop < start then start else s.stop
      { id := id, path := s.path, sym := s.symbol, start := start, stop := e }
        :: symPtrLoop rest (setCount seen baseID (c + 1))

/-- buildPointerIndex embeds the function of the same name from
internal/index/symbols_pointers.go. -/
def buildPointerIndex (symbols : List Symbol) : List Pointer :=
  symPtrLoop (sortBy symbolLe symbols) []

/-- The dedup loop of dedupPointers with its seen key set; the key is
(id, path, start, end), the Sym field is not part of the key. -/
def dedupPtrLoop : List Pointer → List (String × String × Int × Int) →
    List Pointer
  | [], _ => []
  | p :: rest, seen =>
    let k := (p.id, p.path, p.start, p.stop)
    if seen.contains k then dedupPtrLoop rest seen
    else p :: dedupPtrLoop rest (k :: seen)

/-- dedupPointers embeds the function of the same name. -/
def dedupPointers (inP : List Pointer) : List Pointer :=
  if inP.length ≤ 1 then inP else dedupPtrLoop inP []

/-- Non-strict form of the pointer ordering (ID, Path, Start, End) used
both by BuildSymbolPointers and by the final pointer sort of
assembleArtifacts. -/
def ptrLe (a b : Pointer) : Bool :=
  if a.id ≠ b.id then strLt a.id b.id
  else if a.path ≠ b.path then strLt a.path b.path
  else if a.start ≠ b.start then decide (a.start < b.start)
  else decide (a.stop ≤ b.stop)

/-- BuildSymbolPointers embeds the function of the same name from
internal/index/symbols_pointers.go. -/
def BuildSymbolPointers (symbols : List Symbol) : List Pointer :=
  if symbols = [] then []
  else
    let index := buildPointerIndex symbols
    if index = [] then []
    else sortBy ptrLe (dedupPointers index)

/-- The pointer-merging part of assembleArtifacts
(internal/index/manifest.go): the per-file anchor pointers gathered by
gatherSymbolsIndex, plus the symbol pointers when any symbols exist,
sorted by (ID, Path, Start, End).  Pointers that tie on all four keys can
differ in the Sym field; no such pair arises in the theorems below, which
only inspect the id multiset. -/
def assemblePointers (anchorPtrs : List Pointer) (symbols : List Symbol) :
    List Pointer :=
  let pointers := anchorPtrs
  let pointers :=
    if symbols ≠ [] then
      (let symPtrs := BuildSymbolPointers symbols
       if symPtrs ≠ [] then pointers ++ symPtrs else pointers)
    else pointers
  sortBy ptrLe pointers

end CC.Index

namespace CC.Index

/-- The counter rule in specification form: the k-th occurrence of a base
id (in processing order) keeps the base for k equal to one and receives
the numeric suffix k for later occurrences; prev holds the bases already
processed. -/
def assignIdsAux (prev : List String) : List String → List String
  | [] => []
  | b :: rest =>
    (if prev.count b = 0 then b else b ++ "-" ++ toString (prev.count b + 1))
      :: assignIdsAux (prev ++ [b]) rest

/-- The counter rule applied to a base id list from scratch. -/
def assignIds (bases : List String) : List String := assignIdsAux [] bases

theorem lookupCount_setCount (seen : List (String × Nat)) (k0 : String)
    (v : Nat) (k : String) :
    lookupCount (setCount seen k0 v) k =
      if k = k0 then v else lookupCount seen k := by
  induction seen with
  | nil =>
    by_cases h : k0 = k
    · subst h
      simp [setCount, lookupCount]
    · have h' : ¬ k = k0 := fun hh => h hh.symm
      simp [setCount, lookupCount, h, h']
  | cons q rest ih =>
    obtain ⟨k1, w⟩ := q
    by_cases h1 : k1 = k0
    · subst h1
      by_cases h2 : k = k1
      · subst h2
        simp [setCount, lookupCount]
      · have h2' : ¬ k1 = k := fun hh => h2 hh.symm
        simp [setCount, lookupCount, h2, h2']
    · by_cases h2 : k1 = k
      · subst h2
        simp [setCount, lookupCount, h1]
      · have h2' : ¬ k = k1 := fun hh => h2 hh.symm
        simp [setCount, lookupCount, h1, h2, h2', ih]

theorem anchorPtrLoop_ids (base relPath : String) :
    ∀ (l : List Anchor) (seen : List (String × Nat)) (prev : List String),
      (∀ k, lookupCount seen k = prev.count k) →
      (anchorPtrLoop base relPath l seen).map Pointer.id =
        assignIdsAux prev (l.map (fun a => base ++ "#" ++ slugifyAnchor a.name)) := by
  intro l
  induction l with
  | nil => intro seen prev _; rfl
  | cons a rest ih =>
    intro seen prev hinv
    have hc : lookupCount seen (base ++ "#" ++ slugifyAnchor a.name) =
        prev.count (base ++ "#" ++ slugifyAnchor a.name) :=
      hinv _
    have hinv' : ∀ k,
        lookupCount (setCount seen (base ++ "#" ++ slugifyAnchor a.name)
          (lookupCount seen (base ++ "#" ++ slugifyAnchor a.name) + 1)) k =
        (prev ++ [base ++ "#" ++ slugifyAnchor a.name]).count k := by
      intro k
      rw [lookupCount_setCount]
      by_cases hk : k = base ++ "#" ++ slugifyAnchor a.name
      · subst hk
        simp [hc, List.count_append]
      · simp [hk, hinv k, List.count_append,
          List.count_singleton', fun hh : (base ++ "#" ++ slugifyAnchor a.name) = k => hk hh.symm]
    show (if lookupCount seen (base ++ "#" ++ slugifyAnchor a.name) > 0 then _ else _) ::
        (anchorPtrLoop base relPath rest _).map Pointer.id = _
    rw [ih _ _ hinv']
    show _ = (if prev.count (base ++ "#" ++ slugifyAnchor a.name) = 0 then _
      else _) :: assignIdsAux _ _
    rw [hc]
    by_cases h0 : prev.count (base ++ "#" ++ slugifyAnchor a.name) = 0
    · simp [h0]
    · simp [h0, Nat.pos_of_ne_zero h0]

theorem symPtrLoop_ids :
    ∀ (l : List Symbol) (seen : List (String × Nat)) (prev : List String),
      (∀ k, lookupCount seen k = prev.count k) →
      (symPtrLoop l seen).map Pointer.id =
        assignIdsAux prev ((l.filter (fun s => s.symbol ≠ "")).map
          (fun s => dashQname s.symbol)) := by
  intro l
  induction l with
  | nil => intro seen prev _; rfl
  | cons s rest ih =>
    intro seen prev hinv
    by_cases hs : s.symbol = ""
    · show (symPtrLoop (s :: rest) seen).map Pointer.id = _
      rw [show symPtrLoop (s :: rest) seen = symPtrLoop rest seen by
        simp only [symPtrLoop, if_pos hs]]
      rw [show (s :: rest).filter (fun s => s.symbol ≠ "") =
          rest.filter (fun s => s.symbol ≠ "") by
        simp [List.filter_cons, hs]]
      exact ih seen prev hinv
    · have hc : lookupCount seen (dashQname s.symbol) =
          prev.count (dashQname s.symbol) := hinv _
      have hinv' : ∀ k,
          lookupCount (setCount seen (dashQname s.symbol)
            (lookupCount seen (dashQname s.symbol) + 1)) k =
          (prev ++ [dashQname s.symbol]).count k := by
        intro k
        rw [lookupCount_setCount]
        by_cases hk : k = dashQname s.symbol
        · subst hk
          simp [hc, List.count_append]
        · simp [hk, hinv k, List.count_append, List.count_singleton',
            fun hh : dashQname s.symbol = k => hk hh.symm]
      rw [show symPtrLoop (s :: rest) seen =
          ({ id := if lookupCount seen (dashQname s.symbol) > 0 then
               dashQname s.symbol ++ "-" ++
                 toString (lookupCount seen (dashQname s.symbol) + 1)
             else dashQname s.symbol,
             path := s.path, sym := s.symbol,
             start := if s.start ≤ 0 then 1 else s.start,
             stop := if s.stop < (if s.start ≤ 0 then 1 else s.start) then
               (if s.start ≤ 0 then 1 else s.start) else s.stop } : Pointer)
            :: symPtrLoop rest (setCount seen (dashQname s.symbol)
              (lookupCount seen (dashQname s.symbol) + 1)) by
        simp only [symPtrLoop, if_neg hs]]
      rw [show (s :: rest).filter (fun s => s.symbol ≠ "") =
          s :: rest.filter (fun s => s.symbol ≠ "") by
        simp [List.filter_cons, hs]]
      show _ :: (symPtrLoop rest _).map Pointer.id = _
      rw [ih _ _ hinv']
      show _ = (if prev.count (dashQname s.symbol) = 0 then _ else _)
        :: assignIdsAux _ _
      rw [hc]
      by_cases h0 : prev.count (dashQname s.symbol) = 0
      · simp [h0]
      · simp [h0, Nat.pos_of_ne_zero h0]

/-- C5 counterexample: a single file whose anchors are named X, X and X-2
produces, through the full assembleArtifacts pointer merge, a bundle
pointer list whose ids are not pairwise distinct: the second X receives
the suffixed id and the anchor literally named X-2 receives the same id
unsuffixed. -/
theorem pointer_unique_counterexample :
    (assemblePointers (BuildAnchorPointers "f.go"
        [⟨"X", 1, 1⟩, ⟨"X", 2, 2⟩, ⟨"X-2", 3, 3⟩]) []).map Pointer.id =
      ["f.go#X", "f.go#X-2", "f.go#X-2"] ∧
    ¬ ((assemblePointers (BuildAnchorPointers "f.go"
        [⟨"X", 1, 1⟩, ⟨"X", 2, 2⟩, ⟨"X-2", 3, 3⟩]) []).map Pointer.id).Nodup :=
  ⟨by decide, by decide⟩

/-- C5 (amended): within one file the anchor pointers, and within one
bundle the symbol pointers, assign ids by the counter rule: occurrences
sharing a base id keep the unsuffixed base on first occurrence, in the
deterministic sorted processing order, and the k-th occurrence receives
the numeric suffix k starting at 2.  Pairwise distinctness of the merged
bundle list does not hold in general (see
pointer_unique_counterexample). -/
theorem pointer_suffix_rule (relPath : String) (anchors : List Anchor)
    (symbols : List Symbol) :
    (BuildAnchorPointers relPath anchors).map Pointer.id =
      assignIds ((sortBy anchorLe anchors).map
        (fun a => dashPath relPath ++ "#" ++ slugifyAnchor a.name)) ∧
    (buildPointerIndex symbols).map Pointer.id =
      assignIds (((sortBy symbolLe symbols).filter
        (fun s => s.symbol ≠ "")).map (fun s => dashQname s.symbol)) := by
  constructor
  · by_cases h : anchors = []
    · subst h; rfl
    · show (BuildAnchorPointers relPath anchors).map Pointer.id = _
      rw [show BuildAnchorPointers relPath anchors =
          anchorPtrLoop (dashPath relPath) relPath (sortBy anchorLe anchors) [] by
        simp only [BuildAnchorPointers, if_neg h]]
      exact anchorPtrLoop_ids (dashPath relPath) relPath
        (sortBy anchorLe anchors) [] [] (fun k => by simp [lookupCount])
  · exact symPtrLoop_ids (sortBy symbolLe symbols) [] []
      (fun k => by simp [lookupCount])

end CC.Index

namespace CC.Cache

/-- A change entry of the delta (the anonymous struct aliased as
deltaChange in internal/cache/delta.go); From and To style fields keep Go
names where Lean allows. -/
structure DeltaChange where
  path : String
  hashBefore : String
  hashAfter : String
  diffPath : String
  oversize : Bool
deriving DecidableEq, Repr

/-- A rename entry of the delta (deltaRename in internal/cache/delta.go);
the Go fields From and To are called fromPath and toPath because from is
reserved in Lean. -/
structure DeltaRename where
  fromPath : String
  toPath : String
  hash : String
deriving DecidableEq, Repr

/-- Delta embeds the struct of the same name (src/unnamed/part_003). -/
structure Delta where
  added : List SnapFile
  removed : List SnapFile
  renamed : List DeltaRename
  changed : List DeltaChange
deriving DecidableEq, Repr

/-- ContentProvider embeds the interface of
internal/cache/content_provider.go; the bytes-to-string conversion the
caller performs on Read results is folded into the model, and a Go error
is none. -/
structure ContentProvider where
  read : String → Bool → Option String

/-- The package globals of internal/cache/delta.go (enableSimRename and
simThresh, set by SetRenameSimilarity) and of content_provider.go (the
provider set by SetContentProvider), threaded as an explicit
configuration as the spec re-architecture note prescribes. -/
structure DeltaConfig where
  enableSimRename : Bool
  simThresh : Int
  provider : Option ContentProvider

/-- Path ordering of SnapFile lists (le form; ties only between files of
equal path, which the delta pipeline never produces side by side). -/
def snapFileLe (a b : SnapFile) : Bool := strLe a.path b.path

/-- Go map insertion for the string-keyed file maps: overwrite in place
or append; the association list stays in key insertion order. -/
def insertByPath (m : List SnapFile) (f : SnapFile) : List SnapFile :=
  match m with
  | [] => [f]
  | g :: rest => if g.path = f.path then f :: rest else g :: insertByPath rest f

/-- indexByPath embeds the function of the same name: build the
path-keyed map of a file list. -/
def indexByPath (files : List SnapFile) : List SnapFile :=
  files.foldl insertByPath []

/-- Go map lookup by path. -/
def lookupPath (m : List SnapFile) (p : String) : Option SnapFile :=
  m.find? (fun g => g.path == p)

/-- The file list of a possibly nil snapshot pointer. -/
def snapFiles : Option Snapshot → List SnapFile
  | none => []
  | some s => s.files

/-- handleTrivialDelta embeds the function of the same name: an empty or
nil current snapshot turns every previous file into a removal, an empty
or nil previous snapshot turns every current file into an addition. -/
def handleTrivialDelta (prev curr : Option Snapshot) : Option Delta :=
  if snapFiles curr = [] then
    some { added := [], removed := sortBy snapFileLe (snapFiles prev),
           renamed := [], changed := [] }
  else if snapFiles prev = [] then
    some { added := sortBy snapFileLe (snapFiles curr), removed := [],
           renamed := [], changed := [] }
  else none

/-- classifyRemovedAndChanged embeds the function of the same name,
walking the previous map: a path missing from the current map is removed,
a path present with a different hash is changed. -/
def classifyRemovedAndChanged (prev curr : List SnapFile) :
    List SnapFile × List DeltaChange :=
  match prev with
  | [] => ([], [])
  | pf :: rest =>
    let (removed, changed) := classifyRemovedAndChanged rest curr
    match lookupPath curr pf.path with
    | some cf =>
      if pf.hash ≠ cf.hash then
        (removed, { path := pf.path, hashBefore := pf.hash,
                    hashAfter := cf.hash, diffPath := "",
                    oversize := false } :: changed)
      else (removed, changed)
    | none => (pf :: removed, changed)

/-- classifyAdded embeds the function of the same name: current paths
absent from the previous map. -/
def classifyAdded (prev curr : List SnapFile) : List SnapFile :=
  curr.filter (fun cf => (lookupPath prev cf.path).isNone)

/-- remInfo of matchExactRenames: the index into the removed slice and
the source path. -/
structure RemInfo where
  idx : Nat
  path : String
deriving DecidableEq, Repr

/-- Path order on remInfo (le form; within one hash group ties cannot
occur when the removed paths are distinct). -/
def remInfoLe (a b : RemInfo) : Bool := strLe a.path b.path

/-- Index a list from a starting offset, as the Go range-with-index loops
do. -/
def idxFrom (i : Nat) : List α → List (Nat × α)
  | [] => []
  | f :: rest => (i, f) :: idxFrom (i + 1) rest

/-- One byHash map append of matchExactRenames: grow the group of the
hash, or add a new group at the end of the association order. -/
def appendByHash (m : List (String × List RemInfo)) (h : String)
    (r : RemInfo) : List (String × List RemInfo) :=
  match m with
  | [] => [(h, [r])]
  | (k, l) :: rest =>
    if k = h then (k, l ++ [r]) :: rest else (k, l) :: appendByHash rest h r

/-- byHash map lookup; a missing key reads as the nil slice. -/
def lookupByHash (m : List (String × List RemInfo)) (h : String) :
    List RemInfo :=
  match m with
  | [] => []
  | (k, l) :: rest => if k = h then l else lookupByHash rest h

/-- byHash map overwrite of an existing key. -/
def setByHash (m : List (String × List RemInfo)) (h : String)
    (l : List RemInfo) : List (String × List RemInfo) :=
  match m with
  | [] => []
  | (k, l0) :: rest =>
    if k = h then (k, l) :: rest else (k, l0) :: setByHash rest h l

/-- byHash map key deletion. -/
def eraseByHash (m : List (String × List RemInfo)) (h : String) :
    List (String × List RemInfo) :=
  match m with
  | [] => []
  | (k, l0) :: rest =>
    if k = h then rest else (k, l0) :: eraseByHash rest h

/-- The byHash construction of matchExactRenames: group the removed files
by hash in index order, then sort every group by source path (the Go code
iterates the map to sort each list in place; group order is irrelevant to
lookups). -/
def buildByHash (removed : List SnapFile) : List (String × List RemInfo) :=
  let grouped := (idxFrom 0 removed).foldl
    (fun m q => appendByHash m q.2.hash ⟨q.1, q.2.path⟩) []
  grouped.map (fun q => (q.1, sortBy remInfoLe q.2))

/-- The main loop of matchExactRenames over the sorted addInfos: consume
the first remaining removed entry of the matching hash, record both used
indices, emit the rename. -/
def exactLoop (removed added : List SnapFile) :
    List (Nat × String) → List (String × List RemInfo) →
    List DeltaRename × List Nat × List Nat
  | [], _ => ([], [], [])
  | info :: rest, byHash =>
    let af := added.getD info.1 default
    match lookupByHash byHash af.hash with
    | [] => exactLoop removed added rest byHash
    | cand :: tl =>
      let byHash' := if tl = [] then eraseByHash byHash af.hash
                     else setByHash byHash af.hash tl
      let (rs, ur, ua) := exactLoop removed added rest byHash'
      ({ fromPath := (removed.getD cand.idx default).path,
         toPath := af.path, hash := af.hash } :: rs,
       cand.idx :: ur, info.1 :: ua)

/-- filterSnapFiles embeds the function of the same name: drop the files
whose index is in the used set (the empty set short-circuits). -/
def filterSnapFiles (files : List SnapFile) (used : List Nat) :
    List SnapFile :=
  if used = [] then files
  else ((idxFrom 0 files).filter (fun q => !(used.contains q.1))).map Prod.snd

/-- matchExactRenames embeds the function of the same name from
internal/cache/delta.go. -/
def matchExactRenames (removed added : List SnapFile) :
    List DeltaRename × List SnapFile × List SnapFile :=
  if removed = [] ∨ added = [] then ([], removed, added)
  else
    let byHash := buildByHash removed
    let addInfos := sortBy (fun a b => strLe a.2 b.2)
      ((idxFrom 0 added).map (fun q => (q.1, q.2.path)))
    let (renamed, usedR, usedA) := exactLoop removed added addInfos byHash
    (renamed, filterSnapFiles removed usedR, filterSnapFiles added usedA)

/-- renameCandidate of the similarity pass. -/
structure RenameCandidate where
  removedIdx : Nat
  addedIdx : Nat
deriving DecidableEq, Repr

/-- scoredRename of the similarity pass. -/
structure ScoredRename where
  removedIdx : Nat
  addedIdx : Nat
  score : Nat
  toPath : String
deriving DecidableEq, Repr

/-- The inner loop of collectRenameCandidates over the added files for
one removed file: equal hashes are skipped, unknown line counts are kept,
and otherwise the prefilter keeps pairs whose larger line count is at
most twice the smaller. -/
def collectInner (i : Nat) (rf : SnapFile) :
    List (Nat × SnapFile) → List RenameCandidate
  | [] => []
  | (j, af) :: rest =>
    if rf.hash = af.hash then collectInner i rf rest
    else if rf.lines = 0 ∨ af.lines = 0 then
      ⟨i, j⟩ :: collectInner i rf rest
    else
      let a := rf.lines
      let b := af.lines
      let p := if a < b then (b, a) else (a, b)
      if p.2 = 0 ∨ p.1 ≤ 2 * p.2 then ⟨i, j⟩ :: collectInner i rf rest
      else collectInner i rf rest

/-- collectRenameCandidates embeds the function of the same name. -/
def collectRenameCandidates (d : Delta) : List RenameCandidate :=
  (idxFrom 0 d.removed).foldr
    (fun q acc => collectInner q.1 q.2 (idxFrom 0 d.added) ++ acc) []

/-- loadSimHash embeds the function of the same name; the per-index cache
of the Go code only memoizes the pure provider read and is semantically
transparent. -/
def loadSimHash (files : List SnapFile) (idx : Nat) (old : Bool)
    (prov : ContentProvider) : Option Nat :=
  (prov.read (files.getD idx default).path old).map
    (fun data => simHash64 (normalizeForSim data))

/-- The scored-pair ordering (toPath, score, fromPath) of
scoreRenameCandidates; the from path is read through the removed slice as
in the Go comparator closure. -/
def scoredLe (removed : List SnapFile) (a b : ScoredRename) : Bool :=
  if a.toPath ≠ b.toPath then strLt a.toPath b.toPath
  else if a.score ≠ b.score then decide (a.score < b.score)
  else strLe (removed.getD a.removedIdx default).path
    (removed.getD b.removedIdx default).path

/-- scoreRenameCandidates embeds the function of the same name: compute
both SimHashes, keep pairs within the threshold, sort deterministically. -/
def scoreRenameCandidates (cfg : DeltaConfig) (d : Delta)
    (pairs : List RenameCandidate) (prov : ContentProvider) :
    List ScoredRename :=
  let scored := pairs.filterMap (fun pair =>
    match loadSimHash d.removed pair.removedIdx true prov,
        loadSimHash d.added pair.addedIdx false prov with
    | some ha, some hb =>
      let dist := hamming64 ha hb
      if (dist : Int) ≤ cfg.simThresh then
        some ⟨pair.removedIdx, pair.addedIdx, dist,
          (d.added.getD pair.addedIdx default).path⟩
      else none
    | _, _ => none)
  sortBy (scoredLe d.removed) scored

/-- The greedy selection loop of pickScoredRenames, skipping pairs whose
endpoints are already used. -/
def pickLoop (d : Delta) :
    List ScoredRename → List Nat → List Nat →
    List DeltaRename × List Nat × List Nat
  | [], ur, ua => ([], ur, ua)
  | s :: rest, ur, ua =>
    if ur.contains s.removedIdx || ua.contains s.addedIdx then
      pickLoop d rest ur ua
    else
      let (rs, ur', ua') :=
        pickLoop d rest (s.removedIdx :: ur) (s.addedIdx :: ua)
      ({ fromPath := (d.removed.getD s.removedIdx default).path,
         toPath := (d.added.getD s.addedIdx default).path,
         hash := (d.added.getD s.addedIdx default).hash } :: rs, ur', ua')

/-- pickScoredRenames embeds the function of the same name. -/
def pickScoredRenames (d : Delta) (scored : List ScoredRename) :
    List DeltaRename × List Nat × List Nat :=
  pickLoop d scored [] []

/-- applySimilarityRenames embeds the function of the same name,
including every early return of the Go code. -/
def applySimilarityRenames (cfg : DeltaConfig) (d : Delta) : Delta :=
  if d.removed = [] ∨ d.added = [] then d
  else
    match cfg.provider with
    | none => d
    | some prov =>
      let pairs := collectRenameCandidates d
      if pairs = [] then d
      else
        let scored := scoreRenameCandidates cfg d pairs prov
        if scored = [] then d
        else
          let (renames, usedRemoved, usedAdded) := pickScoredRenames d scored
          if renames = [] then d
          else
            { d with
                renamed := d.renamed ++ renames,
                removed := filterSnapFiles d.removed usedRemoved,
                added := filterSnapFiles d.added usedAdded }

/-- Rename ordering (From, To) of sortDelta (le form; two renames of one
delta never share both endpoints). -/
def renameLe (a b : DeltaRename) : Bool :=
  if a.fromPath = b.fromPath then strLe a.toPath b.toPath
  else strLt a.fromPath b.fromPath

/-- sortDelta embeds the function of the same name. -/
def sortDelta (d : Delta) : Delta :=
  { removed := sortBy snapFileLe d.removed,
    added := sortBy snapFileLe d.added,
    renamed := sortBy renameLe d.renamed,
    changed := sortBy (fun a b => strLe a.path b.path) d.changed }

/-- BuildDelta embeds the function of the same name from
internal/cache/delta.go, with the package globals passed as cfg. -/
def BuildDelta (cfg : DeltaConfig) (prev curr : Option Snapshot) : Delta :=
  match handleTrivialDelta prev curr with
  | some d => d
  | none =>
    let prevM := indexByPath (snapFiles prev)
    let currM := indexByPath (snapFiles curr)
    let rc := classifyRemovedAndChanged prevM currM
    let added := classifyAdded prevM currM
    let mer := matchExactRenames rc.1 added
    let d : Delta :=
      { added := mer.2.2, removed := mer.2.1, renamed := mer.1,
        changed := rc.2 }
    let d := if cfg.enableSimRename then applySimilarityRenames cfg d else d
    sortDelta d

end CC.Cache

namespace CC.Cache

theorem idxFrom_map_snd (l : List α) : ∀ i, (idxFrom i l).map Prod.snd = l := by
  induction l with
  | nil => intro i; rfl
  | cons f rest ih =>
    intro i
    show (i, f).2 :: (idxFrom (i + 1) rest).map Prod.snd = f :: rest
    rw [ih (i + 1)]

theorem mem_idxFrom (d : α) :
    ∀ (l : List α) (i : Nat), ∀ q ∈ idxFrom i l,
      i ≤ q.1 ∧ q.1 < i + l.length ∧ l.getD (q.1 - i) d = q.2 := by
  intro l
  induction l with
  | nil => intro i q hq; simp [idxFrom] at hq
  | cons f rest ih =>
    intro i q hq
    rcases List.mem_cons.mp hq with rfl | hq'
    · refine ⟨Nat.le_refl i, by simp, ?_⟩
      simp [List.getD]
    · obtain ⟨h1, h2, h3⟩ := ih (i + 1) q hq'
      refine ⟨by omega, by simp [List.length_cons]; omega, ?_⟩
      rw [show q.1 - i = (q.1 - (i + 1)) + 1 by omega]
      simpa [List.getD] using h3

theorem mem_idxFrom_of_getD (d : α) :
    ∀ (l : List α) (i j : Nat), j < l.length →
      (i + j, l.getD j d) ∈ idxFrom i l := by
  intro l
  induction l with
  | nil => intro i j hj; simp at hj
  | cons f rest ih =>
    intro i j hj
    cases j with
    | zero =>
      show (i + 0, (f :: rest).getD 0 d) ∈ (i, f) :: idxFrom (i + 1) rest
      simp [List.getD]
    | succ j =>
      have := ih (i + 1) j (by simpa using hj)
      show _ ∈ (i, f) :: idxFrom (i + 1) rest
      refine List.mem_cons_of_mem _ ?_
      rw [show i + (j + 1) = (i + 1) + j by omega]
      simpa [List.getD] using this

theorem idxFrom_fst_nodup (l : List α) :
    ∀ i, ((idxFrom i l).map Prod.fst).Nodup := by
  induction l with
  | nil => intro i; simp [idxFrom]
  | cons f rest ih =>
    intro i
    show (i :: (idxFrom (i + 1) rest).map Prod.fst).Nodup
    refine List.Nodup.cons ?_ (ih (i + 1))
    intro hmem
    rcases List.mem_map.mp hmem with ⟨q, hq, hfst⟩
    have := (mem_idxFrom f rest (i + 1) q hq).1
    omega

theorem filterSnapFiles_eq (files : List SnapFile) (used : List Nat) :
    filterSnapFiles files used =
      ((idxFrom 0 files).filter (fun q => !(used.contains q.1))).map Prod.snd := by
  by_cases h : used = []
  · subst h
    rw [show filterSnapFiles files [] = files from rfl]
    rw [show ((idxFrom 0 files).filter
        (fun q => !(([] : List Nat).contains q.1))) = idxFrom 0 files by
      simp [List.filter_eq_self]]
    rw [idxFrom_map_snd]
  · simp [filterSnapFiles, h]

theorem filterSnapFiles_sublist (files : List SnapFile) (used : List Nat) :
    (filterSnapFiles files used).Sublist files := by
  rw [filterSnapFiles_eq]
  have h1 : (((idxFrom 0 files).filter
      (fun q => !(used.contains q.1))).map Prod.snd).Sublist
        ((idxFrom 0 files).map Prod.snd) :=
    List.Sublist.map Prod.snd (List.filter_sublist _)
  rwa [idxFrom_map_snd] at h1

theorem getD_path_injective {files : List SnapFile}
    (hnd : (files.map SnapFile.path).Nodup) {i j : Nat}
    (hi : i < files.length) (hj : j < files.length)
    (he : (files.getD i default).path = (files.getD j default).path) :
    i = j := by
  have hi' : i < (files.map SnapFile.path).length := by simpa using hi
  have hj' : j < (files.map SnapFile.path).length := by simpa using hj
  have he' : (files.map SnapFile.path).get ⟨i, hi'⟩ =
      (files.map SnapFile.path).get ⟨j, hj'⟩ := by
    rw [List.get_eq_getElem, List.get_eq_getElem, List.getElem_map,
      List.getElem_map]
    rw [List.getD_eq_getElem files default hi,
      List.getD_eq_getElem files default hj] at he
    exact he
  have := (List.Nodup.get_inj_iff hnd).mp he'
  exact congrArg Fin.val this

theorem mem_filterSnapFiles (files : List SnapFile) (used : List Nat) :
    ∀ f ∈ filterSnapFiles files used,
      ∃ i, i < files.length ∧ ¬ (i ∈ used) ∧ files.getD i default = f := by
  intro f hf
  rw [filterSnapFiles_eq] at hf
  rcases List.mem_map.mp hf with ⟨q, hq, hsnd⟩
  have hq1 := List.mem_filter.mp hq
  obtain ⟨h1, h2, h3⟩ := mem_idxFrom default files 0 q hq1.1
  refine ⟨q.1, by omega, ?_, ?_⟩
  · have hc := hq1.2
    simp at hc
    exact hc
  · rw [show q.1 - 0 = q.1 from rfl] at h3
    rw [h3, hsnd]

theorem filterSnapFiles_not_mem_of_used {files : List SnapFile}
    (hnd : (files.map SnapFile.path).Nodup) (used : List Nat) {i : Nat}
    (hi : i < files.length) (hmem : i ∈ used) :
    (files.getD i default).path ∉
      (filterSnapFiles files used).map SnapFile.path := by
  intro hcontra
  rcases List.mem_map.mp hcontra with ⟨f, hf, hpath⟩
  obtain ⟨j, hj, hjused, hjget⟩ := mem_filterSnapFiles files used f hf
  have : j = i := getD_path_injective hnd hj hi (by rw [hjget, hpath])
  exact hjused (this ▸ hmem)

end CC.Cache

namespace CC.Cache

theorem getD_path_mem (files : List SnapFile) {i : Nat}
    (hi : i < files.length) :
    (files.getD i default).path ∈ files.map SnapFile.path := by
  refine List.mem_map.mpr ⟨files.getD i default, ?_, rfl⟩
  rw [List.getD_eq_getElem files default hi]
  exact List.getElem_mem hi

theorem mem_filterSnapFiles_of_not_used (files : List SnapFile)
    (used : List Nat) {i : Nat} (hi : i < files.length) (hu : i ∉ used) :
    files.getD i default ∈ filterSnapFiles files used := by
  rw [filterSnapFiles_eq]
  refine List.mem_map.mpr ⟨(i, files.getD i default), ?_, rfl⟩
  refine List.mem_filter.mpr ⟨?_, ?_⟩
  · have := mem_idxFrom_of_getD default files 0 i hi
    simpa using this
  · simp [hu]

theorem perm_consume (files : List SnapFile) (used : List Nat)
    (hnd : (files.map SnapFile.path).Nodup) (hu : used.Nodup)
    (hlt : ∀ i ∈ used, i < files.length) :
    (used.map (fun i => (files.getD i default).path) ++
      (filterSnapFiles files used).map SnapFile.path).Perm
      (files.map SnapFile.path) := by
  have hkept : ((filterSnapFiles files used).map SnapFile.path).Sublist
      (files.map SnapFile.path) :=
    List.Sublist.map SnapFile.path (filterSnapFiles_sublist files used)
  have hkeptnd : ((filterSnapFiles files used).map SnapFile.path).Nodup :=
    List.Sublist.nodup hkept hnd
  have husednd : (used.map (fun i => (files.getD i default).path)).Nodup := by
    refine List.Nodup.map_on ?_ hu
    intro i hi j hj he
    exact getD_path_injective hnd (hlt i hi) (hlt j hj) he
  have hlhsnd : (used.map (fun i => (files.getD i default).path) ++
      (filterSnapFiles files used).map SnapFile.path).Nodup := by
    rw [List.nodup_append]
    refine ⟨husednd, hkeptnd, ?_⟩
    intro x hx hx2
    rcases List.mem_map.mp hx with ⟨i, hi, rfl⟩
    exact filterSnapFiles_not_mem_of_used hnd used (hlt i hi) hi hx2
  refine (List.perm_ext_iff_of_nodup hlhsnd hnd).mpr ?_
  intro x
  constructor
  · intro hx
    rcases List.mem_append.mp hx with hx' | hx'
    · rcases List.mem_map.mp hx' with ⟨i, hi, rfl⟩
      exact getD_path_mem files (hlt i hi)
    · exact hkept.mem hx'
  · intro hx
    rcases List.mem_map.mp hx with ⟨f, hf, rfl⟩
    rcases List.mem_iff_getElem.mp hf with ⟨i, hi, rfl⟩
    by_cases hiu : i ∈ used
    · refine List.mem_append_left _ (List.mem_map.mpr ⟨i, hiu, ?_⟩)
      rw [List.getD_eq_getElem files default hi]
    · refine List.mem_append_right _ (List.mem_map.mpr
        ⟨files.getD i default, mem_filterSnapFiles_of_not_used files used hi hiu, ?_⟩)
      rw [List.getD_eq_getElem files default hi]

end CC.Cache

namespace CC.Cache

/-- All removed indices still stored in the byHash map, in group order. -/
def byHashIdxs : List (String × List RemInfo) → List Nat
  | [] => []
  | p :: rest => p.2.map RemInfo.idx ++ byHashIdxs rest

theorem lookupByHash_mem {m : List (String × List RemInfo)} {h : String}
    {l : List RemInfo} (he : lookupByHash m h = l) (hne : l ≠ []) :
    (h, l) ∈ m := by
  induction m with
  | nil => exact absurd he.symm hne
  | cons p rest ih =>
    obtain ⟨k, l0⟩ := p
    by_cases hk : k = h
    · subst hk
      rw [show lookupByHash ((k, l0) :: rest) k = l0 by simp [lookupByHash]] at he
      subst he
      exact List.mem_cons_self _ _
    · rw [show lookupByHash ((k, l0) :: rest) h = lookupByHash rest h by
        simp [lookupByHash, hk]] at he
      exact List.mem_cons_of_mem _ (ih he)

theorem mem_byHashIdxs_of_mem {m : List (String × List RemInfo)}
    {p : String × List RemInfo} (hp : p ∈ m) {r : RemInfo} (hr : r ∈ p.2) :
    r.idx ∈ byHashIdxs m := by
  induction m with
  | nil => simp at hp
  | cons q rest ih =>
    rcases List.mem_cons.mp hp with rfl | hp'
    · exact List.mem_append_left _ (List.mem_map.mpr ⟨r, hr, rfl⟩)
    · exact List.mem_append_right _ (ih hp')

theorem byHashIdxs_set {m : List (String × List RemInfo)} {h : String}
    {cand : RemInfo} {tl : List RemInfo}
    (he : lookupByHash m h = cand :: tl) :
    (byHashIdxs m).Perm (cand.idx :: byHashIdxs (setByHash m h tl)) := by
  induction m with
  | nil => simp [lookupByHash] at he
  | cons p rest ih =>
    obtain ⟨k, l0⟩ := p
    by_cases hk : k = h
    · subst hk
      rw [show lookupByHash ((k, l0) :: rest) k = l0 by simp [lookupByHash]] at he
      subst he
      rw [show setByHash ((k, cand :: tl) :: rest) k tl = (k, tl) :: rest by
        simp [setByHash]]
      show (cand.idx :: tl.map RemInfo.idx ++ byHashIdxs rest).Perm
        (cand.idx :: (tl.map RemInfo.idx ++ byHashIdxs rest))
      simp
    · rw [show lookupByHash ((k, l0) :: rest) h = lookupByHash rest h by
        simp [lookupByHash, hk]] at he
      rw [show setByHash ((k, l0) :: rest) h tl = (k, l0) :: setByHash rest h tl by
        simp [setByHash, hk]]
      show (l0.map RemInfo.idx ++ byHashIdxs rest).Perm
        (cand.idx :: (l0.map RemInfo.idx ++ byHashIdxs (setByHash rest h tl)))
      exact (List.Perm.append_left _ (ih he)).trans List.perm_middle

theorem byHashIdxs_erase {m : List (String × List RemInfo)} {h : String}
    {cand : RemInfo} (he : lookupByHash m h = [cand]) :
    (byHashIdxs m).Perm (cand.idx :: byHashIdxs (eraseByHash m h)) := by
  induction m with
  | nil => simp [lookupByHash] at he
  | cons p rest ih =>
    obtain ⟨k, l0⟩ := p
    by_cases hk : k = h
    · subst hk
      rw [show lookupByHash ((k, l0) :: rest) k = l0 by simp [lookupByHash]] at he
      subst he
      rw [show eraseByHash ((k, [cand]) :: rest) k = rest by simp [eraseByHash]]
      show ([cand].map RemInfo.idx ++ byHashIdxs rest).Perm
        (cand.idx :: byHashIdxs rest)
      simp
    · rw [show lookupByHash ((k, l0) :: rest) h = lookupByHash rest h by
        simp [lookupByHash, hk]] at he
      rw [show eraseByHash ((k, l0) :: rest) h = (k, l0) :: eraseByHash rest h by
        simp [eraseByHash, hk]]
      show (l0.map RemInfo.idx ++ byHashIdxs rest).Perm
        (cand.idx :: (l0.map RemInfo.idx ++ byHashIdxs (eraseByHash rest h)))
      exact (List.Perm.append_left _ (ih he)).trans List.perm_middle

theorem mem_setByHash {m : List (String × List RemInfo)} {h : String}
    {tl : List RemInfo} :
    ∀ p ∈ setByHash m h tl, p ∈ m ∨ (p.1 = h ∧ p.2 = tl) := by
  induction m with
  | nil => intro p hp; simp [setByHash] at hp
  | cons q rest ih =>
    obtain ⟨k, l0⟩ := q
    intro p hp
    by_cases hk : k = h
    · subst hk
      rw [show setByHash ((k, l0) :: rest) k tl = (k, tl) :: rest by
        simp [setByHash]] at hp
      rcases List.mem_cons.mp hp with rfl | hp'
      · exact Or.inr ⟨rfl, rfl⟩
      · exact Or.inl (List.mem_cons_of_mem _ hp')
    · rw [show setByHash ((k, l0) :: rest) h tl = (k, l0) :: setByHash rest h tl by
        simp [setByHash, hk]] at hp
      rcases List.mem_cons.mp hp with rfl | hp'
      · exact Or.inl (List.mem_cons_self _ _)
      · rcases ih p hp' with hm | he
        · exact Or.inl (List.mem_cons_of_mem _ hm)
        · exact Or.inr he

theorem mem_eraseByHash {m : List (String × List RemInfo)} {h : String} :
    ∀ p ∈ eraseByHash m h, p ∈ m := by
  induction m with
  | nil => intro p hp; simp [eraseByHash] at hp
  | cons q rest ih =>
    obtain ⟨k, l0⟩ := q
    intro p hp
    by_cases hk : k = h
    · subst hk
      rw [show eraseByHash ((k, l0) :: rest) k = rest by simp [eraseByHash]] at hp
      exact List.mem_cons_of_mem _ hp
    · rw [show eraseByHash ((k, l0) :: rest) h = (k, l0) :: eraseByHash rest h by
        simp [eraseByHash, hk]] at hp
      rcases List.mem_cons.mp hp with rfl | hp'
      · exact List.mem_cons_self _ _
      · exact List.mem_cons_of_mem _ (ih p hp')

end CC.Cache

namespace CC.Cache

theorem exactLoop_spec (removed added : List SnapFile) :
    ∀ (ais : List (Nat × String)) (m : List (String × List RemInfo)),
      (byHashIdxs m).Nodup →
      (∀ p ∈ m, ∀ r ∈ p.2, r.idx < removed.length) →
      (ais.map Prod.fst).Nodup →
      (∀ q ∈ ais, q.1 < added.length) →
      ((exactLoop removed added ais m).1.map DeltaRename.toPath =
        (exactLoop removed added ais m).2.2.map
          (fun i => (added.getD i default).path)) ∧
      ((exactLoop removed added ais m).1.map DeltaRename.fromPath =
        (exactLoop removed added ais m).2.1.map
          (fun i => (removed.getD i default).path)) ∧
      (exactLoop removed added ais m).2.2.Nodup ∧
      (∀ i ∈ (exactLoop removed added ais m).2.2,
        i < added.length ∧ i ∈ ais.map Prod.fst) ∧
      (exactLoop removed added ais m).2.1.Nodup ∧
      (∀ i ∈ (exactLoop removed added ais m).2.1,
        i < removed.length ∧ i ∈ byHashIdxs m) := by
  intro ais
  induction ais with
  | nil =>
    intro m _ _ _ _
    exact ⟨rfl, rfl, List.nodup_nil, by simp [exactLoop], List.nodup_nil,
      by simp [exactLoop]⟩
  | cons info rest ih =>
    intro m hmnd hmb hand hab
    have hand' : (rest.map Prod.fst).Nodup := (List.nodup_cons.mp hand).2
    have hab' : ∀ q ∈ rest, q.1 < added.length :=
      fun q hq => hab q (List.mem_cons_of_mem _ hq)
    rcases hl : lookupByHash m (added.getD info.1 default).hash
      with _ | ⟨cand, tl⟩
    · have hstep : exactLoop removed added (info :: rest) m =
          exactLoop removed added rest m := by
        simp only [exactLoop, hl]
      rw [hstep]
      obtain ⟨c1, c2, c3, c4, c5, c6⟩ := ih m hmnd hmb hand' hab'
      refine ⟨c1, c2, c3, ?_, c5, c6⟩
      intro i hi
      obtain ⟨hia, hib⟩ := c4 i hi
      exact ⟨hia, List.mem_cons_of_mem _ hib⟩
    · rcases hE : exactLoop removed added rest
        (if tl = [] then eraseByHash m (added.getD info.1 default).hash
         else setByHash m (added.getD info.1 default).hash tl)
        with ⟨rs, ur, ua⟩
      have hstep : exactLoop removed added (info :: rest) m =
          ({ fromPath := (removed.getD cand.idx default).path,
             toPath := (added.getD info.1 default).path,
             hash := (added.getD info.1 default).hash } :: rs,
           cand.idx :: ur, info.1 :: ua) := by
        simp only [exactLoop, hl, hE]
      have hperm : (byHashIdxs m).Perm (cand.idx :: byHashIdxs
          (if tl = [] then eraseByHash m (added.getD info.1 default).hash
           else setByHash m (added.getD info.1 default).hash tl)) := by
        by_cases htl : tl = []
        · subst htl
          rw [if_pos rfl]
          exact byHashIdxs_erase hl
        · rw [if_neg htl]
          exact byHashIdxs_set hl
      have hmnd' : (byHashIdxs
          (if tl = [] then eraseByHash m (added.getD info.1 default).hash
           else setByHash m (added.getD info.1 default).hash tl)).Nodup :=
        (List.nodup_cons.mp (hperm.nodup hmnd)).2
      have hcandfresh : cand.idx ∉ byHashIdxs
          (if tl = [] then eraseByHash m (added.getD info.1 default).hash
           else setByHash m (added.getD info.1 default).hash tl) :=
        (List.nodup_cons.mp (hperm.nodup hmnd)).1
      have hgroupmem : ((added.getD info.1 default).hash, cand :: tl) ∈ m :=
        lookupByHash_mem hl (by simp)
      have hmb' : ∀ p ∈ (if tl = [] then
          eraseByHash m (added.getD info.1 default).hash
          else setByHash m (added.getD info.1 default).hash tl),
          ∀ r ∈ p.2, r.idx < removed.length := by
        intro p hp r hr
        by_cases htl : tl = []
        · rw [if_pos htl] at hp
          exact hmb p (mem_eraseByHash p hp) r hr
        · rw [if_neg htl] at hp
          rcases mem_setByHash p hp with hm | ⟨_, h2⟩
          · exact hmb p hm r hr
          · exact hmb _ hgroupmem r (h2 ▸ List.mem_cons_of_mem _ hr)
      obtain ⟨c1, c2, c3, c4, c5, c6⟩ := ih _ hmnd' hmb' hand' hab'
      rw [hE] at c1 c2 c3 c4 c5 c6
      rw [hstep]
      refine ⟨?_, ?_, ?_, ?_, ?_, ?_⟩
      · show _ :: rs.map DeltaRename.toPath = _ :: ua.map _
        rw [c1]
      · show _ :: rs.map DeltaRename.fromPath = _ :: ur.map _
        rw [c2]
      · show (info.1 :: ua).Nodup
        refine List.nodup_cons.mpr ⟨?_, c3⟩
        intro hcontra
        exact (List.nodup_cons.mp hand).1 ((c4 info.1 hcontra).2)
      · intro i hi
        rcases List.mem_cons.mp hi with rfl | hi'
        · exact ⟨hab info (List.mem_cons_self _ _), List.mem_cons_self _ _⟩
        · obtain ⟨hia, hib⟩ := c4 i hi'
          exact ⟨hia, List.mem_cons_of_mem _ hib⟩
      · show (cand.idx :: ur).Nodup
        refine List.nodup_cons.mpr ⟨?_, c5⟩
        intro hcontra
        exact hcandfresh ((c6 cand.idx hcontra).2)
      · intro i hi
        rcases List.mem_cons.mp hi with rfl | hi'
        · exact ⟨hmb _ hgroupmem cand (List.mem_cons_self _ _),
            mem_byHashIdxs_of_mem hgroupmem (List.mem_cons_self _ _)⟩
        · obtain ⟨hia, hib⟩ := c6 i hi'
          exact ⟨hia, hperm.mem_iff.mpr (List.mem_cons_of_mem _ hib)⟩

end CC.Cache

namespace CC.Cache

theorem byHashIdxs_append (h : String) (r : RemInfo) :
    ∀ m : List (String × List RemInfo),
      (byHashIdxs (appendByHash m h r)).Perm (byHashIdxs m ++ [r.idx]) := by
  intro m
  induction m with
  | nil =>
    show ([r].map RemInfo.idx ++ []).Perm ([] ++ [r.idx])
    simp
  | cons p rest ih =>
    obtain ⟨k, l0⟩ := p
    by_cases hk : k = h
    · subst hk
      rw [show appendByHash ((k, l0) :: rest) k r = (k, l0 ++ [r]) :: rest by
        simp [appendByHash]]
      show ((l0 ++ [r]).map RemInfo.idx ++ byHashIdxs rest).Perm
        ((l0.map RemInfo.idx ++ byHashIdxs rest) ++ [r.idx])
      rw [List.map_append, List.append_assoc, List.append_assoc]
      exact List.Perm.append_left _ List.perm_append_comm
    · rw [show appendByHash ((k, l0) :: rest) h r =
          (k, l0) :: appendByHash rest h r by simp [appendByHash, hk]]
      show (l0.map RemInfo.idx ++ byHashIdxs (appendByHash rest h r)).Perm
        ((l0.map RemInfo.idx ++ byHashIdxs rest) ++ [r.idx])
      rw [List.append_assoc]
      exact List.Perm.append_left _ ih

theorem byHashIdxs_fold (pairs : List (Nat × SnapFile)) :
    ∀ m : List (String × List RemInfo),
      (byHashIdxs (pairs.foldl
        (fun m q => appendByHash m q.2.hash ⟨q.1, q.2.path⟩) m)).Perm
      (byHashIdxs m ++ pairs.map Prod.fst) := by
  induction pairs with
  | nil => intro m; simp
  | cons q rest ih =>
    intro m
    show (byHashIdxs (rest.foldl _ (appendByHash m q.2.hash ⟨q.1, q.2.path⟩))).Perm
      (byHashIdxs m ++ (q.1 :: rest.map Prod.fst))
    refine (ih (appendByHash m q.2.hash ⟨q.1, q.2.path⟩)).trans ?_
    refine (List.Perm.append_right _ (byHashIdxs_append q.2.hash _ m)).trans ?_
    rw [List.append_assoc]
    refine List.Perm.append_left _ ?_
    show ([q.1] ++ rest.map Prod.fst).Perm (q.1 :: rest.map Prod.fst)
    simp

theorem byHashIdxs_sortGroups (m : List (String × List RemInfo)) :
    (byHashIdxs (m.map (fun q => (q.1, sortBy remInfoLe q.2)))).Perm
      (byHashIdxs m) := by
  induction m with
  | nil => simp [byHashIdxs]
  | cons p rest ih =>
    show ((sortBy remInfoLe p.2).map RemInfo.idx ++ _).Perm
      (p.2.map RemInfo.idx ++ _)
    exact List.Perm.append ((sortBy_perm remInfoLe p.2).map RemInfo.idx) ih

theorem byHashIdxs_build (removed : List SnapFile) :
    (byHashIdxs (buildByHash removed)).Perm
      ((idxFrom 0 removed).map Prod.fst) := by
  refine (byHashIdxs_sortGroups _).trans ?_
  have := byHashIdxs_fold (idxFrom 0 removed) []
  simpa using this

theorem mem_appendByHash {h : String} {r : RemInfo} :
    ∀ (m : List (String × List RemInfo)), ∀ p ∈ appendByHash m h r,
      ∀ r0 ∈ p.2, (∃ p0 ∈ m, r0 ∈ p0.2) ∨ r0 = r := by
  intro m
  induction m with
  | nil =>
    intro p hp r0 hr0
    rw [show appendByHash [] h r = [(h, [r])] from rfl] at hp
    rcases List.mem_cons.mp hp with rfl | hp'
    · right
      simpa using hr0
    · simp at hp'
  | cons q rest ih =>
    obtain ⟨k, l0⟩ := q
    intro p hp r0 hr0
    by_cases hk : k = h
    · subst hk
      rw [show appendByHash ((k, l0) :: rest) k r = (k, l0 ++ [r]) :: rest by
        simp [appendByHash]] at hp
      rcases List.mem_cons.mp hp with rfl | hp'
      · rcases List.mem_append.mp hr0 with hx | hx
        · exact Or.inl ⟨(k, l0), List.mem_cons_self _ _, hx⟩
        · right; simpa using hx
      · exact Or.inl ⟨p, List.mem_cons_of_mem _ hp', hr0⟩
    · rw [show appendByHash ((k, l0) :: rest) h r =
          (k, l0) :: appendByHash rest h r by simp [appendByHash, hk]] at hp
      rcases List.mem_cons.mp hp with rfl | hp'
      · exact Or.inl ⟨(k, l0), List.mem_cons_self _ _, hr0⟩
      · rcases ih p hp' r0 hr0 with ⟨p0, hp0, hr⟩ | he
        · exact Or.inl ⟨p0, List.mem_cons_of_mem _ hp0, hr⟩
        · exact Or.inr he

theorem mem_foldByHash (pairs : List (Nat × SnapFile)) :
    ∀ (m : List (String × List RemInfo)),
      ∀ p ∈ pairs.foldl (fun m q => appendByHash m q.2.hash ⟨q.1, q.2.path⟩) m,
      ∀ r0 ∈ p.2, (∃ p0 ∈ m, r0 ∈ p0.2) ∨
        ∃ q ∈ pairs, r0 = RemInfo.mk q.1 q.2.path := by
  induction pairs with
  | nil =>
    intro m p hp r0 hr0
    exact Or.inl ⟨p, hp, hr0⟩
  | cons q rest ih =>
    intro m p hp r0 hr0
    rcases ih (appendByHash m q.2.hash ⟨q.1, q.2.path⟩) p hp r0 hr0 with
      ⟨p0, hp0, hr⟩ | ⟨q0, hq0, he⟩
    · rcases mem_appendByHash m p0 hp0 r0 hr with hnew | he
      · exact Or.inl hnew
      · exact Or.inr ⟨q, List.mem_cons_self _ _, he⟩
    · exact Or.inr ⟨q0, List.mem_cons_of_mem _ hq0, he⟩

theorem buildByHash_idx_lt (removed : List SnapFile) :
    ∀ p ∈ buildByHash removed, ∀ r ∈ p.2, r.idx < removed.length := by
  intro p hp r hr
  rcases List.mem_map.mp hp with ⟨p0, hp0, rfl⟩
  have hr0 : r ∈ p0.2 := (sortBy_perm remInfoLe p0.2).mem_iff.mp hr
  rcases mem_foldByHash (idxFrom 0 removed) [] p0 hp0 r hr0 with
    ⟨p1, hp1, _⟩ | ⟨q, hq, rfl⟩
  · simp at hp1
  · have := mem_idxFrom default removed 0 q hq
    simpa using this.2.1

end CC.Cache

namespace CC.Cache

theorem addInfos_fst_nodup (added : List SnapFile) :
    ((sortBy (fun a b => strLe a.2 b.2)
      ((idxFrom 0 added).map (fun q => (q.1, q.2.path)))).map Prod.fst).Nodup := by
  have hperm : ((sortBy (fun a b => strLe a.2 b.2)
      ((idxFrom 0 added).map (fun q => (q.1, q.2.path)))).map Prod.fst).Perm
      (((idxFrom 0 added).map (fun q => (q.1, q.2.path))).map Prod.fst) :=
    (sortBy_perm _ _).map Prod.fst
  have heq : ((idxFrom 0 added).map
      (fun q : Nat × SnapFile => (q.1, q.2.path))).map Prod.fst =
      (idxFrom 0 added).map Prod.fst := by
    rw [List.map_map]
    rfl
  refine hperm.symm.nodup ?_
  rw [heq]
  exact idxFrom_fst_nodup added 0

theorem addInfos_fst_lt (added : List SnapFile) :
    ∀ q ∈ sortBy (fun a b => strLe a.2 b.2)
      ((idxFrom 0 added).map (fun q => (q.1, q.2.path))),
      q.1 < added.length := by
  intro q hq
  have hq' : q ∈ (idxFrom 0 added).map (fun q => (q.1, q.2.path)) :=
    (sortBy_perm _ _).mem_iff.mp hq
  rcases List.mem_map.mp hq' with ⟨q0, hq0, rfl⟩
  have := mem_idxFrom default added 0 q0 hq0
  simpa using this.2.1

theorem matchExact_facts (removed added : List SnapFile) :
    ∃ ur ua : List Nat,
      (matchExactRenames removed added).1.map DeltaRename.toPath =
        ua.map (fun i => (added.getD i default).path) ∧
      (matchExactRenames removed added).1.map DeltaRename.fromPath =
        ur.map (fun i => (removed.getD i default).path) ∧
      ua.Nodup ∧ (∀ i ∈ ua, i < added.length) ∧
      ur.Nodup ∧ (∀ i ∈ ur, i < removed.length) ∧
      (matchExactRenames removed added).2.2 = filterSnapFiles added ua ∧
      (matchExactRenames removed added).2.1 = filterSnapFiles removed ur := by
  by_cases htriv : removed = [] ∨ added = []
  · refine ⟨[], [], ?_⟩
    rw [show matchExactRenames removed added = ([], removed, added) by
      simp only [matchExactRenames, if_pos htriv]]
    exact ⟨rfl, rfl, List.nodup_nil, by simp, List.nodup_nil, by simp, rfl, rfl⟩
  · rcases hE : exactLoop removed added
      (sortBy (fun a b => strLe a.2 b.2)
        ((idxFrom 0 added).map (fun q => (q.1, q.2.path))))
      (buildByHash removed) with ⟨rs, ur, ua⟩
    have hstep : matchExactRenames removed added =
        (rs, filterSnapFiles removed ur, filterSnapFiles added ua) := by
      simp only [matchExactRenames, if_neg htriv, hE]
    obtain ⟨c1, c2, c3, c4, c5, c6⟩ := exactLoop_spec removed added
      (sortBy (fun a b => strLe a.2 b.2)
        ((idxFrom 0 added).map (fun q => (q.1, q.2.path))))
      (buildByHash removed)
      ((byHashIdxs_build removed).symm.nodup (idxFrom_fst_nodup removed 0))
      (buildByHash_idx_lt removed)
      (addInfos_fst_nodup added)
      (addInfos_fst_lt added)
    rw [hE] at c1 c2 c3 c4 c5 c6
    refine ⟨ur, ua, ?_⟩
    rw [hstep]
    exact ⟨c1, c2, c3, fun i hi => (c4 i hi).1, c5, fun i hi => (c6 i hi).1,
      rfl, rfl⟩

theorem matchExact_perm_add (removed added : List SnapFile)
    (ha : (added.map SnapFile.path).Nodup) :
    ((matchExactRenames removed added).1.map DeltaRename.toPath ++
      (matchExactRenames removed added).2.2.map SnapFile.path).Perm
      (added.map SnapFile.path) := by
  obtain ⟨ur, ua, c1, c2, c3, c4, c5, c6, c7, c8⟩ :=
    matchExact_facts removed added
  rw [c1, c7]
  exact perm_consume added ua ha c3 c4

theorem matchExact_perm_rem (removed added : List SnapFile)
    (hr : (removed.map SnapFile.path).Nodup) :
    ((matchExactRenames removed added).1.map DeltaRename.fromPath ++
      (matchExactRenames removed added).2.1.map SnapFile.path).Perm
      (removed.map SnapFile.path) := by
  obtain ⟨ur, ua, c1, c2, c3, c4, c5, c6, c7, c8⟩ :=
    matchExact_facts removed added
  rw [c2, c8]
  exact perm_consume removed ur hr c5 c6

theorem matchExact_excl (removed added : List SnapFile)
    (hr : (removed.map SnapFile.path).Nodup)
    (ha : (added.map SnapFile.path).Nodup) :
    ∀ r ∈ (matchExactRenames removed added).1,
      r.toPath ∉ (matchExactRenames removed added).2.2.map SnapFile.path ∧
      r.fromPath ∉ (matchExactRenames removed added).2.1.map SnapFile.path := by
  obtain ⟨ur, ua, c1, c2, c3, c4, c5, c6, c7, c8⟩ :=
    matchExact_facts removed added
  intro r hrr
  constructor
  · have : r.toPath ∈ (matchExactRenames removed added).1.map
        DeltaRename.toPath := List.mem_map.mpr ⟨r, hrr, rfl⟩
    rw [c1] at this
    rcases List.mem_map.mp this with ⟨i, hi, he⟩
    rw [c7, ← he]
    exact filterSnapFiles_not_mem_of_used ha ua (c4 i hi) hi
  · have : r.fromPath ∈ (matchExactRenames removed added).1.map
        DeltaRename.fromPath := List.mem_map.mpr ⟨r, hrr, rfl⟩
    rw [c2] at this
    rcases List.mem_map.mp this with ⟨i, hi, he⟩
    rw [c8, ← he]
    exact filterSnapFiles_not_mem_of_used hr ur (c6 i hi) hi

end CC.Cache

namespace CC.Cache

theorem collectInner_mem (i : Nat) (rf : SnapFile) :
    ∀ (l : List (Nat × SnapFile)), ∀ c ∈ collectInner i rf l,
      c.removedIdx = i ∧ ∃ q ∈ l, c.addedIdx = q.1 := by
  intro l
  induction l with
  | nil => intro c hc; simp [collectInner] at hc
  | cons q rest ih =>
    intro c hc
    obtain ⟨j, af⟩ := q
    have hnext : ∀ (hc' : c ∈ collectInner i rf rest),
        c.removedIdx = i ∧ ∃ q ∈ (j, af) :: rest, c.addedIdx = q.1 := by
      intro hc'
      obtain ⟨h1, q0, hq0, h2⟩ := ih c hc'
      exact ⟨h1, q0, List.mem_cons_of_mem _ hq0, h2⟩
    by_cases h1 : rf.hash = af.hash
    · rw [show collectInner i rf ((j, af) :: rest) = collectInner i rf rest by
        simp only [collectInner, if_pos h1]] at hc
      exact hnext hc
    · by_cases h2 : rf.lines = 0 ∨ af.lines = 0
      · rw [show collectInner i rf ((j, af) :: rest) =
            ⟨i, j⟩ :: collectInner i rf rest by
          simp only [collectInner, if_neg h1, if_pos h2]] at hc
        rcases List.mem_cons.mp hc with rfl | hc'
        · exact ⟨rfl, (j, af), List.mem_cons_self _ _, rfl⟩
        · exact hnext hc'
      · by_cases h3 : (if rf.lines < af.lines then (af.lines, rf.lines)
            else (rf.lines, af.lines)).2 = 0 ∨
            (if rf.lines < af.lines then (af.lines, rf.lines)
            else (rf.lines, af.lines)).1 ≤ 2 *
            (if rf.lines < af.lines then (af.lines, rf.lines)
            else (rf.lines, af.lines)).2
        · rw [show collectInner i rf ((j, af) :: rest) =
              ⟨i, j⟩ :: collectInner i rf rest by
            simp only [collectInner, if_neg h1, if_neg h2, if_pos h3]] at hc
          rcases List.mem_cons.mp hc with rfl | hc'
          · exact ⟨rfl, (j, af), List.mem_cons_self _ _, rfl⟩
          · exact hnext hc'
        · rw [show collectInner i rf ((j, af) :: rest) =
              collectInner i rf rest by
            simp only [collectInner, if_neg h1, if_neg h2, if_neg h3]] at hc
          exact hnext hc

theorem collect_bounds (d : Delta) :
    ∀ c ∈ collectRenameCandidates d,
      c.removedIdx < d.removed.length ∧ c.addedIdx < d.added.length := by
  have main : ∀ (l : List (Nat × SnapFile)),
      ∀ c ∈ l.foldr (fun q acc =>
        collectInner q.1 q.2 (idxFrom 0 d.added) ++ acc) [],
      (∃ q ∈ l, c.removedIdx = q.1) ∧
        ∃ q2 ∈ idxFrom 0 d.added, c.addedIdx = q2.1 := by
    intro l
    induction l with
    | nil => intro c hc; simp at hc
    | cons q rest ih =>
      intro c hc
      rcases List.mem_append.mp hc with hc' | hc'
      · obtain ⟨h1, q2, hq2, h2⟩ := collectInner_mem q.1 q.2 _ c hc'
        exact ⟨⟨q, List.mem_cons_self _ _, h1⟩, q2, hq2, h2⟩
      · obtain ⟨⟨q0, hq0, h1⟩, h2⟩ := ih c hc'
        exact ⟨⟨q0, List.mem_cons_of_mem _ hq0, h1⟩, h2⟩
  intro c hc
  obtain ⟨⟨q, hq, h1⟩, q2, hq2, h2⟩ := main (idxFrom 0 d.removed) c hc
  constructor
  · rw [h1]
    have := mem_idxFrom default d.removed 0 q hq
    omega
  · rw [h2]
    have := mem_idxFrom default d.added 0 q2 hq2
    omega

theorem scored_bounds (cfg : DeltaConfig) (d : Delta)
    (pairs : List RenameCandidate) (prov : ContentProvider)
    (hp : ∀ c ∈ pairs,
      c.removedIdx < d.removed.length ∧ c.addedIdx < d.added.length) :
    ∀ s ∈ scoreRenameCandidates cfg d pairs prov,
      s.removedIdx < d.removed.length ∧ s.addedIdx < d.added.length := by
  intro s hs
  have hs' : s ∈ pairs.filterMap (fun pair =>
      match loadSimHash d.removed pair.removedIdx true prov,
          loadSimHash d.added pair.addedIdx false prov with
      | some ha, some hb =>
        if ((hamming64 ha hb : Nat) : Int) ≤ cfg.simThresh then
          some ⟨pair.removedIdx, pair.addedIdx, hamming64 ha hb,
            (d.added.getD pair.addedIdx default).path⟩
        else none
      | _, _ => none) := (sortBy_perm _ _).mem_iff.mp hs
  rcases List.mem_filterMap.mp hs' with ⟨pair, hpair, he⟩
  rcases hha : loadSimHash d.removed pair.removedIdx true prov with _ | ha
  · rw [hha] at he; simp at he
  · rcases hhb : loadSimHash d.added pair.addedIdx false prov with _ | hb
    · rw [hha, hhb] at he; simp at he
    · rw [hha, hhb] at he
      have he' : (if ((hamming64 ha hb : Nat) : Int) ≤ cfg.simThresh then
          some (ScoredRename.mk pair.removedIdx pair.addedIdx
            (hamming64 ha hb) ((d.added.getD pair.addedIdx default).path))
          else none) = some s := he
      by_cases hth : ((hamming64 ha hb : Nat) : Int) ≤ cfg.simThresh
      · rw [if_pos hth] at he'
        have := Option.some.inj he'
        obtain ⟨h1, h2⟩ := hp pair hpair
        rw [← this]
        exact ⟨h1, h2⟩
      · rw [if_neg hth] at he'
        simp at he'

theorem pickLoop_spec (d : Delta) :
    ∀ (scored : List ScoredRename) (ur0 ua0 : List Nat),
      (∀ s ∈ scored,
        s.removedIdx < d.removed.length ∧ s.addedIdx < d.added.length) →
      ur0.Nodup → ua0.Nodup →
      ∃ urN uaN : List Nat,
        (pickLoop d scored ur0 ua0).2.1 = urN ++ ur0 ∧
        (pickLoop d scored ur0 ua0).2.2 = uaN ++ ua0 ∧
        ((pickLoop d scored ur0 ua0).1.map DeltaRename.toPath).Perm
          (uaN.map (fun i => (d.added.getD i default).path)) ∧
        ((pickLoop d scored ur0 ua0).1.map DeltaRename.fromPath).Perm
          (urN.map (fun i => (d.removed.getD i default).path)) ∧
        (urN ++ ur0).Nodup ∧ (uaN ++ ua0).Nodup ∧
        (∀ i ∈ urN, i < d.removed.length) ∧
        (∀ i ∈ uaN, i < d.added.length) := by
  intro scored
  induction scored with
  | nil =>
    intro ur0 ua0 _ h1 h2
    exact ⟨[], [], rfl, rfl, by simp [pickLoop], by simp [pickLoop],
      by simpa using h1, by simpa using h2, by simp, by simp⟩
  | cons s rest ih =>
    intro ur0 ua0 hb h1 h2
    have hb' : ∀ t ∈ rest,
        t.removedIdx < d.removed.length ∧ t.addedIdx < d.added.length :=
      fun t ht => hb t (List.mem_cons_of_mem _ ht)
    by_cases hg : (ur0.contains s.removedIdx || ua0.contains s.addedIdx) = true
    · have hstep : pickLoop d (s :: rest) ur0 ua0 = pickLoop d rest ur0 ua0 := by
        simp only [pickLoop, if_pos hg]
      rw [hstep]
      exact ih ur0 ua0 hb' h1 h2
    · have hnr : s.removedIdx ∉ ur0 := by
        intro hmem
        simp [hmem] at hg
      have hna : s.addedIdx ∉ ua0 := by
        intro hmem
        simp [hmem] at hg
      rcases hE : pickLoop d rest (s.removedIdx :: ur0) (s.addedIdx :: ua0)
        with ⟨rs, ur, ua⟩
      have hstep : pickLoop d (s :: rest) ur0 ua0 =
          ({ fromPath := (d.removed.getD s.removedIdx default).path,
             toPath := (d.added.getD s.addedIdx default).path,
             hash := (d.added.getD s.addedIdx default).hash } :: rs, ur, ua) := by
        simp only [pickLoop, if_neg hg, hE]
      obtain ⟨urN, uaN, d1, d2, d3, d4, d5, d6, d7, d8⟩ := ih
        (s.removedIdx :: ur0) (s.addedIdx :: ua0) hb'
        (List.nodup_cons.mpr ⟨hnr, h1⟩) (List.nodup_cons.mpr ⟨hna, h2⟩)
      rw [hE] at d1 d2 d3 d4
      refine ⟨urN ++ [s.removedIdx], uaN ++ [s.addedIdx], ?_, ?_, ?_, ?_,
        ?_, ?_, ?_, ?_⟩
      · rw [hstep]
        show ur = (urN ++ [s.removedIdx]) ++ ur0
        rw [List.append_assoc, List.singleton_append]
        exact d1
      · rw [hstep]
        show ua = (uaN ++ [s.addedIdx]) ++ ua0
        rw [List.append_assoc, List.singleton_append]
        exact d2
      · rw [hstep]
        show ((d.added.getD s.addedIdx default).path ::
          rs.map DeltaRename.toPath).Perm _
        rw [List.map_append]
        refine (List.Perm.cons _ d3).trans ?_
        show ([(d.added.getD s.addedIdx default).path] ++
          uaN.map (fun i => (d.added.getD i default).path)).Perm _
        exact List.perm_append_comm
      · rw [hstep]
        show ((d.removed.getD s.removedIdx default).path ::
          rs.map DeltaRename.fromPath).Perm _
        rw [List.map_append]
        refine (List.Perm.cons _ d4).trans ?_
        show ([(d.removed.getD s.removedIdx default).path] ++
          urN.map (fun i => (d.removed.getD i default).path)).Perm _
        exact List.perm_append_comm
      · rw [List.append_assoc, List.singleton_append]
        exact d5
      · rw [List.append_assoc, List.singleton_append]
        exact d6
      · intro i hi
        rcases List.mem_append.mp hi with hi' | hi'
        · exact d7 i hi'
        · rw [List.mem_singleton.mp hi']
          exact (hb s (List.mem_cons_self _ _)).1
      · intro i hi
        rcases List.mem_append.mp hi with hi' | hi'
        · exact d8 i hi'
        · rw [List.mem_singleton.mp hi']
          exact (hb s (List.mem_cons_self _ _)).2

end CC.Cache

namespace CC.Cache

theorem applySim_spec (cfg : DeltaConfig) (d : Delta)
    (ha : (d.added.map SnapFile.path).Nodup)
    (hr : (d.removed.map SnapFile.path).Nodup) :
    ∃ newRs : List DeltaRename,
      (applySimilarityRenames cfg d).renamed = d.renamed ++ newRs ∧
      (applySimilarityRenames cfg d).changed = d.changed ∧
      ((newRs.map DeltaRename.toPath ++
        (applySimilarityRenames cfg d).added.map SnapFile.path).Perm
        (d.added.map SnapFile.path)) ∧
      ((newRs.map DeltaRename.fromPath ++
        (applySimilarityRenames cfg d).removed.map SnapFile.path).Perm
        (d.removed.map SnapFile.path)) ∧
      (∀ r ∈ newRs,
        r.toPath ∉ (applySimilarityRenames cfg d).added.map SnapFile.path ∧
        r.fromPath ∉
          (applySimilarityRenames cfg d).removed.map SnapFile.path) ∧
      (applySimilarityRenames cfg d).added.Sublist d.added ∧
      (applySimilarityRenames cfg d).removed.Sublist d.removed := by
  have htrivial : ∀ (he : applySimilarityRenames cfg d = d),
      ∃ newRs : List DeltaRename,
      (applySimilarityRenames cfg d).renamed = d.renamed ++ newRs ∧
      (applySimilarityRenames cfg d).changed = d.changed ∧
      ((newRs.map DeltaRename.toPath ++
        (applySimilarityRenames cfg d).added.map SnapFile.path).Perm
        (d.added.map SnapFile.path)) ∧
      ((newRs.map DeltaRename.fromPath ++
        (applySimilarityRenames cfg d).removed.map SnapFile.path).Perm
        (d.removed.map SnapFile.path)) ∧
      (∀ r ∈ newRs,
        r.toPath ∉ (applySimilarityRenames cfg d).added.map SnapFile.path ∧
        r.fromPath ∉
          (applySimilarityRenames cfg d).removed.map SnapFile.path) ∧
      (applySimilarityRenames cfg d).added.Sublist d.added ∧
      (applySimilarityRenames cfg d).removed.Sublist d.removed := by
    intro he
    rw [he]
    refine ⟨[], by rw [List.append_nil], rfl, ?_, ?_, by simp,
      List.Sublist.refl _, List.Sublist.refl _⟩
    · rw [show ([] : List DeltaRename).map DeltaRename.toPath = [] from rfl,
        List.nil_append]
    · rw [show ([] : List DeltaRename).map DeltaRename.fromPath = [] from rfl,
        List.nil_append]
  by_cases h0 : d.removed = [] ∨ d.added = []
  · exact htrivial (by simp only [applySimilarityRenames, if_pos h0])
  · rcases hprov : cfg.provider with _ | prov
    · exact htrivial (by simp only [applySimilarityRenames, if_neg h0, hprov])
    · by_cases h1 : collectRenameCandidates d = []
      · exact htrivial (by
          simp only [applySimilarityRenames, if_neg h0, hprov, h1]
          simp)
      · by_cases h2 : scoreRenameCandidates cfg d (collectRenameCandidates d)
            prov = []
        · exact htrivial (by
            simp only [applySimilarityRenames, if_neg h0, hprov, if_neg h1, h2]
            simp)
        · rcases hP : pickScoredRenames d (scoreRenameCandidates cfg d
            (collectRenameCandidates d) prov) with ⟨renames, ur, ua⟩
          by_cases h3 : renames = []
          · refine htrivial (by
              simp only [applySimilarityRenames, if_neg h0, hprov, if_neg h1,
                if_neg h2, hP, if_pos h3])
          · have hstep : applySimilarityRenames cfg d =
                { d with
                    renamed := d.renamed ++ renames,
                    removed := filterSnapFiles d.removed ur,
                    added := filterSnapFiles d.added ua } := by
              simp only [applySimilarityRenames, if_neg h0, hprov, if_neg h1,
                if_neg h2, hP, if_neg h3]
            obtain ⟨urN, uaN, d1, d2, d3, d4, d5, d6, d7, d8⟩ :=
              pickLoop_spec d
                (scoreRenameCandidates cfg d (collectRenameCandidates d) prov)
                [] []
                (scored_bounds cfg d (collectRenameCandidates d) prov
                  (collect_bounds d))
                List.nodup_nil List.nodup_nil
            rw [show pickLoop d (scoreRenameCandidates cfg d
                (collectRenameCandidates d) prov) [] [] =
              pickScoredRenames d (scoreRenameCandidates cfg d
                (collectRenameCandidates d) prov) from rfl, hP] at d1 d2 d3 d4
            have hur : ur = urN := by
              have := d1
              rwa [List.append_nil] at this
            have hua : ua = uaN := by
              have := d2
              rwa [List.append_nil] at this
            rw [List.append_nil] at d5 d6
            subst hur hua
            refine ⟨renames, ?_, ?_, ?_, ?_, ?_, ?_, ?_⟩
            · rw [hstep]
            · rw [hstep]
            · rw [hstep]
              show (renames.map DeltaRename.toPath ++
                (filterSnapFiles d.added ua).map SnapFile.path).Perm _
              refine (List.Perm.append_right _ d3).trans ?_
              exact perm_consume d.added ua ha d6 d8
            · rw [hstep]
              show (renames.map DeltaRename.fromPath ++
                (filterSnapFiles d.removed ur).map SnapFile.path).Perm _
              refine (List.Perm.append_right _ d4).trans ?_
              exact perm_consume d.removed ur hr d5 d7
            · intro r hrr
              rw [hstep]
              constructor
              · have hmem : r.toPath ∈ renames.map DeltaRename.toPath :=
                  List.mem_map.mpr ⟨r, hrr, rfl⟩
                rcases List.mem_map.mp (d3.mem_iff.mp hmem) with ⟨i, hi, he⟩
                show r.toPath ∉ (filterSnapFiles d.added ua).map SnapFile.path
                rw [← he]
                exact filterSnapFiles_not_mem_of_used ha ua (d8 i hi) hi
              · have hmem : r.fromPath ∈ renames.map DeltaRename.fromPath :=
                  List.mem_map.mpr ⟨r, hrr, rfl⟩
                rcases List.mem_map.mp (d4.mem_iff.mp hmem) with ⟨i, hi, he⟩
                show r.fromPath ∉
                  (filterSnapFiles d.removed ur).map SnapFile.path
                rw [← he]
                exact filterSnapFiles_not_mem_of_used hr ur (d7 i hi) hi
            · rw [hstep]
              exact filterSnapFiles_sublist d.added ua
            · rw [hstep]
              exact filterSnapFiles_sublist d.removed ur

end CC.Cache

namespace CC.Cache

theorem lookupPath_eq_none_iff (m : List SnapFile) (p : String) :
    lookupPath m p = none ↔ p ∉ m.map SnapFile.path := by
  constructor
  · intro h hcontra
    rcases List.mem_map.mp hcontra with ⟨f, hf, rfl⟩
    have := List.find?_eq_none.mp h f hf
    simp at this
  · intro h
    refine List.find?_eq_none.mpr ?_
    intro f hf
    simp only [beq_iff_eq]
    intro hcontra
    exact h (List.mem_map.mpr ⟨f, hf, hcontra⟩)

theorem lookupPath_some_mem {m : List SnapFile} {p : String} {f : SnapFile}
    (h : lookupPath m p = some f) : f ∈ m ∧ f.path = p := by
  refine ⟨List.mem_of_find?_eq_some h, ?_⟩
  have := List.find?_some h
  simpa using this

theorem lookupPath_of_mem {m : List SnapFile}
    (hnd : (m.map SnapFile.path).Nodup) {f : SnapFile} (hf : f ∈ m) :
    lookupPath m f.path = some f := by
  induction m with
  | nil => simp at hf
  | cons g rest ih =>
    rcases List.mem_cons.mp hf with rfl | hf'
    · show List.find? _ (f :: rest) = some f
      simp [List.find?]
    · rw [List.map_cons] at hnd
      have hnd' : (rest.map SnapFile.path).Nodup := (List.nodup_cons.mp hnd).2
      have hne : g.path ≠ f.path := by
        intro he
        exact (List.nodup_cons.mp hnd).1
          (he ▸ List.mem_map.mpr ⟨f, hf', rfl⟩)
      show List.find? _ (g :: rest) = some f
      rw [List.find?_cons_of_neg _ (by simp [hne])]
      exact ih hnd' hf'

theorem classifyRC_removed (prev curr : List SnapFile) :
    (classifyRemovedAndChanged prev curr).1 =
      prev.filter (fun pf => (lookupPath curr pf.path).isNone) := by
  induction prev with
  | nil => rfl
  | cons pf rest ih =>
    rcases hl : lookupPath curr pf.path with _ | cf
    · rw [show classifyRemovedAndChanged (pf :: rest) curr =
          (pf :: (classifyRemovedAndChanged rest curr).1,
           (classifyRemovedAndChanged rest curr).2) by
        simp only [classifyRemovedAndChanged, hl]]
      rw [show (pf :: rest).filter (fun pf => (lookupPath curr pf.path).isNone) =
          pf :: rest.filter (fun pf => (lookupPath curr pf.path).isNone) by
        simp [List.filter_cons, hl]]
      show pf :: (classifyRemovedAndChanged rest curr).1 = pf :: _
      rw [ih]
    · have hstep : (classifyRemovedAndChanged (pf :: rest) curr).1 =
          (classifyRemovedAndChanged rest curr).1 := by
        by_cases hh : pf.hash ≠ cf.hash
        · simp only [classifyRemovedAndChanged, hl, if_pos hh]
        · simp only [classifyRemovedAndChanged, hl, if_neg hh]
      rw [hstep]
      rw [show (pf :: rest).filter (fun pf => (lookupPath curr pf.path).isNone) =
          rest.filter (fun pf => (lookupPath curr pf.path).isNone) by
        simp [List.filter_cons, hl]]
      exact ih

theorem classifyRC_changed_paths (prev curr : List SnapFile) :
    (classifyRemovedAndChanged prev curr).2.map DeltaChange.path =
      (prev.filter (fun pf =>
        match lookupPath curr pf.path with
        | some cf => pf.hash != cf.hash
        | none => false)).map SnapFile.path := by
  induction prev with
  | nil => rfl
  | cons pf rest ih =>
    rcases hl : lookupPath curr pf.path with _ | cf
    · rw [show (classifyRemovedAndChanged (pf :: rest) curr).2 =
          (classifyRemovedAndChanged rest curr).2 by
        simp only [classifyRemovedAndChanged, hl]]
      rw [show (pf :: rest).filter (fun pf =>
          match lookupPath curr pf.path with
          | some cf => pf.hash != cf.hash
          | none => false) = rest.filter (fun pf =>
          match lookupPath curr pf.path with
          | some cf => pf.hash != cf.hash
          | none => false) by
        simp only [List.filter_cons, hl]
        rfl]
      exact ih
    · by_cases hh : pf.hash ≠ cf.hash
      · rw [show (classifyRemovedAndChanged (pf :: rest) curr).2 =
            { path := pf.path, hashBefore := pf.hash, hashAfter := cf.hash,
              diffPath := "", oversize := false } ::
              (classifyRemovedAndChanged rest curr).2 by
          simp only [classifyRemovedAndChanged, hl, if_pos hh]]
        rw [show (pf :: rest).filter (fun pf =>
            match lookupPath curr pf.path with
            | some cf => pf.hash != cf.hash
            | none => false) = pf :: rest.filter (fun pf =>
            match lookupPath curr pf.path with
            | some cf => pf.hash != cf.hash
            | none => false) by
          simp only [List.filter_cons, hl]
          simp [bne_iff_ne, hh]]
        show _ :: (classifyRemovedAndChanged rest curr).2.map DeltaChange.path =
          _ :: _
        rw [ih]
      · rw [show (classifyRemovedAndChanged (pf :: rest) curr).2 =
            (classifyRemovedAndChanged rest curr).2 by
          simp only [classifyRemovedAndChanged, hl, if_neg hh]]
        rw [show (pf :: rest).filter (fun pf =>
            match lookupPath curr pf.path with
            | some cf => pf.hash != cf.hash
            | none => false) = rest.filter (fun pf =>
            match lookupPath curr pf.path with
            | some cf => pf.hash != cf.hash
            | none => false) by
          simp only [List.filter_cons, hl]
          simp at hh
          simp [hh]]
        exact ih

theorem insertByPath_path_mem (m : List SnapFile) (f : SnapFile) (p : String) :
    p ∈ (insertByPath m f).map SnapFile.path ↔
      p ∈ m.map SnapFile.path ∨ p = f.path := by
  induction m with
  | nil => simp [insertByPath]
  | cons g rest ih =>
    by_cases hg : g.path = f.path
    · rw [show insertByPath (g :: rest) f = f :: rest by
        simp [insertByPath, hg]]
      simp only [List.map_cons, List.mem_cons]
      constructor
      · intro h
        rcases h with h | h
        · exact Or.inr h
        · exact Or.inl (Or.inr h)
      · intro h
        rcases h with (h | h) | h
        · exact Or.inl (hg ▸ h)
        · exact Or.inr h
        · exact Or.inl h
    · rw [show insertByPath (g :: rest) f = g :: insertByPath rest f by
        simp [insertByPath, hg]]
      simp only [List.map_cons, List.mem_cons, ih]
      constructor
      · intro h
        rcases h with h | h | h
        · exact Or.inl (Or.inl h)
        · exact Or.inl (Or.inr h)
        · exact Or.inr h
      · intro h
        rcases h with (h | h) | h
        · exact Or.inl h
        · exact Or.inr (Or.inl h)
        · exact Or.inr (Or.inr h)

theorem insertByPath_nodup {m : List SnapFile}
    (h : (m.map SnapFile.path).Nodup) (f : SnapFile) :
    ((insertByPath m f).map SnapFile.path).Nodup := by
  induction m with
  | nil => simp [insertByPath]
  | cons g rest ih =>
    rw [List.map_cons] at h
    have hg' := List.nodup_cons.mp h
    by_cases hg : g.path = f.path
    · rw [show insertByPath (g :: rest) f = f :: rest by
        simp [insertByPath, hg]]
      simp only [List.map_cons]
      exact List.nodup_cons.mpr ⟨hg ▸ hg'.1, hg'.2⟩
    · rw [show insertByPath (g :: rest) f = g :: insertByPath rest f by
        simp [insertByPath, hg]]
      simp only [List.map_cons]
      refine List.nodup_cons.mpr ⟨?_, ih hg'.2⟩
      intro hcontra
      rcases (insertByPath_path_mem rest f g.path).mp hcontra with h1 | h1
      · exact hg'.1 h1
      · exact hg h1

theorem indexByPath_nodup (files : List SnapFile) :
    ((indexByPath files).map SnapFile.path).Nodup := by
  have main : ∀ (l m : List SnapFile), (m.map SnapFile.path).Nodup →
      ((l.foldl insertByPath m).map SnapFile.path).Nodup := by
    intro l
    induction l with
    | nil => intro m hm; exact hm
    | cons f rest ih =>
      intro m hm
      exact ih (insertByPath m f) (insertByPath_nodup hm f)
  exact main files [] (by simp)

theorem indexByPath_id (files : List SnapFile)
    (h : (files.map SnapFile.path).Nodup) : indexByPath files = files := by
  have hins : ∀ (m : List SnapFile) (f : SnapFile),
      f.path ∉ m.map SnapFile.path → insertByPath m f = m ++ [f] := by
    intro m
    induction m with
    | nil => intro f _; rfl
    | cons g rest ih =>
      intro f hf
      have hg : g.path ≠ f.path := by
        intro he
        exact hf (he ▸ List.mem_map.mpr ⟨g, List.mem_cons_self _ _, rfl⟩)
      rw [show insertByPath (g :: rest) f = g :: insertByPath rest f by
        simp [insertByPath, hg]]
      rw [ih f (fun hc => hf (by
        rcases List.mem_map.mp hc with ⟨x, hx, he⟩
        exact List.mem_map.mpr ⟨x, List.mem_cons_of_mem _ hx, he⟩))]
      rfl
  have main : ∀ (l m : List SnapFile), ((m ++ l).map SnapFile.path).Nodup →
      l.foldl insertByPath m = m ++ l := by
    intro l
    induction l with
    | nil => intro m _; simp
    | cons f rest ih =>
      intro m hm
      have hf : f.path ∉ m.map SnapFile.path := by
        intro hc
        rw [List.map_append] at hm
        have hdisj := (List.nodup_append.mp hm).2.2
        exact hdisj hc (by simp)
      show rest.foldl insertByPath (insertByPath m f) = m ++ f :: rest
      rw [hins m f hf]
      rw [ih (m ++ [f]) (by rwa [List.append_assoc, List.singleton_append])]
      rw [List.append_assoc, List.singleton_append]
  simpa using main files [] (by simpa using h)

end CC.Cache

namespace CC.Cache

/-- A delta produced by handleTrivialDelta carries no renames. -/
theorem handleTrivial_renamed (prev curr : Option Snapshot) (d : Delta)
    (h : handleTrivialDelta prev curr = some d) : d.renamed = [] := by
  unfold handleTrivialDelta at h
  by_cases h1 : snapFiles curr = []
  · rw [if_pos h1] at h
    obtain rfl := Option.some.inj h
    rfl
  · rw [if_neg h1] at h
    by_cases h2 : snapFiles prev = []
    · rw [if_pos h2] at h
      obtain rfl := Option.some.inj h
      rfl
    · rw [if_neg h2] at h
      exact absurd h (by simp)

/-- Sorting the delta permutes each list, so exclusivity of renames
against the added and removed paths survives sortDelta. -/
theorem sortDelta_excl (d : Delta)
    (h : ∀ r ∈ d.renamed, r.toPath ∉ d.added.map SnapFile.path ∧
         r.fromPath ∉ d.removed.map SnapFile.path) :
    ∀ r ∈ (sortDelta d).renamed,
      r.toPath ∉ (sortDelta d).added.map SnapFile.path ∧
      r.fromPath ∉ (sortDelta d).removed.map SnapFile.path := by
  intro r hr
  have hr' : r ∈ sortBy renameLe d.renamed := hr
  obtain ⟨h1, h2⟩ := h r ((sortBy_perm renameLe d.renamed).mem_iff.mp hr')
  constructor
  · intro hc
    have hc' : r.toPath ∈ (sortBy snapFileLe d.added).map SnapFile.path := hc
    exact h1 (((sortBy_perm snapFileLe d.added).map
      SnapFile.path).mem_iff.mp hc')
  · intro hc
    have hc' : r.fromPath ∈ (sortBy snapFileLe d.removed).map SnapFile.path :=
      hc
    exact h2 (((sortBy_perm snapFileLe d.removed).map
      SnapFile.path).mem_iff.mp hc')

/-- Exclusivity is preserved by the similarity pass: the new renames are
exclusive by construction, and the surviving added and removed lists only
shrink. -/
theorem delta_excl_step (cfg : DeltaConfig) (d : Delta)
    (han : (d.added.map SnapFile.path).Nodup)
    (hrn : (d.removed.map SnapFile.path).Nodup)
    (hex : ∀ r ∈ d.renamed, r.toPath ∉ d.added.map SnapFile.path ∧
           r.fromPath ∉ d.removed.map SnapFile.path) :
    ∀ r ∈ (applySimilarityRenames cfg d).renamed,
      r.toPath ∉ (applySimilarityRenames cfg d).added.map SnapFile.path ∧
      r.fromPath ∉
        (applySimilarityRenames cfg d).removed.map SnapFile.path := by
  obtain ⟨newRs, e1, _, _, _, e5, e6, e7⟩ := applySim_spec cfg d han hrn
  intro r hrr
  rw [e1] at hrr
  rcases List.mem_append.mp hrr with hold | hnew
  · obtain ⟨h1, h2⟩ := hex r hold
    exact ⟨fun hc => h1 ((e6.map SnapFile.path).subset hc),
           fun hc => h2 ((e7.map SnapFile.path).subset hc)⟩
  · exact e5 r hnew

/-- The delta assembled from matchExactRenames, optionally passed through
the similarity pass and then sorted, satisfies rename exclusivity
whenever the removed and added path lists are duplicate-free. -/
theorem mainDelta_excl (cfg : DeltaConfig) (rem add : List SnapFile)
    (chg : List DeltaChange)
    (hrn : (rem.map SnapFile.path).Nodup)
    (han : (add.map SnapFile.path).Nodup)
    (ddd : Delta)
    (hddd : ddd = { added := (matchExactRenames rem add).2.2,
                    removed := (matchExactRenames rem add).2.1,
                    renamed := (matchExactRenames rem add).1,
                    changed := chg }) :
    ∀ r ∈ (sortDelta (if cfg.enableSimRename then
        applySimilarityRenames cfg ddd else ddd)).renamed,
      r.toPath ∉ (sortDelta (if cfg.enableSimRename then
        applySimilarityRenames cfg ddd else ddd)).added.map SnapFile.path ∧
      r.fromPath ∉ (sortDelta (if cfg.enableSimRename then
        applySimilarityRenames cfg ddd else ddd)).removed.map
        SnapFile.path := by
  have hanD : (ddd.added.map SnapFile.path).Nodup := by
    rw [hddd]
    obtain ⟨ur, ua, _, _, _, _, _, _, c7, _⟩ := matchExact_facts rem add
    show ((matchExactRenames rem add).2.2.map SnapFile.path).Nodup
    rw [c7]
    exact ((filterSnapFiles_sublist add ua).map SnapFile.path).nodup han
  have hrnD : (ddd.removed.map SnapFile.path).Nodup := by
    rw [hddd]
    obtain ⟨ur, ua, _, _, _, _, _, _, _, c8⟩ := matchExact_facts rem add
    show ((matchExactRenames rem add).2.1.map SnapFile.path).Nodup
    rw [c8]
    exact ((filterSnapFiles_sublist rem ur).map SnapFile.path).nodup hrn
  have hexD : ∀ r ∈ ddd.renamed,
      r.toPath ∉ ddd.added.map SnapFile.path ∧
      r.fromPath ∉ ddd.removed.map SnapFile.path := by
    rw [hddd]
    exact matchExact_excl rem add hrn han
  by_cases hsim : cfg.enableSimRename
  · simp only [if_pos hsim]
    exact sortDelta_excl _ (delta_excl_step cfg ddd hanD hrnD hexD)
  · simp only [if_neg hsim]
    exact sortDelta_excl _ hexD

/-- C2: for every configuration and every pair of snapshots, each rename
entry of the delta returned by BuildDelta has a destination path absent
from the added paths and a source path absent from the removed paths;
this holds for the exact-hash renames and for the optional similarity
renames alike, with no hypothesis on the snapshots because BuildDelta
keys both file lists by path before classifying. -/
theorem buildDelta_rename_exclusivity (cfg : DeltaConfig)
    (prev curr : Option Snapshot) :
    ∀ r ∈ (BuildDelta cfg prev curr).renamed,
      r.toPath ∉ (BuildDelta cfg prev curr).added.map SnapFile.path ∧
      r.fromPath ∉ (BuildDelta cfg prev curr).removed.map SnapFile.path := by
  rcases ht : handleTrivialDelta prev curr with _ | d0
  · have hremN : (((classifyRemovedAndChanged (indexByPath (snapFiles prev))
        (indexByPath (snapFiles curr))).1).map SnapFile.path).Nodup := by
      rw [classifyRC_removed]
      exact ((List.filter_sublist _).map SnapFile.path).nodup
        (indexByPath_nodup (snapFiles prev))
    have haddN : ((classifyAdded (indexByPath (snapFiles prev))
        (indexByPath (snapFiles curr))).map SnapFile.path).Nodup := by
      unfold classifyAdded
      exact ((List.filter_sublist _).map SnapFile.path).nodup
        (indexByPath_nodup (snapFiles curr))
    simp only [BuildDelta, ht]
    exact mainDelta_excl cfg _ _ _ hremN haddN _ rfl
  · have hB : BuildDelta cfg prev curr = d0 := by
      simp only [BuildDelta, ht]
    rw [hB, handleTrivial_renamed prev curr d0 ht]
    intro r hr
    exact absurd hr (List.not_mem_nil r)

/-- Witness for buildDelta_rename_exclusivity on the exact-rename example
of the spec: the rename from B.go to C.go is in the delta and its
endpoints avoid the added and removed lists. -/
theorem buildDelta_rename_exclusivity_witness :
    (⟨"B.go", "C.go", "h2"⟩ : DeltaRename) ∈
      (BuildDelta ⟨false, 0, none⟩
        (some ⟨"m", "", "", "1", [⟨"A.go", "h1", 1⟩, ⟨"B.go", "h2", 1⟩]⟩)
        (some ⟨"m", "", "", "1",
          [⟨"A.go", "h1", 1⟩, ⟨"C.go", "h2", 1⟩]⟩)).renamed ∧
    ("C.go" ∉ (BuildDelta ⟨false, 0, none⟩
        (some ⟨"m", "", "", "1", [⟨"A.go", "h1", 1⟩, ⟨"B.go", "h2", 1⟩]⟩)
        (some ⟨"m", "", "", "1",
          [⟨"A.go", "h1", 1⟩, ⟨"C.go", "h2", 1⟩]⟩)).added.map SnapFile.path ∧
     "B.go" ∉ (BuildDelta ⟨false, 0, none⟩
        (some ⟨"m", "", "", "1", [⟨"A.go", "h1", 1⟩, ⟨"B.go", "h2", 1⟩]⟩)
        (some ⟨"m", "", "", "1",
          [⟨"A.go", "h1", 1⟩, ⟨"C.go", "h2", 1⟩]⟩)).removed.map
        SnapFile.path) :=
  ⟨by decide, buildDelta_rename_exclusivity ⟨false, 0, none⟩
    (some ⟨"m", "", "", "1", [⟨"A.go", "h1", 1⟩, ⟨"B.go", "h2", 1⟩]⟩)
    (some ⟨"m", "", "", "1", [⟨"A.go", "h1", 1⟩, ⟨"C.go", "h2", 1⟩]⟩)
    ⟨"B.go", "C.go", "h2"⟩ (by decide)⟩

end CC.Cache

namespace CC.Cache

/-- Spec-side predicate of the delta completeness law: a file of one
snapshot whose path is present in the other file map with a different
hash (the changed class). -/
def hashChangedAt (others : List SnapFile) (f : SnapFile) : Bool :=
  match lookupPath others f.path with
  | some g => f.hash != g.hash
  | none => false

/-- Spec-side predicate of the delta completeness law: a file of one
snapshot whose path is present in the other file map with the same hash
(the unchanged class). -/
def hashUnchangedAt (others : List SnapFile) (f : SnapFile) : Bool :=
  match lookupPath others f.path with
  | some g => f.hash == g.hash
  | none => false

theorem hashUnchangedAt_nil (f : SnapFile) : hashUnchangedAt [] f = false :=
  rfl

theorem filter_three_perm (p1 p2 p3 : α → Bool) (l : List α)
    (h12 : ∀ x, p1 x = true → p2 x = false)
    (h13 : ∀ x, p1 x = true → p3 x = false)
    (h23 : ∀ x, p2 x = true → p3 x = false)
    (hcov : ∀ x, p1 x = true ∨ p2 x = true ∨ p3 x = true) :
    (l.filter p1 ++ l.filter p2 ++ l.filter p3).Perm l := by
  induction l with
  | nil => simp
  | cons x xs ih =>
    rcases hcov x with h1 | h2 | h3
    · rw [List.filter_cons_of_pos h1,
        List.filter_cons_of_neg (by simp [h12 x h1]),
        List.filter_cons_of_neg (by simp [h13 x h1])]
      exact ih.cons x
    · have hp1 : ¬ p1 x = true := fun hh => by
        rw [h12 x hh] at h2
        exact Bool.false_ne_true h2
      have hp3 : ¬ p3 x = true := by simp [h23 x h2]
      rw [List.filter_cons_of_neg hp1, List.filter_cons_of_pos h2,
        List.filter_cons_of_neg hp3]
      have h0 : (xs.filter p1 ++ (x :: xs.filter p2)) ++ xs.filter p3 =
          xs.filter p1 ++ x :: (xs.filter p2 ++ xs.filter p3) := by
        rw [List.append_assoc, List.cons_append]
      rw [h0]
      refine List.perm_middle.trans (List.Perm.cons x ?_)
      rw [← List.append_assoc]
      exact ih
    · have hp1 : ¬ p1 x = true := fun hh => by
        rw [h13 x hh] at h3
        exact Bool.false_ne_true h3
      have hp2 : ¬ p2 x = true := fun hh => by
        rw [h23 x hh] at h3
        exact Bool.false_ne_true h3
      rw [List.filter_cons_of_neg hp1, List.filter_cons_of_neg hp2,
        List.filter_cons_of_pos h3]
      refine List.perm_middle.trans (List.Perm.cons x ?_)
      exact ih

theorem filter_three_map_perm (p1 p2 p3 : SnapFile → Bool)
    (l : List SnapFile)
    (h12 : ∀ x, p1 x = true → p2 x = false)
    (h13 : ∀ x, p1 x = true → p3 x = false)
    (h23 : ∀ x, p2 x = true → p3 x = false)
    (hcov : ∀ x, p1 x = true ∨ p2 x = true ∨ p3 x = true) :
    ((l.filter p1).map SnapFile.path ++ ((l.filter p2).map SnapFile.path ++
      (l.filter p3).map SnapFile.path)).Perm (l.map SnapFile.path) := by
  have h := (filter_three_perm p1 p2 p3 l h12 h13 h23 hcov).map SnapFile.path
  rw [List.map_append, List.map_append] at h
  rwa [List.append_assoc] at h

theorem tri_h12 (others : List SnapFile) (x : SnapFile)
    (h1 : (lookupPath others x.path).isNone = true) :
    hashChangedAt others x = false := by
  rcases hl : lookupPath others x.path with _ | g
  · show (match lookupPath others x.path with
      | some g => x.hash != g.hash
      | none => false) = false
    rw [hl]
  · exfalso
    rw [hl] at h1
    simp at h1

theorem tri_h13 (others : List SnapFile) (x : SnapFile)
    (h1 : (lookupPath others x.path).isNone = true) :
    hashUnchangedAt others x = false := by
  rcases hl : lookupPath others x.path with _ | g
  · show (match lookupPath others x.path with
      | some g => x.hash == g.hash
      | none => false) = false
    rw [hl]
  · exfalso
    rw [hl] at h1
    simp at h1

theorem tri_h23 (others : List SnapFile) (x : SnapFile)
    (h2 : hashChangedAt others x = true) :
    hashUnchangedAt others x = false := by
  have h2' : (match lookupPath others x.path with
      | some g => x.hash != g.hash
      | none => false) = true := h2
  rcases hl : lookupPath others x.path with _ | g
  · rw [hl] at h2'
    exact absurd h2' (by simp)
  · rw [hl] at h2'
    have hne : x.hash ≠ g.hash := by simpa using h2'
    show (match lookupPath others x.path with
      | some g => x.hash == g.hash
      | none => false) = false
    rw [hl]
    simpa using hne

theorem tri_hcov (others : List SnapFile) (x : SnapFile) :
    (lookupPath others x.path).isNone = true ∨
      hashChangedAt others x = true ∨ hashUnchangedAt others x = true := by
  rcases hl : lookupPath others x.path with _ | g
  · left
    rfl
  · right
    by_cases he : x.hash = g.hash
    · right
      show (match lookupPath others x.path with
        | some g => x.hash == g.hash
        | none => false) = true
      rw [hl]
      simpa using he
    · left
      show (match lookupPath others x.path with
        | some g => x.hash != g.hash
        | none => false) = true
      rw [hl]
      simpa using he

/-- A file counted as changed from one side is counted as changed from
the other side too, given that the first snapshot has duplicate-free
paths. -/
theorem changed_mem_swap (prevL currL : List SnapFile)
    (hp : (prevL.map SnapFile.path).Nodup) (x : String)
    (hx : x ∈ (prevL.filter (hashChangedAt currL)).map SnapFile.path) :
    x ∈ (currL.filter (hashChangedAt prevL)).map SnapFile.path := by
  rcases List.mem_map.mp hx with ⟨pf, hpf, rfl⟩
  have hmem := (List.mem_filter.mp hpf).1
  have h2 : (match lookupPath currL pf.path with
      | some g => pf.hash != g.hash
      | none => false) = true := (List.mem_filter.mp hpf).2
  rcases hl : lookupPath currL pf.path with _ | cf
  · rw [hl] at h2
    exact absurd h2 (by simp)
  · rw [hl] at h2
    have h2' : (pf.hash != cf.hash) = true := h2
    obtain ⟨hcf_mem, hcf_path⟩ := lookupPath_some_mem hl
    refine List.mem_map.mpr ⟨cf, List.mem_filter.mpr ⟨hcf_mem, ?_⟩, hcf_path⟩
    show (match lookupPath prevL cf.path with
      | some g => cf.hash != g.hash
      | none => false) = true
    rw [hcf_path, lookupPath_of_mem hp hmem]
    show (cf.hash != pf.hash) = true
    have hne : pf.hash ≠ cf.hash := by simpa using h2'
    simpa using hne.symm

/-- The changed class reads the same through either snapshot when both
path lists are duplicate-free. -/
theorem changedPaths_symm (prevL currL : List SnapFile)
    (hp : (prevL.map SnapFile.path).Nodup)
    (hc : (currL.map SnapFile.path).Nodup) :
    ((prevL.filter (hashChangedAt currL)).map SnapFile.path).Perm
      ((currL.filter (hashChangedAt prevL)).map SnapFile.path) := by
  refine (List.perm_ext_iff_of_nodup
    (((List.filter_sublist _).map SnapFile.path).nodup hp)
    (((List.filter_sublist _).map SnapFile.path).nodup hc)).mpr ?_
  intro x
  exact ⟨changed_mem_swap prevL currL hp x, changed_mem_swap currL prevL hc x⟩

theorem consume_compose {R N X A B : List String}
    (h1 : (N ++ X).Perm A) (h2 : (R ++ A).Perm B) :
    (X ++ (R ++ N)).Perm B := by
  refine (List.perm_append_comm).trans ?_
  rw [List.append_assoc]
  exact (List.Perm.append_left R h1).trans h2

theorem complete_assemble {AA RN C C' U B A0 : List String}
    (hco : (AA ++ RN).Perm A0) (hC : C.Perm C')
    (hfin : (A0 ++ (C' ++ U)).Perm B) :
    (AA ++ RN ++ C ++ U).Perm B := by
  have h0 : AA ++ RN ++ C ++ U = (AA ++ RN) ++ (C ++ U) := by
    rw [List.append_assoc]
  rw [h0]
  exact ((hco.append (hC.append (List.Perm.refl U)))).trans hfin

theorem sortDelta_transfer_to (d : Delta) (U W : List String)
    (h : (d.added.map SnapFile.path ++ d.renamed.map DeltaRename.toPath ++
      d.changed.map DeltaChange.path ++ U).Perm W) :
    ((sortDelta d).added.map SnapFile.path ++
      (sortDelta d).renamed.map DeltaRename.toPath ++
      (sortDelta d).changed.map DeltaChange.path ++ U).Perm W := by
  have h1 : ((sortDelta d).added.map SnapFile.path).Perm
      (d.added.map SnapFile.path) :=
    (sortBy_perm snapFileLe d.added).map SnapFile.path
  have h2 : ((sortDelta d).renamed.map DeltaRename.toPath).Perm
      (d.renamed.map DeltaRename.toPath) :=
    (sortBy_perm renameLe d.renamed).map DeltaRename.toPath
  have h3 : ((sortDelta d).changed.map DeltaChange.path).Perm
      (d.changed.map DeltaChange.path) :=
    (sortBy_perm _ d.changed).map DeltaChange.path
  exact (((h1.append h2).append h3).append (List.Perm.refl U)).trans h

theorem sortDelta_transfer_from (d : Delta) (U W : List String)
    (h : (d.removed.map SnapFile.path ++
      d.renamed.map DeltaRename.fromPath ++
      d.changed.map DeltaChange.path ++ U).Perm W) :
    ((sortDelta d).removed.map SnapFile.path ++
      (sortDelta d).renamed.map DeltaRename.fromPath ++
      (sortDelta d).changed.map DeltaChange.path ++ U).Perm W := by
  have h1 : ((sortDelta d).removed.map SnapFile.path).Perm
      (d.removed.map SnapFile.path) :=
    (sortBy_perm snapFileLe d.removed).map SnapFile.path
  have h2 : ((sortDelta d).renamed.map DeltaRename.fromPath).Perm
      (d.renamed.map DeltaRename.fromPath) :=
    (sortBy_perm renameLe d.renamed).map DeltaRename.fromPath
  have h3 : ((sortDelta d).changed.map DeltaChange.path).Perm
      (d.changed.map DeltaChange.path) :=
    (sortBy_perm _ d.changed).map DeltaChange.path
  exact (((h1.append h2).append h3).append (List.Perm.refl U)).trans h

end CC.Cache

namespace CC.Cache

/-- Completeness of the non-trivial BuildDelta pipeline over two
path-keyed file lists with duplicate-free paths: on each side, the delta
lists and the unchanged class jointly permute the snapshot paths. -/
theorem mainDelta_complete (cfg : DeltaConfig) (prevL currL : List SnapFile)
    (hp : (prevL.map SnapFile.path).Nodup)
    (hc : (currL.map SnapFile.path).Nodup)
    (ddd : Delta)
    (heA : ddd.added = (matchExactRenames
      (classifyRemovedAndChanged prevL currL).1
      (classifyAdded prevL currL)).2.2)
    (heR : ddd.removed = (matchExactRenames
      (classifyRemovedAndChanged prevL currL).1
      (classifyAdded prevL currL)).2.1)
    (heN : ddd.renamed = (matchExactRenames
      (classifyRemovedAndChanged prevL currL).1
      (classifyAdded prevL currL)).1)
    (heC : ddd.changed = (classifyRemovedAndChanged prevL currL).2)
    (dF : Delta)
    (hdF : dF = sortDelta (if cfg.enableSimRename then
      applySimilarityRenames cfg ddd else ddd)) :
    ((dF.added.map SnapFile.path ++ dF.renamed.map DeltaRename.toPath ++
      dF.changed.map DeltaChange.path ++
      (currL.filter (hashUnchangedAt prevL)).map SnapFile.path).Perm
      (currL.map SnapFile.path)) ∧
    ((dF.removed.map SnapFile.path ++ dF.renamed.map DeltaRename.fromPath ++
      dF.changed.map DeltaChange.path ++
      (prevL.filter (hashUnchangedAt currL)).map SnapFile.path).Perm
      (prevL.map SnapFile.path)) := by
  have hrem0 : (((classifyRemovedAndChanged prevL currL).1).map
      SnapFile.path).Nodup := by
    rw [classifyRC_removed]
    exact ((List.filter_sublist _).map SnapFile.path).nodup hp
  have hadd0 : ((classifyAdded prevL currL).map SnapFile.path).Nodup := by
    unfold classifyAdded
    exact ((List.filter_sublist _).map SnapFile.path).nodup hc
  have hpa := matchExact_perm_add (classifyRemovedAndChanged prevL currL).1
    (classifyAdded prevL currL) hadd0
  have hpr := matchExact_perm_rem (classifyRemovedAndChanged prevL currL).1
    (classifyAdded prevL currL) hrem0
  have hanD : (ddd.added.map SnapFile.path).Nodup := by
    rw [heA]
    obtain ⟨ur, ua, _, _, _, _, _, _, c7, _⟩ := matchExact_facts
      (classifyRemovedAndChanged prevL currL).1 (classifyAdded prevL currL)
    rw [c7]
    exact ((filterSnapFiles_sublist _ ua).map SnapFile.path).nodup hadd0
  have hrnD : (ddd.removed.map SnapFile.path).Nodup := by
    rw [heR]
    obtain ⟨ur, ua, _, _, _, _, _, _, _, c8⟩ := matchExact_facts
      (classifyRemovedAndChanged prevL currL).1 (classifyAdded prevL currL)
    rw [c8]
    exact ((filterSnapFiles_sublist _ ur).map SnapFile.path).nodup hrem0
  have hmid : ∃ newRs : List DeltaRename,
      (if cfg.enableSimRename then applySimilarityRenames cfg ddd
        else ddd).renamed = ddd.renamed ++ newRs ∧
      (if cfg.enableSimRename then applySimilarityRenames cfg ddd
        else ddd).changed = ddd.changed ∧
      ((newRs.map DeltaRename.toPath ++
        (if cfg.enableSimRename then applySimilarityRenames cfg ddd
          else ddd).added.map SnapFile.path).Perm
        (ddd.added.map SnapFile.path)) ∧
      ((newRs.map DeltaRename.fromPath ++
        (if cfg.enableSimRename then applySimilarityRenames cfg ddd
          else ddd).removed.map SnapFile.path).Perm
        (ddd.removed.map SnapFile.path)) := by
    by_cases hsim : cfg.enableSimRename
    · obtain ⟨newRs, e1, e2, e3, e4, _, _, _⟩ := applySim_spec cfg ddd hanD hrnD
      rw [if_pos hsim]
      exact ⟨newRs, e1, e2, e3, e4⟩
    · rw [if_neg hsim]
      exact ⟨[], by simp, rfl, by simp, by simp⟩
  obtain ⟨newRs, e1, e2, e3, e4⟩ := hmid
  have hpa' : (ddd.renamed.map DeltaRename.toPath ++
      ddd.added.map SnapFile.path).Perm
      ((classifyAdded prevL currL).map SnapFile.path) := by
    rw [heN, heA]
    exact hpa
  have hpr' : (ddd.renamed.map DeltaRename.fromPath ++
      ddd.removed.map SnapFile.path).Perm
      (((classifyRemovedAndChanged prevL currL).1).map SnapFile.path) := by
    rw [heN, heR]
    exact hpr
  have hCc : (ddd.changed.map DeltaChange.path).Perm
      ((currL.filter (hashChangedAt prevL)).map SnapFile.path) := by
    rw [heC, classifyRC_changed_paths]
    exact changedPaths_symm prevL currL hp hc
  have hCp : (ddd.changed.map DeltaChange.path).Perm
      ((prevL.filter (hashChangedAt currL)).map SnapFile.path) := by
    rw [heC, classifyRC_changed_paths]
    exact List.Perm.refl _
  subst hdF
  constructor
  · refine sortDelta_transfer_to _ _ _ ?_
    rw [e1, e2, List.map_append]
    refine complete_assemble (consume_compose e3 hpa') hCc ?_
    show (((currL.filter (fun cf => (lookupPath prevL cf.path).isNone)).map
        SnapFile.path) ++
      (((currL.filter (hashChangedAt prevL)).map SnapFile.path) ++
        ((currL.filter (hashUnchangedAt prevL)).map SnapFile.path))).Perm
      (currL.map SnapFile.path)
    exact filter_three_map_perm _ _ _ currL (fun x => tri_h12 prevL x)
      (fun x => tri_h13 prevL x) (fun x => tri_h23 prevL x)
      (fun x => tri_hcov prevL x)
  · refine sortDelta_transfer_from _ _ _ ?_
    rw [e1, e2, List.map_append]
    refine complete_assemble (consume_compose e4 hpr') hCp ?_
    rw [classifyRC_removed]
    exact filter_three_map_perm _ _ _ prevL (fun x => tri_h12 currL x)
      (fun x => tri_h13 currL x) (fun x => tri_h23 currL x)
      (fun x => tri_hcov currL x)

end CC.Cache

namespace CC.Cache

/-- C1: for every configuration and every pair of snapshots with
duplicate-free path lists, the delta of BuildDelta accounts for every
path exactly once on each side: the added paths, rename destinations,
changed paths and unchanged paths (same path, same hash in both
snapshots) permute the current paths, and the removed paths, rename
sources, changed paths and unchanged paths permute the previous paths. -/
theorem buildDelta_completeness (cfg : DeltaConfig)
    (prev curr : Option Snapshot)
    (hp : ((snapFiles prev).map SnapFile.path).Nodup)
    (hc : ((snapFiles curr).map SnapFile.path).Nodup) :
    (((BuildDelta cfg prev curr).added.map SnapFile.path ++
      (BuildDelta cfg prev curr).renamed.map DeltaRename.toPath ++
      (BuildDelta cfg prev curr).changed.map DeltaChange.path ++
      ((snapFiles curr).filter
        (hashUnchangedAt (snapFiles prev))).map SnapFile.path).Perm
      ((snapFiles curr).map SnapFile.path)) ∧
    (((BuildDelta cfg prev curr).removed.map SnapFile.path ++
      (BuildDelta cfg prev curr).renamed.map DeltaRename.fromPath ++
      (BuildDelta cfg prev curr).changed.map DeltaChange.path ++
      ((snapFiles prev).filter
        (hashUnchangedAt (snapFiles curr))).map SnapFile.path).Perm
      ((snapFiles prev).map SnapFile.path)) := by
  by_cases h1 : snapFiles curr = []
  · have hB : BuildDelta cfg prev curr =
        { added := [], removed := sortBy snapFileLe (snapFiles prev),
          renamed := [], changed := [] } := by
      simp [BuildDelta, handleTrivialDelta, h1]
    rw [hB]
    constructor
    · rw [h1]
      simp
    · have hfil : (snapFiles prev).filter
          (hashUnchangedAt (snapFiles curr)) = [] := by
        rw [h1]
        refine List.filter_eq_nil_iff.mpr ?_
        intro f _
        simp [hashUnchangedAt_nil]
      rw [hfil]
      show ((sortBy snapFileLe (snapFiles prev)).map SnapFile.path ++
        [] ++ [] ++ []).Perm ((snapFiles prev).map SnapFile.path)
      simp only [List.append_nil]
      exact (sortBy_perm snapFileLe (snapFiles prev)).map SnapFile.path
  · by_cases h2 : snapFiles prev = []
    · have hB : BuildDelta cfg prev curr =
          { added := sortBy snapFileLe (snapFiles curr), removed := [],
            renamed := [], changed := [] } := by
        simp [BuildDelta, handleTrivialDelta, h1, h2]
      rw [hB]
      constructor
      · have hfil : (snapFiles curr).filter
            (hashUnchangedAt (snapFiles prev)) = [] := by
          rw [h2]
          refine List.filter_eq_nil_iff.mpr ?_
          intro f _
          simp [hashUnchangedAt_nil]
        rw [hfil]
        show ((sortBy snapFileLe (snapFiles curr)).map SnapFile.path ++
          [] ++ [] ++ []).Perm ((snapFiles curr).map SnapFile.path)
        simp only [List.append_nil]
        exact (sortBy_perm snapFileLe (snapFiles curr)).map SnapFile.path
      · rw [h2]
        simp
    · have hnone : handleTrivialDelta prev curr = none := by
        simp [handleTrivialDelta, h1, h2]
      have hid_p : indexByPath (snapFiles prev) = snapFiles prev :=
        indexByPath_id (snapFiles prev) hp
      have hid_c : indexByPath (snapFiles curr) = snapFiles curr :=
        indexByPath_id (snapFiles curr) hc
      simp only [BuildDelta, hnone, hid_p, hid_c]
      exact mainDelta_complete cfg (snapFiles prev) (snapFiles curr) hp hc
        _ rfl rfl rfl rfl _ rfl

/-- Witness for buildDelta_completeness: one file changes hash in place,
so both sides reduce to the changed class. -/
theorem buildDelta_completeness_witness :
    ((((snapFiles (some ⟨"m", "", "", "1", [⟨"A.go", "h1", 3⟩]⟩)).map
        SnapFile.path).Nodup ∧
      ((snapFiles (some ⟨"m", "", "", "1", [⟨"A.go", "h2", 3⟩]⟩)).map
        SnapFile.path).Nodup)) ∧
    ((((BuildDelta ⟨false, 0, none⟩
        (some ⟨"m", "", "", "1", [⟨"A.go", "h1", 3⟩]⟩)
        (some ⟨"m", "", "", "1", [⟨"A.go", "h2", 3⟩]⟩)).added.map
          SnapFile.path ++
      (BuildDelta ⟨false, 0, none⟩
        (some ⟨"m", "", "", "1", [⟨"A.go", "h1", 3⟩]⟩)
        (some ⟨"m", "", "", "1", [⟨"A.go", "h2", 3⟩]⟩)).renamed.map
          DeltaRename.toPath ++
      (BuildDelta ⟨false, 0, none⟩
        (some ⟨"m", "", "", "1", [⟨"A.go", "h1", 3⟩]⟩)
        (some ⟨"m", "", "", "1", [⟨"A.go", "h2", 3⟩]⟩)).changed.map
          DeltaChange.path ++
      ((snapFiles (some ⟨"m", "", "", "1", [⟨"A.go", "h2", 3⟩]⟩)).filter
        (hashUnchangedAt (snapFiles (some ⟨"m", "", "", "1",
          [⟨"A.go", "h1", 3⟩]⟩)))).map SnapFile.path).Perm
      ((snapFiles (some ⟨"m", "", "", "1", [⟨"A.go", "h2", 3⟩]⟩)).map
        SnapFile.path)) ∧
    (((BuildDelta ⟨false, 0, none⟩
        (some ⟨"m", "", "", "1", [⟨"A.go", "h1", 3⟩]⟩)
        (some ⟨"m", "", "", "1", [⟨"A.go", "h2", 3⟩]⟩)).removed.map
          SnapFile.path ++
      (BuildDelta ⟨false, 0, none⟩
        (some ⟨"m", "", "", "1", [⟨"A.go", "h1", 3⟩]⟩)
        (some ⟨"m", "", "", "1", [⟨"A.go", "h2", 3⟩]⟩)).renamed.map
          DeltaRename.fromPath ++
      (BuildDelta ⟨false, 0, none⟩
        (some ⟨"m", "", "", "1", [⟨"A.go", "h1", 3⟩]⟩)
        (some ⟨"m", "", "", "1", [⟨"A.go", "h2", 3⟩]⟩)).changed.map
          DeltaChange.path ++
      ((snapFiles (some ⟨"m", "", "", "1", [⟨"A.go", "h1", 3⟩]⟩)).filter
        (hashUnchangedAt (snapFiles (some ⟨"m", "", "", "1",
          [⟨"A.go", "h2", 3⟩]⟩)))).map SnapFile.path).Perm
      ((snapFiles (some ⟨"m", "", "", "1", [⟨"A.go", "h1", 3⟩]⟩)).map
        SnapFile.path))) :=
  ⟨⟨by decide, by decide⟩,
    buildDelta_completeness ⟨false, 0, none⟩
      (some ⟨"m", "", "", "1", [⟨"A.go", "h1", 3⟩]⟩)
      (some ⟨"m", "", "", "1", [⟨"A.go", "h2", 3⟩]⟩)
      (by decide) (by decide)⟩

end CC.Cache

namespace CC.Cache

/-- Spec-modelled removal of the file with the given path (first
occurrence), used by the spec-side exact-rename recursion to consume a
removed entry. -/
def erasePath : List SnapFile → String → List SnapFile
  | [], _ => []
  | f :: rest, p => if f.path = p then rest else f :: erasePath rest p

/-- Spec-modelled choice of the exact-rename pass, following the spec
text: among the remaining removed files with the given hash, the one
with the lexicographically first source path. -/
def pickFirst (rem : List SnapFile) (h : String) : Option SnapFile :=
  (sortBy snapFileLe (rem.filter (fun f => f.hash == h))).head?

/-- Spec-modelled exact-rename recursion, following the spec text:
iterate the added files in sorted path order; for each one whose hash
matches a remaining removed entry, emit a rename from the first such
removed path and consume it. -/
def exactSpecGo : List SnapFile → List SnapFile → List DeltaRename
  | _, [] => []
  | rem, af :: rest =>
    match pickFirst rem af.hash with
    | some rf =>
      (⟨rf.path, af.path, af.hash⟩ : DeltaRename) ::
        exactSpecGo (erasePath rem rf.path) rest
    | none => exactSpecGo rem rest

/-- Spec-modelled exact-rename pass (the rename list of the spec's
description of matchExactRenames). -/
def exactRenameSpec (removed added : List SnapFile) : List DeltaRename :=
  exactSpecGo removed (sortBy snapFileLe added)

theorem orderedInsert_map_comm (f : α → β) (le : β → β → Bool) (a : α) :
    ∀ l : List α,
      (List.orderedInsert (fun x y => le (f x) (f y) = true) a l).map f =
        List.orderedInsert (fun x y => le x y = true) (f a) (l.map f) := by
  intro l
  induction l with
  | nil => rfl
  | cons b rest ih =>
    by_cases hle : le (f a) (f b) = true
    · simp only [List.orderedInsert, List.map_cons, if_pos hle]
    · simp only [List.orderedInsert, List.map_cons, if_neg hle, ih]

theorem sortBy_map_comm (f : α → β) (le : β → β → Bool) :
    ∀ l : List α,
      (sortBy (fun a b => le (f a) (f b)) l).map f = sortBy le (l.map f) := by
  intro l
  induction l with
  | nil => rfl
  | cons a rest ih =>
    simp only [sortBy, List.map_cons, List.insertionSort] at ih ⊢
    rw [orderedInsert_map_comm f le a, ih]

/-- Sorting a sorted string list is the identity. -/
theorem sortBy_strLe_sorted_id (l : List String)
    (hs : List.Sorted (fun a b => strLe a b = true) l) : sortBy strLe l = l := by
  have hs2 : List.Sorted (fun a b => strLe a b = true) (sortBy strLe l) :=
    sortBy_sorted strLe strLe_total (fun a b c h1 h2 => strLe_trans h1 h2) l
  exact List.eq_of_perm_of_sorted (sortBy_perm strLe l) hs2 hs

/-- Removing the head of a sorted string list commutes with sorting. -/
theorem sortBy_strLe_cons_inv {p : String} {X T : List String}
    (h : sortBy strLe (p :: X) = p :: T) : sortBy strLe X = T := by
  have hperm := sortBy_perm strLe (p :: X)
  rw [h] at hperm
  have hTX : T.Perm X := hperm.cons_inv
  have hsorted : List.Sorted (fun a b => strLe a b = true) (p :: T) := by
    rw [← h]
    exact sortBy_sorted strLe strLe_total
      (fun a b c h1 h2 => strLe_trans h1 h2) (p :: X)
  calc sortBy strLe X = sortBy strLe T :=
        Index.sortBy_strLe_eq_of_perm hTX.symm
    _ = T := sortBy_strLe_sorted_id T hsorted.of_cons

end CC.Cache

namespace CC.Cache

theorem lookupByHash_appendByHash (m : List (String × List RemInfo))
    (h0 h : String) (r : RemInfo) :
    lookupByHash (appendByHash m h0 r) h =
      if h0 = h then lookupByHash m h ++ [r] else lookupByHash m h := by
  induction m with
  | nil =>
    by_cases he : h0 = h
    · subst he
      simp [appendByHash, lookupByHash]
    · simp [appendByHash, lookupByHash, he]
  | cons kv rest ih =>
    obtain ⟨k, l⟩ := kv
    by_cases hk : k = h0
    · subst hk
      by_cases he : k = h
      · subst he
        simp [appendByHash, lookupByHash]
      · simp [appendByHash, lookupByHash, he]
    · have hk' : ¬ h0 = k := fun hh => hk hh.symm
      by_cases he : k = h
      · subst he
        have h0k : ¬ h0 = k := hk'
        simp [appendByHash, lookupByHash, hk, h0k]
      · simp [appendByHash, lookupByHash, hk, he, ih]

theorem lookupByHash_map_sort (m : List (String × List RemInfo))
    (h : String) :
    lookupByHash (m.map (fun q => (q.1, sortBy remInfoLe q.2))) h =
      sortBy remInfoLe (lookupByHash m h) := by
  induction m with
  | nil => rfl
  | cons kv rest ih =>
    obtain ⟨k, l⟩ := kv
    by_cases he : k = h
    · subst he
      simp [lookupByHash]
    · simp [lookupByHash, he, ih]

theorem lookupByHash_fold (pairs : List (Nat × SnapFile)) :
    ∀ (m : List (String × List RemInfo)) (h : String),
      lookupByHash (pairs.foldl
        (fun m q => appendByHash m q.2.hash ⟨q.1, q.2.path⟩) m) h =
      lookupByHash m h ++ (pairs.filter (fun q => q.2.hash == h)).map
        (fun q => (⟨q.1, q.2.path⟩ : RemInfo)) := by
  induction pairs with
  | nil => intro m h; simp
  | cons q rest ih =>
    intro m h
    show lookupByHash (rest.foldl _
      (appendByHash m q.2.hash ⟨q.1, q.2.path⟩)) h = _
    rw [ih, lookupByHash_appendByHash]
    by_cases he : q.2.hash = h
    · rw [if_pos he, List.filter_cons_of_pos (by simp [he]), List.map_cons,
        List.append_assoc]
      rfl
    · rw [if_neg he, List.filter_cons_of_neg (by simp [he])]

theorem lookupByHash_build (removed : List SnapFile) (h : String) :
    lookupByHash (buildByHash removed) h =
      sortBy remInfoLe (((idxFrom 0 removed).filter
        (fun q => q.2.hash == h)).map
        (fun q => (⟨q.1, q.2.path⟩ : RemInfo))) := by
  show lookupByHash (((idxFrom 0 removed).foldl
    (fun m q => appendByHash m q.2.hash ⟨q.1, q.2.path⟩) []).map
    (fun q => (q.1, sortBy remInfoLe q.2))) h = _
  rw [lookupByHash_map_sort, lookupByHash_fold]
  rfl

theorem idxFrom_filter_map_path (l : List SnapFile) (p : SnapFile → Bool)
    (g : SnapFile → String) :
    ∀ i, (((idxFrom i l).filter (fun q => p q.2)).map (fun q => g q.2)) =
      (l.filter p).map g := by
  induction l with
  | nil => intro i; rfl
  | cons f rest ih =>
    intro i
    show ((((i, f) :: idxFrom (i + 1) rest).filter
      (fun q => p q.2)).map (fun q => g q.2)) = ((f :: rest).filter p).map g
    by_cases hp : p f = true
    · rw [List.filter_cons_of_pos (by exact hp),
        List.filter_cons_of_pos (by exact hp), List.map_cons, List.map_cons,
        ih (i + 1)]
    · rw [List.filter_cons_of_neg (by exact hp),
        List.filter_cons_of_neg (by exact hp), ih (i + 1)]

theorem lookupByHash_eq_nil_of_not_key
    {m : List (String × List RemInfo)} {h : String}
    (hk : h ∉ m.map Prod.fst) : lookupByHash m h = [] := by
  induction m with
  | nil => rfl
  | cons kv rest ih =>
    obtain ⟨k, l⟩ := kv
    have h1 : ¬ k = h := fun hh => hk (by simp [hh])
    have h2 : h ∉ rest.map Prod.fst := fun hh => hk (by simp [hh])
    show (if k = h then l else lookupByHash rest h) = []
    rw [if_neg h1]
    exact ih h2

theorem lookupByHash_setByHash_self {m : List (String × List RemInfo)}
    {h : String} (l : List RemInfo)
    (hne : lookupByHash m h ≠ []) : lookupByHash (setByHash m h l) h = l := by
  induction m with
  | nil => exact absurd rfl hne
  | cons kv rest ih =>
    obtain ⟨k, l0⟩ := kv
    by_cases hk : k = h
    · show lookupByHash (if k = h then (k, l) :: rest
        else (k, l0) :: setByHash rest h l) h = l
      rw [if_pos hk]
      show (if k = h then l else lookupByHash rest h) = l
      rw [if_pos hk]
    · show lookupByHash (if k = h then (k, l) :: rest
        else (k, l0) :: setByHash rest h l) h = l
      rw [if_neg hk]
      show (if k = h then l0 else lookupByHash (setByHash rest h l) h) = l
      rw [if_neg hk]
      refine ih ?_
      have hstep : lookupByHash ((k, l0) :: rest) h = lookupByHash rest h := by
        show (if k = h then l0 else lookupByHash rest h) = _
        rw [if_neg hk]
      rwa [hstep] at hne

theorem lookupByHash_setByHash_ne {m : List (String × List RemInfo)}
    {h h' : String} (l : List RemInfo) (hne : h' ≠ h) :
    lookupByHash (setByHash m h l) h' = lookupByHash m h' := by
  induction m with
  | nil => rfl
  | cons kv rest ih =>
    obtain ⟨k, l0⟩ := kv
    by_cases hk : k = h
    · show lookupByHash (if k = h then (k, l) :: rest
        else (k, l0) :: setByHash rest h l) h' = _
      rw [if_pos hk]
      have hk' : ¬ k = h' := fun hh => hne (hh ▸ hk)
      show (if k = h' then l else lookupByHash rest h') = _
      rw [if_neg hk']
      show _ = (if k = h' then l0 else lookupByHash rest h')
      rw [if_neg hk']
    · show lookupByHash (if k = h then (k, l) :: rest
        else (k, l0) :: setByHash rest h l) h' = _
      rw [if_neg hk]
      by_cases hk2 : k = h'
      · show (if k = h' then l0 else _) = (if k = h' then l0 else _)
        rw [if_pos hk2, if_pos hk2]
      · show (if k = h' then l0 else lookupByHash (setByHash rest h l) h') = _
        rw [if_neg hk2]
        show _ = (if k = h' then l0 else lookupByHash rest h')
        rw [if_neg hk2]
        exact ih

theorem lookupByHash_eraseByHash_ne {m : List (String × List RemInfo)}
    {h h' : String} (hne : h' ≠ h) :
    lookupByHash (eraseByHash m h) h' = lookupByHash m h' := by
  induction m with
  | nil => rfl
  | cons kv rest ih =>
    obtain ⟨k, l0⟩ := kv
    by_cases hk : k = h
    · show lookupByHash (if k = h then rest else (k, l0) :: eraseByHash rest h)
        h' = _
      rw [if_pos hk]
      have hk' : ¬ k = h' := fun hh => hne (hh ▸ hk)
      show _ = (if k = h' then l0 else lookupByHash rest h')
      rw [if_neg hk']
    · show lookupByHash (if k = h then rest else (k, l0) :: eraseByHash rest h)
        h' = _
      rw [if_neg hk]
      by_cases hk2 : k = h'
      · show (if k = h' then l0 else _) = (if k = h' then l0 else _)
        rw [if_pos hk2, if_pos hk2]
      · show (if k = h' then l0 else lookupByHash (eraseByHash rest h) h') = _
        rw [if_neg hk2]
        show _ = (if k = h' then l0 else lookupByHash rest h')
        rw [if_neg hk2]
        exact ih

theorem lookupByHash_eraseByHash_self {m : List (String × List RemInfo)}
    {h : String} (hkeys : (m.map Prod.fst).Nodup) :
    lookupByHash (eraseByHash m h) h = [] := by
  induction m with
  | nil => rfl
  | cons kv rest ih =>
    obtain ⟨k, l0⟩ := kv
    rw [List.map_cons] at hkeys
    have hk1 := (List.nodup_cons.mp hkeys).1
    have hk2 := (List.nodup_cons.mp hkeys).2
    by_cases hk : k = h
    · show lookupByHash (if k = h then rest else (k, l0) :: eraseByHash rest h)
        h = []
      rw [if_pos hk]
      exact lookupByHash_eq_nil_of_not_key (hk ▸ hk1)
    · show lookupByHash (if k = h then rest else (k, l0) :: eraseByHash rest h)
        h = []
      rw [if_neg hk]
      show (if k = h then l0 else lookupByHash (eraseByHash rest h) h) = []
      rw [if_neg hk]
      exact ih hk2

theorem setByHash_keys (m : List (String × List RemInfo)) (h : String)
    (l : List RemInfo) :
    (setByHash m h l).map Prod.fst = m.map Prod.fst := by
  induction m with
  | nil => rfl
  | cons kv rest ih =>
    obtain ⟨k, l0⟩ := kv
    by_cases hk : k = h
    · show ((if k = h then (k, l) :: rest
        else (k, l0) :: setByHash rest h l).map Prod.fst) = _
      rw [if_pos hk]
      rfl
    · show ((if k = h then (k, l) :: rest
        else (k, l0) :: setByHash rest h l).map Prod.fst) = _
      rw [if_neg hk]
      show k :: (setByHash rest h l).map Prod.fst = k :: rest.map Prod.fst
      rw [ih]

theorem eraseByHash_keys_sublist (m : List (String × List RemInfo))
    (h : String) :
    ((eraseByHash m h).map Prod.fst).Sublist (m.map Prod.fst) := by
  induction m with
  | nil => exact List.Sublist.refl _
  | cons kv rest ih =>
    obtain ⟨k, l0⟩ := kv
    by_cases hk : k = h
    · show ((if k = h then rest
        else (k, l0) :: eraseByHash rest h).map Prod.fst).Sublist _
      rw [if_pos hk]
      exact (List.Sublist.refl (rest.map Prod.fst)).cons k
    · show ((if k = h then rest
        else (k, l0) :: eraseByHash rest h).map Prod.fst).Sublist _
      rw [if_neg hk]
      exact List.Sublist.cons₂ k ih

theorem appendByHash_keys (m : List (String × List RemInfo)) (h : String)
    (r : RemInfo) :
    (appendByHash m h r).map Prod.fst =
      if h ∈ m.map Prod.fst then m.map Prod.fst
      else m.map Prod.fst ++ [h] := by
  induction m with
  | nil => simp [appendByHash]
  | cons kv rest ih =>
    obtain ⟨k, l0⟩ := kv
    by_cases hk : k = h
    · subst hk
      show ((if k = k then (k, l0 ++ [r]) :: rest
        else (k, l0) :: appendByHash rest k r).map Prod.fst) = _
      rw [if_pos rfl, if_pos (by simp)]
      rfl
    · have hk' : ¬ h = k := fun hh => hk hh.symm
      show ((if k = h then (k, l0 ++ [r]) :: rest
        else (k, l0) :: appendByHash rest h r).map Prod.fst) = _
      rw [if_neg hk]
      show k :: (appendByHash rest h r).map Prod.fst = _
      rw [ih]
      by_cases hmem : h ∈ rest.map Prod.fst
      · rw [if_pos hmem, if_pos (by simp [hmem])]
        rfl
      · rw [if_neg hmem, if_neg (by simp [hk', hmem])]
        rfl

theorem foldAppend_keys_nodup (pairs : List (Nat × SnapFile)) :
    ∀ m : List (String × List RemInfo), (m.map Prod.fst).Nodup →
    ((pairs.foldl (fun m q => appendByHash m q.2.hash ⟨q.1, q.2.path⟩)
      m).map Prod.fst).Nodup := by
  induction pairs with
  | nil => intro m hm; exact hm
  | cons q rest ih =>
    intro m hm
    refine ih _ ?_
    rw [appendByHash_keys]
    by_cases hmem : q.2.hash ∈ m.map Prod.fst
    · rw [if_pos hmem]
      exact hm
    · rw [if_neg hmem]
      rw [List.nodup_append]
      exact ⟨hm, List.nodup_singleton _, by simpa using hmem⟩

theorem buildByHash_keys_nodup (removed : List SnapFile) :
    ((buildByHash removed).map Prod.fst).Nodup := by
  have hmm : (buildByHash removed).map Prod.fst =
      ((idxFrom 0 removed).foldl
        (fun m q => appendByHash m q.2.hash ⟨q.1, q.2.path⟩) []).map
        Prod.fst := by
    show (List.map _ (List.map _ _)) = _
    rw [List.map_map]
    rfl
  rw [hmm]
  exact foldAppend_keys_nodup (idxFrom 0 removed) [] (by simp)

end CC.Cache

namespace CC.Cache

theorem erasePath_sublist (R : List SnapFile) (p : String) :
    (erasePath R p).Sublist R := by
  induction R with
  | nil => exact List.Sublist.refl _
  | cons f rest ih =>
    show (if f.path = p then rest else f :: erasePath rest p).Sublist
      (f :: rest)
    by_cases hf : f.path = p
    · rw [if_pos hf]
      exact (List.Sublist.refl rest).cons f
    · rw [if_neg hf]
      exact List.Sublist.cons₂ f ih

theorem perm_erasePath {R : List SnapFile}
    (hnd : (R.map SnapFile.path).Nodup) {rf : SnapFile} (hrf : rf ∈ R) :
    R.Perm (rf :: erasePath R rf.path) := by
  induction R with
  | nil => simp at hrf
  | cons f rest ih =>
    rw [List.map_cons] at hnd
    have hnd1 := (List.nodup_cons.mp hnd).1
    have hnd2 := (List.nodup_cons.mp hnd).2
    by_cases hfp : f.path = rf.path
    · have hf_eq : rf = f := by
        rcases List.mem_cons.mp hrf with h | h
        · exact h
        · exact absurd (show f.path ∈ rest.map SnapFile.path by
            rw [hfp]; exact List.mem_map.mpr ⟨rf, h, rfl⟩) hnd1
      subst hf_eq
      have hstep : erasePath (rf :: rest) rf.path = rest := by
        show (if rf.path = rf.path then rest else _) = rest
        rw [if_pos rfl]
      rw [hstep]
    · have hrf' : rf ∈ rest := by
        rcases List.mem_cons.mp hrf with h | h
        · subst h; exact absurd rfl hfp
        · exact h
      have hstep : erasePath (f :: rest) rf.path =
          f :: erasePath rest rf.path := by
        show (if f.path = rf.path then rest else f :: erasePath rest rf.path)
          = _
        rw [if_neg hfp]
      rw [hstep]
      exact (List.Perm.cons f (ih hnd2 hrf')).trans (List.Perm.swap rf f _)

theorem group_consume (R : List SnapFile) (H : String) (cand : RemInfo)
    (tl : List RemInfo)
    (hnd : (R.map SnapFile.path).Nodup)
    (hH : cand.path :: tl.map RemInfo.path =
      sortBy strLe ((R.filter (fun f => f.hash == H)).map SnapFile.path)) :
    ∃ rf : SnapFile,
      pickFirst R H = some rf ∧ rf.path = cand.path ∧
      ((erasePath R rf.path).map SnapFile.path).Nodup ∧
      sortBy strLe (((erasePath R rf.path).filter
        (fun f => f.hash == H)).map SnapFile.path) = tl.map RemInfo.path ∧
      (∀ h', h' ≠ H →
        sortBy strLe (((erasePath R rf.path).filter
          (fun f => f.hash == h')).map SnapFile.path) =
        sortBy strLe ((R.filter (fun f => f.hash == h')).map
          SnapFile.path)) := by
  have hmc : (sortBy snapFileLe (R.filter (fun f => f.hash == H))).map
      SnapFile.path =
      sortBy strLe ((R.filter (fun f => f.hash == H)).map SnapFile.path) :=
    sortBy_map_comm SnapFile.path strLe (R.filter (fun f => f.hash == H))
  rcases hS : sortBy snapFileLe (R.filter (fun f => f.hash == H))
    with _ | ⟨rf, Xs⟩
  · rw [hS] at hmc
    rw [← hH] at hmc
    exact absurd hmc (by simp)
  · rw [hS] at hmc
    have hkey : rf.path :: Xs.map SnapFile.path =
        cand.path :: tl.map RemInfo.path := hmc.trans hH.symm
    obtain ⟨hrf_path, hXs⟩ := List.cons_eq_cons.mp hkey
    have hrf_mem_filter : rf ∈ R.filter (fun f => f.hash == H) := by
      have hmem : rf ∈ sortBy snapFileLe (R.filter (fun f => f.hash == H)) := by
        rw [hS]
        exact List.mem_cons_self _ _
      exact (sortBy_perm _ _).mem_iff.mp hmem
    have hrf_mem : rf ∈ R := (List.mem_filter.mp hrf_mem_filter).1
    have hrf_hash : rf.hash = H := by
      have := (List.mem_filter.mp hrf_mem_filter).2
      simpa using this
    have hpermR : R.Perm (rf :: erasePath R rf.path) :=
      perm_erasePath hnd hrf_mem
    refine ⟨rf, ?_, hrf_path, ?_, ?_, ?_⟩
    · show (sortBy snapFileLe (R.filter (fun f => f.hash == H))).head? =
        some rf
      rw [hS]
      rfl
    · exact ((erasePath_sublist R rf.path).map SnapFile.path).nodup hnd
    · have hfilperm : (R.filter (fun f => f.hash == H)).Perm
          (rf :: (erasePath R rf.path).filter (fun f => f.hash == H)) := by
        have h0 := hpermR.filter (fun f => f.hash == H)
        rwa [List.filter_cons_of_pos (by simp [hrf_hash])] at h0
      have hsorteq : sortBy strLe ((R.filter (fun f => f.hash == H)).map
          SnapFile.path) = sortBy strLe (rf.path ::
          ((erasePath R rf.path).filter (fun f => f.hash == H)).map
            SnapFile.path) :=
        Index.sortBy_strLe_eq_of_perm (hfilperm.map SnapFile.path)
      have hcons : sortBy strLe (rf.path ::
          ((erasePath R rf.path).filter (fun f => f.hash == H)).map
            SnapFile.path) = rf.path :: tl.map RemInfo.path := by
        rw [← hsorteq, ← hH, hrf_path]
      exact sortBy_strLe_cons_inv hcons
    · intro h' hne
      have hq'rf : (rf.hash == h') = false := by
        simp [hrf_hash]
        exact fun hh => hne hh.symm
      have h0 := hpermR.filter (fun f => f.hash == h')
      rw [List.filter_cons_of_neg (by simp [hq'rf])] at h0
      exact (Index.sortBy_strLe_eq_of_perm (h0.map SnapFile.path)).symm

theorem group_empty (R : List SnapFile) (H : String)
    (hH : ([] : List String) =
      sortBy strLe ((R.filter (fun f => f.hash == H)).map SnapFile.path)) :
    pickFirst R H = none := by
  have hmc : (sortBy snapFileLe (R.filter (fun f => f.hash == H))).map
      SnapFile.path =
      sortBy strLe ((R.filter (fun f => f.hash == H)).map SnapFile.path) :=
    sortBy_map_comm SnapFile.path strLe (R.filter (fun f => f.hash == H))
  rw [← hH] at hmc
  have hnil : sortBy snapFileLe (R.filter (fun f => f.hash == H)) = [] := by
    rcases hS : sortBy snapFileLe (R.filter (fun f => f.hash == H))
      with _ | ⟨a, b⟩
    · rfl
    · rw [hS] at hmc
      exact absurd hmc (by simp)
  show (sortBy snapFileLe (R.filter (fun f => f.hash == H))).head? = none
  rw [hnil]
  rfl

theorem initial_H2 (removed : List SnapFile) (h : String) :
    (lookupByHash (buildByHash removed) h).map RemInfo.path =
      sortBy strLe ((removed.filter (fun f => f.hash == h)).map
        SnapFile.path) := by
  rw [lookupByHash_build]
  have h1 := sortBy_map_comm RemInfo.path strLe
    (((idxFrom 0 removed).filter (fun q => q.2.hash == h)).map
      (fun q => (⟨q.1, q.2.path⟩ : RemInfo)))
  have h2 : ((((idxFrom 0 removed).filter (fun q => q.2.hash == h)).map
      (fun q => (⟨q.1, q.2.path⟩ : RemInfo))).map RemInfo.path) =
      (removed.filter (fun f => f.hash == h)).map SnapFile.path := by
    rw [List.map_map]
    exact idxFrom_filter_map_path removed (fun f => f.hash == h)
      SnapFile.path 0
  exact h1.trans (by rw [h2])

theorem addInfos_map_getD (added : List SnapFile) :
    (sortBy (fun a b : Nat × String => strLe a.2 b.2)
      ((idxFrom 0 added).map (fun q => (q.1, q.2.path)))).map
      (fun q => added.getD q.1 default) = sortBy snapFileLe added := by
  have h1 := sortBy_map_comm (fun q : Nat × SnapFile => (q.1, q.2.path))
    (fun a b : Nat × String => strLe a.2 b.2) (idxFrom 0 added)
  have h7 := congrArg (List.map (fun q : Nat × String =>
    added.getD q.1 default)) h1
  have hgen2 : ∀ L : List (Nat × SnapFile), L.Perm (idxFrom 0 added) →
      ((L.map (fun q : Nat × SnapFile => (q.1, q.2.path))).map
        (fun q : Nat × String => added.getD q.1 default)) =
        L.map Prod.snd := by
    intro L hL
    rw [List.map_map]
    refine List.map_congr_left ?_
    intro q hq
    have hq' : q ∈ idxFrom 0 added := hL.mem_iff.mp hq
    have h3 := (mem_idxFrom default added 0 q hq').2.2
    show added.getD q.1 default = q.2
    simpa using h3
  have h8 := hgen2 (sortBy (fun a b : Nat × SnapFile =>
    snapFileLe a.2 b.2) (idxFrom 0 added)) (sortBy_perm _ _)
  have h9 := sortBy_map_comm (Prod.snd : Nat × SnapFile → SnapFile)
    snapFileLe (idxFrom 0 added)
  rw [idxFrom_map_snd] at h9
  exact (h7.symm.trans h8).trans h9

end CC.Cache

namespace CC.Cache

theorem exactSpecGo_nil_rem : ∀ l : List SnapFile, exactSpecGo [] l = [] := by
  intro l
  induction l with
  | nil => rfl
  | cons af rest ih =>
    simp only [exactSpecGo, show pickFirst [] af.hash = none from rfl]
    exact ih

/-- The main loop of matchExactRenames simulates the spec-side recursion:
given that the byHash map groups exactly the remaining removed files
(sorted by path within each hash) and records true indices, the renames
it emits are those of exactSpecGo over the remaining removed list. -/
theorem exactLoop_sim (removed added : List SnapFile) :
    ∀ (infos : List (Nat × String)) (R : List SnapFile)
      (byHash : List (String × List RemInfo)),
      (R.map SnapFile.path).Nodup →
      ((byHash.map Prod.fst).Nodup) →
      (∀ h, (lookupByHash byHash h).map RemInfo.path =
        sortBy strLe ((R.filter (fun f => f.hash == h)).map
          SnapFile.path)) →
      (∀ h, ∀ r ∈ lookupByHash byHash h,
        (removed.getD r.idx default).path = r.path) →
      (exactLoop removed added infos byHash).1 =
        exactSpecGo R (infos.map (fun q => added.getD q.1 default)) := by
  intro infos
  induction infos with
  | nil =>
    intro R byHash _ _ _ _
    rfl
  | cons info rest ih =>
    intro R byHash hRnd hKnd H2 H3
    rcases hlk : lookupByHash byHash (added.getD info.1 default).hash
      with _ | ⟨cand, tl⟩
    · have hstep : exactLoop removed added (info :: rest) byHash =
          exactLoop removed added rest byHash := by
        simp only [exactLoop, hlk]
      have hpick : pickFirst R (added.getD info.1 default).hash = none := by
        refine group_empty R _ ?_
        have h0 := H2 (added.getD info.1 default).hash
        rw [hlk] at h0
        exact h0
      rw [hstep, ih R byHash hRnd hKnd H2 H3, List.map_cons]
      show exactSpecGo R (rest.map (fun q => added.getD q.1 default)) =
        exactSpecGo R ((added.getD info.1 default) ::
          rest.map (fun q => added.getD q.1 default))
      simp only [exactSpecGo, hpick]
    · have hHgroup : cand.path :: tl.map RemInfo.path =
          sortBy strLe ((R.filter (fun f =>
            f.hash == (added.getD info.1 default).hash)).map
            SnapFile.path) := by
        have h0 := H2 (added.getD info.1 default).hash
        rw [hlk] at h0
        exact h0
      obtain ⟨rf, hpick, hrfpath, hnd', hgH, hgNe⟩ :=
        group_consume R (added.getD info.1 default).hash cand tl hRnd hHgroup
      rcases hE : exactLoop removed added rest
        (if tl = [] then eraseByHash byHash (added.getD info.1 default).hash
         else setByHash byHash (added.getD info.1 default).hash tl)
        with ⟨rs, ur, ua⟩
      have hstep : exactLoop removed added (info :: rest) byHash =
          ((⟨(removed.getD cand.idx default).path,
            (added.getD info.1 default).path,
            (added.getD info.1 default).hash⟩ : DeltaRename) :: rs,
           cand.idx :: ur, info.1 :: ua) := by
        simp only [exactLoop, hlk, hE]
      have hKnd' : (((if tl = [] then
          eraseByHash byHash (added.getD info.1 default).hash
          else setByHash byHash (added.getD info.1 default).hash tl)).map
          Prod.fst).Nodup := by
        by_cases htl : tl = []
        · rw [if_pos htl]
          exact (eraseByHash_keys_sublist byHash _).nodup hKnd
        · rw [if_neg htl]
          rw [setByHash_keys]
          exact hKnd
      have hlk' : ∀ h', lookupByHash (if tl = [] then
          eraseByHash byHash (added.getD info.1 default).hash
          else setByHash byHash (added.getD info.1 default).hash tl) h' =
          if h' = (added.getD info.1 default).hash then tl
          else lookupByHash byHash h' := by
        intro h'
        by_cases hh : h' = (added.getD info.1 default).hash
        · rw [if_pos hh]
          by_cases htl : tl = []
          · rw [if_pos htl]
            subst hh
            rw [htl]
            exact lookupByHash_eraseByHash_self hKnd
          · rw [if_neg htl]
            subst hh
            exact lookupByHash_setByHash_self tl (by rw [hlk]; simp)
        · rw [if_neg hh]
          by_cases htl : tl = []
          · rw [if_pos htl]
            exact lookupByHash_eraseByHash_ne hh
          · rw [if_neg htl]
            exact lookupByHash_setByHash_ne tl hh
      have H2' : ∀ h', (lookupByHash (if tl = [] then
          eraseByHash byHash (added.getD info.1 default).hash
          else setByHash byHash (added.getD info.1 default).hash tl) h').map
          RemInfo.path =
          sortBy strLe (((erasePath R rf.path).filter
            (fun f => f.hash == h')).map SnapFile.path) := by
        intro h'
        rw [hlk' h']
        by_cases hh : h' = (added.getD info.1 default).hash
        · rw [if_pos hh, hh]
          exact hgH.symm
        · rw [if_neg hh, H2 h']
          exact (hgNe h' hh).symm
      have H3' : ∀ h', ∀ r ∈ lookupByHash (if tl = [] then
          eraseByHash byHash (added.getD info.1 default).hash
          else setByHash byHash (added.getD info.1 default).hash tl) h',
          (removed.getD r.idx default).path = r.path := by
        intro h' r hr
        rw [hlk' h'] at hr
        by_cases hh : h' = (added.getD info.1 default).hash
        · rw [if_pos hh] at hr
          refine H3 (added.getD info.1 default).hash r ?_
          rw [hlk]
          exact List.mem_cons_of_mem _ hr
        · rw [if_neg hh] at hr
          exact H3 h' r hr
      have hfromeq : (removed.getD cand.idx default).path = rf.path := by
        rw [hrfpath]
        refine H3 (added.getD info.1 default).hash cand ?_
        rw [hlk]
        exact List.mem_cons_self _ _
      have hihres : rs = exactSpecGo (erasePath R rf.path)
          (rest.map (fun q => added.getD q.1 default)) := by
        have h0 := ih (erasePath R rf.path)
          (if tl = [] then
            eraseByHash byHash (added.getD info.1 default).hash
            else setByHash byHash (added.getD info.1 default).hash tl)
          hnd' hKnd' H2' H3'
        rw [hE] at h0
        exact h0
      rw [hstep, List.map_cons]
      show (⟨(removed.getD cand.idx default).path,
        (added.getD info.1 default).path,
        (added.getD info.1 default).hash⟩ : DeltaRename) :: rs =
        exactSpecGo R ((added.getD info.1 default) ::
          rest.map (fun q => added.getD q.1 default))
      simp only [exactSpecGo, hpick]
      rw [hfromeq, hihres]

/-- The rename list of matchExactRenames equals the spec-side recursion
when the removed paths are duplicate-free. -/
theorem matchExact_spec_eq (removed added : List SnapFile)
    (hrnd : (removed.map SnapFile.path).Nodup) :
    (matchExactRenames removed added).1 = exactRenameSpec removed added := by
  by_cases htriv : removed = [] ∨ added = []
  · rw [show matchExactRenames removed added = ([], removed, added) by
      simp only [matchExactRenames, if_pos htriv]]
    rcases htriv with h | h
    · subst h
      show ([] : List DeltaRename) =
        exactSpecGo [] (sortBy snapFileLe added)
      exact (exactSpecGo_nil_rem (sortBy snapFileLe added)).symm
    · subst h
      rfl
  · have H3init : ∀ h, ∀ r ∈ lookupByHash (buildByHash removed) h,
        (removed.getD r.idx default).path = r.path := by
      intro h r hr
      rw [lookupByHash_build] at hr
      have hr' : r ∈ ((idxFrom 0 removed).filter
          (fun q => q.2.hash == h)).map
          (fun q => (⟨q.1, q.2.path⟩ : RemInfo)) :=
        (sortBy_perm _ _).mem_iff.mp hr
      rcases List.mem_map.mp hr' with ⟨q, hq, rfl⟩
      have hq2 : q ∈ idxFrom 0 removed := (List.mem_filter.mp hq).1
      have h3 := (mem_idxFrom default removed 0 q hq2).2.2
      show (removed.getD q.1 default).path = q.2.path
      rw [show removed.getD q.1 default = q.2 by simpa using h3]
    rcases hE : exactLoop removed added
      (sortBy (fun a b => strLe a.2 b.2)
        ((idxFrom 0 added).map (fun q => (q.1, q.2.path))))
      (buildByHash removed) with ⟨rs, ur, ua⟩
    have hstep : matchExactRenames removed added =
        (rs, filterSnapFiles removed ur, filterSnapFiles added ua) := by
      simp only [matchExactRenames, if_neg htriv, hE]
    rw [hstep]
    show rs = exactRenameSpec removed added
    have hsim := exactLoop_sim removed added
      (sortBy (fun a b => strLe a.2 b.2)
        ((idxFrom 0 added).map (fun q => (q.1, q.2.path))))
      removed (buildByHash removed) hrnd (buildByHash_keys_nodup removed)
      (fun h => initial_H2 removed h) H3init
    rw [hE] at hsim
    have hsim' : rs = exactSpecGo removed
        ((sortBy (fun a b : Nat × String => strLe a.2 b.2)
          ((idxFrom 0 added).map (fun q => (q.1, q.2.path)))).map
          (fun q => added.getD q.1 default)) := hsim
    rw [hsim', addInfos_map_getD]
    rfl

/-- C3: the exact-rename pass is the greedy rule of the spec: iterate the
added files in ascending path order and pair each one whose hash matches
a remaining removed file with the lexicographically first such removed
path, consuming both; and on the spec's S4 example BuildDelta returns
exactly the single rename from B.go to C.go with no added, removed or
changed entries. -/
theorem exact_rename_first_match (removed added : List SnapFile)
    (hr : (removed.map SnapFile.path).Nodup) :
    (matchExactRenames removed added).1 = exactRenameSpec removed added ∧
    BuildDelta ⟨false, 0, none⟩
      (some ⟨"m", "", "", "1", [⟨"A.go", "h1", 3⟩, ⟨"B.go", "h2", 3⟩]⟩)
      (some ⟨"m", "", "", "1", [⟨"A.go", "h1", 3⟩, ⟨"C.go", "h2", 3⟩]⟩) =
      ⟨[], [], [⟨"B.go", "C.go", "h2"⟩], []⟩ :=
  ⟨matchExact_spec_eq removed added hr, by decide⟩

/-- Witness for exact_rename_first_match at a concrete removed and added
pair with duplicate-free paths. -/
theorem exact_rename_first_match_witness :
    ((([⟨"B.go", "h2", 3⟩] : List SnapFile).map SnapFile.path).Nodup) ∧
    ((matchExactRenames [⟨"B.go", "h2", 3⟩] [⟨"C.go", "h2", 3⟩]).1 =
      exactRenameSpec [⟨"B.go", "h2", 3⟩] [⟨"C.go", "h2", 3⟩] ∧
     BuildDelta ⟨false, 0, none⟩
      (some ⟨"m", "", "", "1", [⟨"A.go", "h1", 3⟩, ⟨"B.go", "h2", 3⟩]⟩)
      (some ⟨"m", "", "", "1", [⟨"A.go", "h1", 3⟩, ⟨"C.go", "h2", 3⟩]⟩) =
      ⟨[], [], [⟨"B.go", "C.go", "h2"⟩], []⟩) :=
  ⟨by decide, exact_rename_first_match [⟨"B.go", "h2", 3⟩]
    [⟨"C.go", "h2", 3⟩] (by decide)⟩

end CC.Cache
